import Mathlib

/-!
# picogc: a shallow embedding of `picogc.h`

The collector, its handle stack, the scope frames and the local handles of
`picogc.h` are embedded as pure state transformers over an explicit `World`.

* Pointers (`gc*`, `gc_object*`, `gc_root*`) are natural-number addresses and
  `0` is `NULL`.
* `std::vector<gc_object*>` is a `List Nat`; `push_back` appends at the end,
  `resize` truncates or pads with null pointers, and an indexed write outside
  the bounds has no defined result (`none`).
* `size_t` arithmetic is arithmetic modulo `2 ^ 64`.
* Code that dereferences a null pointer, fails an `assert`, or writes outside
  a vector has no result: the embedding returns `none`.
* `gc::trigger_gc` is declared in `picogc.h` but defined elsewhere; every
  operation that calls it takes it as the parameter `trigger_gc`.
-/

namespace picogc

/-! ## Data model -/

/-- Flag bit of `gc_object::next_`: the object has been marked. -/
def FLAG_MARKED : Nat := 1

/-- Flag bit of `gc_object::next_`: the object has outgoing references. -/
def FLAG_HAS_GC_MEMBERS : Nat := 2

/-- Both flag bits of `gc_object::next_`. -/
def FLAG_MASK : Nat := 3

/-- Number of values of `size_t`: unsigned arithmetic wraps modulo this. -/
def SIZE_MODULUS : Nat := 2 ^ 64

/-- The `config` struct. -/
structure config where
  gc_interval_bytes_ : Nat

/-- The `gc_root` node: the object it keeps alive and its two list links. -/
structure gc_root where
  obj_ : Nat
  prev_ : Nat
  next_ : Nat

/-- The data members of `class gc`.  `config_` holds the pointee of the
`config*` member: nothing in `picogc.h` writes through that pointer. -/
structure gc where
  roots_ : Nat
  stack_ : List Nat
  obj_head_ : Nat
  pending_ : List Nat
  bytes_allocated_since_gc_ : Nat
  config_ : config
  emitter_ : Nat

/-- The whole program state the header touches: the static `scope::top_`, the
collectors by address, the `next_` header word of the object at each address,
and the root nodes by address. -/
structure World where
  top_ : Nat
  gcs : Nat → gc
  next_ : Nat → Nat
  roots : Nat → gc_root

/-- The data member of `local<T>`. -/
structure Local where
  obj_ : Nat
deriving DecidableEq, Repr

/-- The data members of `class scope` (the static `top_` lives in `World`). -/
structure scope where
  prev_ : Nat
  frame_ : Nat
deriving DecidableEq, Repr

/-- A block of raw memory: its address and the bytes it holds. -/
structure block where
  p : Nat
  bytes : List Nat
deriving DecidableEq, Repr

/-! ## `std::vector` and `memset` -/

/-- The call `v.resize(n)` on a vector of pointers: truncate to `n` elements,
or pad with value-initialised (null) pointers up to `n`. -/
def resize (v : List Nat) (n : Nat) : List Nat :=
  v.take n ++ List.replicate (n - v.length) 0

/-- The statement `v[i] = x`: defined only for an index within the bounds. -/
def vector_write (v : List Nat) (i x : Nat) : Option (List Nat) :=
  if i < v.length then some (v.set i x) else none

/-- The call `memset(p, c, n)`: the first `n` bytes of the block become `c`. -/
def memset (b : block) (c n : Nat) : block :=
  { b with bytes := List.replicate n c ++ b.bytes.drop n }

/-! ## `class gc` -/

/-- Replace the collector at address `this`. -/
def World.set_gc (w : World) (this : Nat) (g : gc) : World :=
  { w with gcs := Function.update w.gcs this g }

/-- The method `gc::_register_local`, lines 122-124: `stack_.push_back(o)`. -/
def gc._register_local (this o : Nat) (w : World) : World :=
  w.set_gc this { w.gcs this with stack_ := (w.gcs this).stack_ ++ [o] }

/-- The method `gc::_register(gc_object*, bool)`, lines 208-214.  Writing
through a null `obj` has no result. -/
def gc._register (this obj : Nat) (has_gc_members : Bool) (w : World) : Option World :=
  if obj = 0 then none
  else
    let w1 : World :=
      { w with next_ := (Function.update w.next_ obj
          ((w.gcs this).obj_head_ ||| (if has_gc_members then FLAG_HAS_GC_MEMBERS else 0))) }
    some (w1.set_gc this { w1.gcs this with obj_head_ := obj })

/-- The method `gc::mark`, lines 216-228. -/
def gc.mark (this obj : Nat) (w : World) : World :=
  if obj = 0 then w
  else if w.next_ obj &&& FLAG_MARKED ≠ 0 then w
  else
    let w1 : World :=
      { w with next_ := Function.update w.next_ obj (w.next_ obj ||| FLAG_MARKED) }
    if w1.next_ obj &&& FLAG_HAS_GC_MEMBERS ≠ 0 then
      w1.set_gc this { w1.gcs this with pending_ := (w1.gcs this).pending_ ++ [obj] }
    else w1

/-- The state after the statement `bytes_allocated_since_gc_ += sz` of
`gc::allocate` on collector `this`. -/
def counted (this sz : Nat) (w : World) : World :=
  w.set_gc this { w.gcs this with
    bytes_allocated_since_gc_ := ((w.gcs this).bytes_allocated_since_gc_ + sz) % SIZE_MODULUS }

/-- What a call of `gc::allocate` yields: the state it leaves, the block it
returns (`none` when `::operator new` throws) and, as an observation of the
call, the states on which it invoked `trigger_gc`, in order. -/
structure alloc_result where
  w : World
  p : Option block
  cycles : List World

/-- The method `gc::allocate`, lines 196-206.  `raw` is the outcome of
`::operator new(sz)`: a block, or `none` for `std::bad_alloc`. -/
def gc.allocate (trigger_gc : Nat → World → World) (this sz : Nat)
    (raw : Option block) (w : World) : alloc_result :=
  let w1 : World := counted this sz w
  let r : World × List World :=
    if (w1.gcs this).bytes_allocated_since_gc_ ≥ (w1.gcs this).config_.gc_interval_bytes_ then
      let w2 := trigger_gc this w1
      (w2.set_gc this { w2.gcs this with bytes_allocated_since_gc_ := 0 }, [w1])
    else (w1, [])
  { w := r.1, p := raw.map (fun b => memset b 0 sz), cycles := r.2 }

/-! ## `class scope` -/

/-- The static method `scope::top`, lines 98-101: `assert(top_ != NULL)`. -/
def scope.top (w : World) : Option Nat :=
  if w.top_ = 0 then none else some w.top_

/-- The constructor `scope::scope(gc* gc)`, lines 177-180.  Reading
`gc->stack_` through a null `gc` has no result. -/
def scope.ctor (g : Nat) (w : World) : Option (scope × World) :=
  if g = 0 then none
  else some ({ prev_ := w.top_, frame_ := (w.gcs g).stack_.length }, { w with top_ := g })

/-- The constructor `scope::scope()` with its default argument `gc = top_`. -/
def scope.ctor_default (w : World) : Option (scope × World) :=
  scope.ctor w.top_ w

/-- The destructor `scope::~scope`, lines 182-186. -/
def scope.dtor (s : scope) (w : World) : Option World :=
  if w.top_ = 0 then none
  else
    let w1 := w.set_gc w.top_
      { w.gcs w.top_ with stack_ := resize (w.gcs w.top_).stack_ s.frame_ }
    some { w1 with top_ := s.prev_ }

/-- The method `scope::close`, lines 188-194.  It returns the scope with its
advanced `frame_`, the handle it was given, and the new state. -/
def scope.close (s : scope) (obj : Local) (w : World) : Option (scope × Local × World) :=
  let o := obj.obj_
  if w.top_ = 0 then none
  else
    match vector_write (w.gcs w.top_).stack_ s.frame_ o with
    | none => none
    | some v =>
      let s1 : scope := { s with frame_ := s.frame_ + 1 }
      some (s1, obj, w.set_gc w.top_ { w.gcs w.top_ with stack_ := resize v s1.frame_ })

/-! ## `class local<T>` -/

/-- The constructor `local()`, line 81. -/
def Local.ctor_null : Local := { obj_ := 0 }

/-- The copy constructor `local(const local<T>& x)`, line 82. -/
def Local.ctor_copy (x : Local) (w : World) : Local × World :=
  ({ obj_ := x.obj_ }, w)

/-- The constructor `local(T* obj)`, lines 161-165. -/
def Local.ctor_obj (obj : Nat) (w : World) : Option (Local × World) :=
  match scope.top w with
  | none => none
  | some g => some ({ obj_ := obj }, gc._register_local g obj w)

/-- The copy assignment `operator=(const local<T>& x)`, line 84. -/
def Local.assign_copy (self x : Local) (w : World) : Local × World :=
  ({ self with obj_ := x.obj_ }, w)

/-- The assignment `operator=(T* obj)`, lines 167-175. -/
def Local.assign_obj (self : Local) (obj : Nat) (w : World) : Option (Local × World) :=
  if self.obj_ ≠ obj then
    match scope.top w with
    | none => none
    | some g => some ({ self with obj_ := obj }, gc._register_local g obj w)
  else some (self, w)

/-! ## `class gc_object` -/

/-- The constructor `gc_object::gc_object`, lines 230-236, run on the object
at address `this`. -/
def gc_object.ctor (this : Nat) (has_gc_members : Bool) (w : World) : Option World :=
  match scope.top w with
  | none => none
  | some g => gc._register g this has_gc_members (gc._register_local g this w)

/-- The allocation function `gc_object::operator new`, lines 238-241. -/
def gc_object.operator_new (trigger_gc : Nat → World → World) (sz : Nat)
    (raw : Option block) (w : World) : Option alloc_result :=
  match scope.top w with
  | none => none
  | some g => some (gc.allocate trigger_gc g sz raw w)

/-- The expression `new T(...)` for a class derived from `gc_object`, up to
the end of the `gc_object` base constructor: `operator new`, then the
constructor on the block it returned.  The result carries the observation of
the allocation and the state after the constructor. -/
def new_object (trigger_gc : Nat → World → World) (sz : Nat) (raw : Option block)
    (has_gc_members : Bool) (w : World) : Option (alloc_result × World) :=
  match gc_object.operator_new trigger_gc sz raw w with
  | none => none
  | some r =>
    match r.p with
    | none => none
    | some b =>
      match gc_object.ctor b.p has_gc_members r.w with
      | none => none
      | some w1 => some (r, w1)

/-! ## Programs

A `scope` is an automatic variable, so scopes are destroyed in the reverse
order of their construction.  A program is a sequence of operations run
against the state and the list of the scopes that are open, innermost first;
`close` is called on the innermost open scope. -/

/-- One operation of a program: the declaration `scope s(g)`; the declaration
`scope s` with the default argument; the end of the block of the innermost
open scope; the declaration `local<T> l(p)`; the assignment `l = p` to a
handle whose current value is `h`; the call `s.close(h)` on the innermost
open scope; and the expression `new T(...)` of `sz` bytes for which
`::operator new` returned the block `raw`. -/
inductive Op where
  | scope_ctor (g : Nat)
  | scope_default
  | scope_dtor
  | local_ctor (p : Nat)
  | local_assign (h : Local) (p : Nat)
  | close (h : Local)
  | new_object (sz : Nat) (raw : block) (has_gc_members : Bool)
deriving DecidableEq, Repr

/-- Run one operation. -/
def step (trigger_gc : Nat → World → World) :
    Op → World × List scope → Option (World × List scope)
  | .scope_ctor g, (w, fs) => (scope.ctor g w).map (fun r => (r.2, r.1 :: fs))
  | .scope_default, (w, fs) => (scope.ctor_default w).map (fun r => (r.2, r.1 :: fs))
  | .scope_dtor, (_, []) => none
  | .scope_dtor, (w, s :: fs) => (scope.dtor s w).map (fun w1 => (w1, fs))
  | .local_ctor p, (w, fs) => (Local.ctor_obj p w).map (fun r => (r.2, fs))
  | .local_assign h p, (w, fs) => (Local.assign_obj h p w).map (fun r => (r.2, fs))
  | .close _, (_, []) => none
  | .close h, (w, s :: fs) => (scope.close s h w).map (fun r => (r.2.2, r.1 :: fs))
  | .new_object sz raw has_gc_members, (w, fs) =>
    (new_object trigger_gc sz (some raw) has_gc_members w).map (fun r => (r.2, fs))

/-- Run a program. -/
def run (trigger_gc : Nat → World → World) :
    List Op → World × List scope → Option (World × List scope)
  | [], st => some st
  | op :: ops, st => (step trigger_gc op st).bind (run trigger_gc ops)

/-- The nesting depth after a program started at depth `d`; `none` when the
program destroys a scope it did not construct. -/
def nesting : Nat → List Op → Option Nat
  | d, [] => some d
  | d, .scope_ctor _ :: ops => nesting (d + 1) ops
  | d, .scope_default :: ops => nesting (d + 1) ops
  | 0, .scope_dtor :: _ => none
  | d + 1, .scope_dtor :: ops => nesting d ops
  | d, .local_ctor _ :: ops => nesting d ops
  | d, .local_assign _ _ :: ops => nesting d ops
  | d, .close _ :: ops => nesting d ops
  | d, .new_object _ _ _ :: ops => nesting d ops

/-- The handle stack of every collector. -/
def handle_stacks (w : World) : Nat → List Nat :=
  fun g => (w.gcs g).stack_

/-- The collector each open scope governs, innermost first: the innermost
scope governs `top`, the next one the `prev_` of the innermost, and so on. -/
def scope_gcs : Nat → List scope → List Nat
  | _, [] => []
  | top, s :: rest => top :: scope_gcs s.prev_ rest

/-! ## Marking sequences -/

/-- Modelled from the spec: the mark loop of `gc::_mark`, defined outside
`picogc.h`, pops the worklist; the pop is `pending_.pop_back()`. -/
def pending_pop (this : Nat) (w : World) : World :=
  w.set_gc this { w.gcs this with pending_ := (w.gcs this).pending_.dropLast }

/-- One event of a marking sequence: a call of `mark` on a collector, or a
pop of a collector's worklist. -/
inductive MarkOp where
  | mark (this obj : Nat)
  | pop (this : Nat)
deriving DecidableEq, Repr

/-- Run one event, extending the record of the objects pushed so far with
the entries the call of `mark` appended to the worklist. -/
def mark_step : World × List Nat → MarkOp → World × List Nat
  | (w, pushed), .mark this obj =>
    (gc.mark this obj w,
      pushed ++ ((gc.mark this obj w).gcs this).pending_.drop ((w.gcs this).pending_.length))
  | (w, pushed), .pop this => (pending_pop this w, pushed)

/-- Run a marking sequence from a state with an empty record of pushes. -/
def mark_run (ops : List MarkOp) (w : World) : World × List Nat :=
  ops.foldl mark_step (w, [])

/-- What a marking sequence keeps true: no object is recorded twice, and
every recorded object is marked. -/
def pushes_ok (st : World × List Nat) : Prop :=
  st.2.Nodup ∧ ∀ o ∈ st.2, st.1.next_ o &&& FLAG_MARKED ≠ 0

/-! ## The object chain -/

/-- Modelled from the spec: the successor of an object in the intrusive
chain is its `next_` word with the `FLAG_MASK` bits stripped; the sweep that
reads it is defined outside `picogc.h`. -/
def successor (x : Nat) : Nat :=
  x - (x &&& FLAG_MASK)

/-- Modelled from the spec: the objects of the chain that starts at address
`a`, following at most `fuel` links. -/
def obj_chain (next_ : Nat → Nat) : Nat → Nat → List Nat
  | 0, _ => []
  | fuel + 1, a => if a = 0 then [] else a :: obj_chain next_ fuel (successor (next_ a))

/-! ## Invariants of programs -/

/-- The frame discipline of the handle stacks, relative to reference stacks
`S`.  With no scope open, every stack extends its reference stack.  With
scopes open, the active collector is non-null, the innermost scope's base is
within the active collector's stack, and the discipline holds again for the
remaining scopes once the innermost one has unwound its collector's stack to
its base and restored the previous active collector. -/
def Above (S : Nat → List Nat) : Nat → (Nat → List Nat) → List scope → Prop
  | _, stk, [] => ∀ g, S g <+: stk g
  | top, stk, s :: rest =>
    top ≠ 0 ∧ s.frame_ ≤ (stk top).length ∧
      Above S s.prev_ (Function.update stk top ((stk top).take s.frame_)) rest

/-- What the programs assume of the collection cycle: it leaves the active
collector and every handle stack as they are. -/
def keeps_stacks (trigger_gc : Nat → World → World) : Prop :=
  ∀ g w, (trigger_gc g w).top_ = w.top_ ∧ handle_stacks (trigger_gc g w) = handle_stacks w

/-- The operations the body of a scope on collector `g` may use in C2:
handle bindings and inner scopes on the same collector (with their exits);
no `close` and no allocation. -/
def inner_op (g : Nat) : Op → Bool
  | .scope_ctor g1 => decide (g1 = g)
  | .scope_default => true
  | .scope_dtor => true
  | .local_ctor _ => true
  | .local_assign _ _ => true
  | .close _ => false
  | .new_object _ _ _ => false

/-- Whether an operation may call the collection cycle. -/
def Op.allocates : Op → Bool
  | .new_object _ _ _ => true
  | _ => false

/-- Invariant I3 as a predicate on a state and its open scopes: the base of
every open scope is at most the height of the handle stack of the collector
the scope governs. -/
def bases_within (w : World) (fs : List scope) : Prop :=
  ∀ p ∈ List.zip (scope_gcs w.top_ fs) fs, p.2.frame_ ≤ (w.gcs p.1).stack_.length

/-! ## The spec's reading of the active collector

The spec describes the active-collector lookup as scoped and
last-opened-wins: the open scopes form a stack of collectors, opening a scope
pushes the collector given to it, an exit pops, and the active collector is
the top of that stack (the initial one when no scope is open).  The code
keeps no such stack: it keeps the static `top_` and a `prev_` in every scope.
These definitions follow the spec's words and are compared with the code. -/

/-- The spec's active collector: the collector of the innermost open scope,
or `t0` when no scope is open. -/
def spec_active (t0 : Nat) (st : List Nat) : Nat :=
  st.headD t0

/-- The spec's effect of a scope operation on the stack of collectors given
to the open scopes; `none` for a null collector, for an exit with no scope
open, and for an operation that is not a scope operation. -/
def spec_scope_step (t0 : Nat) : Op → List Nat → Option (List Nat)
  | .scope_ctor g, st => if g = 0 then none else some (g :: st)
  | .scope_default, st => if spec_active t0 st = 0 then none else some (spec_active t0 st :: st)
  | .scope_dtor, [] => none
  | .scope_dtor, _ :: st => some st
  | .local_ctor _, _ => none
  | .local_assign _ _, _ => none
  | .close _, _ => none
  | .new_object _ _ _, _ => none

/-- The spec's stack of collectors after a sequence of scope operations. -/
def spec_scope_run (t0 : Nat) : List Op → List Nat → Option (List Nat)
  | [], st => some st
  | op :: ops, st => (spec_scope_step t0 op st).bind (spec_scope_run t0 ops)

/-- The code's `top_` and `prev_` links represent the spec's stack of
collectors `st` over the initial active collector `t0`: `top_` is the head,
and each scope's `prev_` is the collector below it. -/
def Linked (t0 : Nat) : Nat → List scope → List Nat → Prop
  | top, [], [] => top = t0
  | top, s :: fs, g :: st => top = g ∧ g ≠ 0 ∧ Linked t0 s.prev_ fs st
  | _, [], _ :: _ => False
  | _, _ :: _, [] => False

/-! ## `struct config` and the constructor's states -/

/-- The constructor `config(size_t gc_interval_bytes)`, lines 53-54, called
with an explicit argument. -/
def config.ctor (gc_interval_bytes : Nat) : config :=
  { gc_interval_bytes_ := gc_interval_bytes }

/-- The constructor `config()`, lines 53-54, with its default argument
`8192 * 1024`. -/
def config.ctor_default : config :=
  config.ctor (8192 * 1024)

/-- The states the constructor `gc_object::gc_object`, lines 230-236, passes
through: the state after `_register_local(this)` and the state after
`_register(this, has_gc_members)`. -/
def gc_object.ctor_states (this : Nat) (has_gc_members : Bool) (w : World) :
    Option (World × World) :=
  match scope.top w with
  | none => none
  | some g =>
    match gc._register g this has_gc_members (gc._register_local g this w) with
    | none => none
    | some w2 => some (gc._register_local g this w, w2)

/-! ## The collection cycle

`gc::trigger_gc`, `gc::_setup_roots`, `gc::_mark` and `gc::_sweep` are
declared in `picogc.h` and defined outside it, and the trace operation
`gc_object::gc_mark` is overridden by the classes of the embedder.  They are
modelled from the spec on top of `gc::mark`, which is code of `picogc.h`.
The object graph is the map `refs` from an object to the references its
trace operation enumerates; the persistent roots of a collector are the list
`rs` of the root nodes registered with it. -/

/-- The marked bit of the object at `a` is set. -/
def marked (w : World) (a : Nat) : Prop :=
  w.next_ a &&& FLAG_MARKED ≠ 0

/-- The has-outgoing-references bit of the object at `a` is set. -/
def has_members (w : World) (a : Nat) : Prop :=
  w.next_ a &&& FLAG_HAS_GC_MEMBERS ≠ 0

/-- Calls of `gc::mark` on each pointer of a list, in order. -/
def mark_all (this : Nat) (cs : List Nat) (w : World) : World :=
  cs.foldl (fun w1 c => gc.mark this c w1) w

/-- Modelled from the spec: the trace operation `gc_mark` of the object at
`o`, which calls `mark` on each outgoing reference of the object. -/
def trace (refs : Nat → List Nat) (this o : Nat) (w : World) : World :=
  mark_all this (refs o) w

/-- The pointers a cycle of collector `this` seeds the marking with: the
objects of the persistent roots `rs` and the slots of the handle stack. -/
def seeds (rs : List Nat) (this : Nat) (w : World) : List Nat :=
  rs.map (fun r => (w.roots r).obj_) ++ (w.gcs this).stack_

/-- Modelled from the spec: the state SeedRoots of the cycle
(`gc::_setup_roots`): for every persistent root and every handle on the
handle stack, invoke `mark` on the referenced object. -/
def gc._setup_roots (rs : List Nat) (this : Nat) (w : World) : World :=
  mark_all this (seeds rs this w) w

/-- Modelled from the spec: the state Mark of the cycle (`gc::_mark`):
repeatedly pop the worklist, last in first out, and invoke the trace
operation of the object popped, until the worklist is empty.  `fuel` bounds
the number of pops; the result is `none` when it does not suffice.  The
result carries the objects traced, in order. -/
def gc._mark (refs : Nat → List Nat) (this : Nat) : Nat → World → Option (World × List Nat)
  | 0, w => if (w.gcs this).pending_ = [] then some (w, []) else none
  | fuel + 1, w =>
    match (w.gcs this).pending_.getLast? with
    | none => some (w, [])
    | some o =>
      match gc._mark refs this fuel (trace refs this o (pending_pop this w)) with
      | none => none
      | some r => some (r.1, o :: r.2)

/-- What the sweep of a chain yields: the new head, the header words, and
the objects kept and destroyed, each in chain order. -/
structure sweep_result where
  head : Nat
  next_ : Nat → Nat
  kept : List Nat
  dead : List Nat

/-- Modelled from the spec: the linear pass of the state Sweep over the
chain that starts at `a`.  An unmarked object is destroyed and leaves the
chain; a marked object has its marked bit cleared and remains, linked to the
next object that remains.  `fuel` bounds the number of links followed. -/
def sweep_chain (next_ : Nat → Nat) : Nat → Nat → Option sweep_result
  | 0, a => if a = 0 then some { head := 0, next_ := next_, kept := [], dead := [] } else none
  | fuel + 1, a =>
    if a = 0 then some { head := 0, next_ := next_, kept := [], dead := [] }
    else
      match sweep_chain next_ fuel (successor (next_ a)) with
      | none => none
      | some r =>
        if next_ a &&& FLAG_MARKED ≠ 0 then
          some { head := a,
                 next_ := Function.update r.next_ a
                   (r.head ||| (next_ a &&& FLAG_HAS_GC_MEMBERS)),
                 kept := a :: r.kept, dead := r.dead }
        else some { r with dead := a :: r.dead }

/-- The statistics record `gc_stats` of `picogc.h`, lines 58-65. -/
structure gc_stats where
  on_stack : Nat
  slowly_marked : Nat
  not_collected : Nat
  collected : Nat
deriving DecidableEq, Repr

/-- What a collection cycle yields: the state after the mark phase, the
state after the sweep, the statistics, and the objects traced, kept and
destroyed. -/
structure cycle_result where
  after_mark : World
  w : World
  stats : gc_stats
  traced : List Nat
  kept : List Nat
  dead : List Nat

/-- Modelled from the spec: the state Sweep of the cycle (`gc::_sweep`) on
the chain of collector `this`. -/
def gc._sweep (this fuel : Nat) (w : World) : Option (World × sweep_result) :=
  (sweep_chain w.next_ fuel (w.gcs this).obj_head_).map (fun r =>
    (({ w with next_ := r.next_ } : World).set_gc this { w.gcs this with obj_head_ := r.head },
      r))

/-- Modelled from the spec: a collection cycle (`gc::trigger_gc`):
SeedRoots, then Mark, then Sweep, with the statistics the spec lists: the
roots found on the handle stack, the objects marked through the worklist,
the survivors and the reclaimed objects. -/
def gc.trigger_gc (refs : Nat → List Nat) (rs : List Nat) (mark_fuel sweep_fuel this : Nat)
    (w : World) : Option cycle_result :=
  match gc._mark refs this mark_fuel (gc._setup_roots rs this w) with
  | none => none
  | some m =>
    match gc._sweep this sweep_fuel m.1 with
    | none => none
    | some s =>
      some { after_mark := m.1, w := s.1,
             stats := { on_stack := (w.gcs this).stack_.length,
                        slowly_marked := m.2.length,
                        not_collected := s.2.kept.length,
                        collected := s.2.dead.length },
             traced := m.2, kept := s.2.kept, dead := s.2.dead }

/-- An object is reachable: it is a non-null seed, or a non-null reference
enumerated by the trace operation of a reachable object that has the
has-outgoing-references bit (the collector runs the trace operation of no
other object). -/
inductive Reachable (refs : Nat → List Nat) (next_ : Nat → Nat) (roots : List Nat) :
    Nat → Prop where
  | seed (o : Nat) : o ∈ roots → o ≠ 0 → Reachable refs next_ roots o
  | ref (o c : Nat) : Reachable refs next_ roots o →
      next_ o &&& FLAG_HAS_GC_MEMBERS ≠ 0 → c ∈ refs o → c ≠ 0 →
      Reachable refs next_ roots c

/-- Reachability as invariant I1 words it: an object is a non-null seed, or
a non-null reference enumerated by the trace operation of a reachable
object, whatever the has-outgoing-references bit of that object. -/
inductive Reachable_via_trace (refs : Nat → List Nat) (roots : List Nat) : Nat → Prop where
  | seed (o : Nat) : o ∈ roots → o ≠ 0 → Reachable_via_trace refs roots o
  | ref (o c : Nat) : Reachable_via_trace refs roots o → c ∈ refs o → c ≠ 0 →
      Reachable_via_trace refs roots c

/-- The object graph is finite: `U` lists objects such that every non-null
reference of an object of `U` is an object of `U`. -/
def closed_under (refs : Nat → List Nat) (U : List Nat) : Prop :=
  ∀ u ∈ U, ∀ c ∈ refs u, c ≠ 0 → c ∈ U

/-- The chain that starts at `a` reaches the null pointer within `fuel`
links. -/
def chain_ends (next_ : Nat → Nat) : Nat → Nat → Bool
  | 0, a => decide (a = 0)
  | fuel + 1, a => decide (a = 0) || chain_ends next_ fuel (successor (next_ a))

/-- The objects of `U` that are unmarked. -/
def unmarked_in (w : World) (U : List Nat) : List Nat :=
  U.filter (fun x => decide (w.next_ x &&& FLAG_MARKED = 0))

/-- What the mark loop keeps true, relative to the state `w0` at the start
of the cycle and the seeds `roots`: every marked object with outgoing
references is on the worklist or has all its non-null references marked;
every non-null seed is marked; and the has-outgoing-references bits, the
successors and the chain heads are those of `w0`. -/
def mark_inv (refs : Nat → List Nat) (w0 : World) (roots : List Nat) (this : Nat)
    (w : World) : Prop :=
  (∀ x, marked w x → has_members w x →
    x ∈ (w.gcs this).pending_ ∨ ∀ c ∈ refs x, c ≠ 0 → marked w c) ∧
  (∀ s ∈ roots, s ≠ 0 → marked w s) ∧
  (∀ a, has_members w a ↔ has_members w0 a) ∧
  (∀ a, successor (w.next_ a) = successor (w0.next_ a)) ∧
  (∀ g, (w.gcs g).obj_head_ = (w0.gcs g).obj_head_)

/-- What the mark loop keeps true when the cycle started with an empty
worklist: only reachable objects are marked, and every worklist entry is a
reachable object with outgoing references. -/
def mark_sound (refs : Nat → List Nat) (w0 : World) (roots : List Nat) (this : Nat)
    (w : World) : Prop :=
  (∀ x, marked w x → Reachable refs w0.next_ roots x) ∧
  (∀ x ∈ (w.gcs this).pending_, Reachable refs w0.next_ roots x ∧ has_members w x) ∧
  (∀ a, has_members w a ↔ has_members w0 a)

/-- The worklist holds no object twice and only marked objects. -/
def worklist_ok (this : Nat) (w : World) : Prop :=
  (w.gcs this).pending_.Nodup ∧ ∀ x ∈ (w.gcs this).pending_, marked w x

/-- The modelled cycle as the function `gc::allocate` calls: the state the
cycle leaves, or the state unchanged when the fuels do not suffice. -/
def modelled_cycle (refs : Nat → List Nat) (rs : List Nat) (mark_fuel sweep_fuel : Nat) :
    Nat → World → World :=
  fun this w =>
    match gc.trigger_gc refs rs mark_fuel sweep_fuel this w with
    | none => w
    | some r => r.w

/-! ## States and programs for the examples -/

/-- A state for the examples: no active collector, every collector empty with
a threshold of 1000 bytes, every header word `hdr`. -/
def world0 (hdr : Nat) : World :=
  { top_ := 0,
    gcs := fun _ =>
      { roots_ := 0, stack_ := [], obj_head_ := 0, pending_ := [],
        bytes_allocated_since_gc_ := 0, config_ := { gc_interval_bytes_ := 1000 },
        emitter_ := 0 },
    next_ := fun _ => hdr,
    roots := fun _ => { obj_ := 0, prev_ := 0, next_ := 0 } }

/-- A state for the examples: active collector `top`, every collector with
handle stack `stack`, byte counter `bytes` and threshold `interval`, every
header word zero. -/
def example_world (top bytes interval : Nat) (stack : List Nat) : World :=
  { top_ := top,
    gcs := fun _ =>
      { roots_ := 0, stack_ := stack, obj_head_ := 0, pending_ := [],
        bytes_allocated_since_gc_ := bytes, config_ := { gc_interval_bytes_ := interval },
        emitter_ := 0 },
    next_ := fun _ => 0,
    roots := fun _ => { obj_ := 0, prev_ := 0, next_ := 0 } }

/-- A collection cycle that changes nothing, for the examples. -/
def no_cycle : Nat → World → World :=
  fun _ w => w

/-- A program for the examples: a scope on collector 1 that binds a handle
and constructs an object, a scope on collector 2 that binds a handle, and an
innermost scope on collector 1 that binds a handle and closes it. -/
def example_program : List Op :=
  [Op.scope_ctor 1, Op.local_ctor 8, Op.new_object 16 { p := 64, bytes := [] } true,
    Op.scope_ctor 2, Op.local_ctor 7, Op.scope_ctor 1, Op.local_ctor 9,
    Op.close { obj_ := 9 }]

/-- The state `example_program` reaches from a state with empty stacks and
no active collector. -/
def example_final : World × List scope :=
  (run no_cycle example_program (example_world 0 0 1000 [], [])).getD
    (example_world 0 0 1000 [], [])

/-- A state for the examples: active collector 1, every collector with chain
head `head` and empty stacks, the header words given by `next_`. -/
def chain_world (head : Nat) (next_ : Nat → Nat) : World :=
  { top_ := 1,
    gcs := fun _ =>
      { roots_ := 0, stack_ := [], obj_head_ := head, pending_ := [],
        bytes_allocated_since_gc_ := 0, config_ := { gc_interval_bytes_ := 1000 },
        emitter_ := 0 },
    next_ := next_,
    roots := fun _ => { obj_ := 0, prev_ := 0, next_ := 0 } }

/-- A state for the examples: active collector 1, every collector with
handle stack `stack`, chain head `head`, an empty worklist and no persistent
root, the header words given by `next_`. -/
def heap_world (stack : List Nat) (head : Nat) (next_ : Nat → Nat) : World :=
  { top_ := 1,
    gcs := fun _ =>
      { roots_ := 0, stack_ := stack, obj_head_ := head, pending_ := [],
        bytes_allocated_since_gc_ := 0, config_ := { gc_interval_bytes_ := 1000 },
        emitter_ := 0 },
    next_ := next_,
    roots := fun _ => { obj_ := 0, prev_ := 0, next_ := 0 } }

/-- An object graph for the examples: object 8 references object 12 and
itself, object 12 references object 8, object 16 references nothing. -/
def example_refs : Nat → List Nat :=
  fun o => if o = 8 then [12, 8] else if o = 12 then [8] else []

/-- Header words for the examples: the chain 16, 12, 8, with objects 8 and
12 holding outgoing references and no object marked. -/
def example_headers : Nat → Nat :=
  fun a => if a = 16 then 12 else if a = 12 then 10 else if a = 8 then 2 else 0

/-- Header words for the examples: the chain 12, 8, in which object 8 has
outgoing references and is already marked, and object 12 is unmarked. -/
def stale_headers : Nat → Nat :=
  fun a => if a = 12 then 8 else if a = 8 then 3 else 0

/-- Header words for the examples: the chain 12, 8 with no object marked, in
which object 12 has the has-outgoing-references bit and object 8, registered
with `has_gc_members = false`, does not. -/
def undeclared_headers : Nat → Nat :=
  fun a => if a = 12 then 10 else 0

/-! # Theorems -/

/-! ## Bit arithmetic on the header word -/

theorem testBit_one_succ (i : Nat) : Nat.testBit 1 (i + 1) = false := by
  simp [Nat.testBit_succ]

theorem or_marked_and_marked (x : Nat) : (x ||| FLAG_MARKED) &&& FLAG_MARKED = 1 := by
  unfold FLAG_MARKED
  apply Nat.eq_of_testBit_eq
  intro i
  simp only [Nat.testBit_and, Nat.testBit_or]
  rcases i with _ | i
  · simp
  · simp [testBit_one_succ]

theorem or_marked_and_members (x : Nat) :
    (x ||| FLAG_MARKED) &&& FLAG_HAS_GC_MEMBERS = x &&& FLAG_HAS_GC_MEMBERS := by
  unfold FLAG_MARKED FLAG_HAS_GC_MEMBERS
  apply Nat.eq_of_testBit_eq
  intro i
  simp only [Nat.testBit_and, Nat.testBit_or]
  rcases i with _ | i
  · simp
  · simp [testBit_one_succ]

/-! ## Marking -/

theorem mark_null (this : Nat) (w : World) : gc.mark this 0 w = w := by
  simp [gc.mark]

theorem mark_marked (this obj : Nat) (w : World)
    (h : w.next_ obj &&& FLAG_MARKED ≠ 0) : gc.mark this obj w = w := by
  unfold gc.mark
  by_cases h0 : obj = 0
  · simp [h0]
  · simp [h0, h]

theorem mark_unmarked (this obj : Nat) (w : World) (h0 : obj ≠ 0)
    (h : w.next_ obj &&& FLAG_MARKED = 0) :
    gc.mark this obj w =
      if w.next_ obj &&& FLAG_HAS_GC_MEMBERS ≠ 0 then
        { w with
          next_ := Function.update w.next_ obj (w.next_ obj ||| FLAG_MARKED),
          gcs := Function.update w.gcs this
            { w.gcs this with pending_ := (w.gcs this).pending_ ++ [obj] } }
      else { w with next_ := Function.update w.next_ obj (w.next_ obj ||| FLAG_MARKED) } := by
  unfold gc.mark
  simp only [h0, h, if_false, ne_eq, not_true_eq_false, Function.update_same,
    or_marked_and_members, World.set_gc]

/-- The header word of every object after a call of `mark`: only the word of
an unmarked, non-null argument changes, and it gains the marked bit. -/
theorem mark_next (this obj a : Nat) (w : World) :
    (gc.mark this obj w).next_ a =
      if a = obj ∧ obj ≠ 0 ∧ w.next_ obj &&& FLAG_MARKED = 0 then w.next_ a ||| FLAG_MARKED
      else w.next_ a := by
  by_cases h0 : obj = 0
  · subst h0; simp [mark_null]
  by_cases h : w.next_ obj &&& FLAG_MARKED = 0
  · rw [mark_unmarked this obj w h0 h]
    by_cases ha : a = obj
    · subst ha
      split <;> simp [h0, h]
    · split <;> simp [ha, Function.update_noteq]
  · rw [mark_marked this obj w h]
    simp [h]

/-- C3: `gc::mark(obj)` has exactly four outcomes.  A null `obj` leaves the
state unchanged; an `obj` whose marked bit is set leaves the state unchanged;
an unmarked `obj` with the has-outgoing-references bit gets the marked bit and
is appended to the collector's pending worklist, nothing else changing; an
unmarked `obj` without that bit gets the marked bit and nothing else changes,
the worklist included. -/
theorem C3_mark_four_outcomes (this obj : Nat) (w : World) :
    (obj = 0 → gc.mark this obj w = w) ∧
    (obj ≠ 0 → w.next_ obj &&& FLAG_MARKED ≠ 0 → gc.mark this obj w = w) ∧
    (obj ≠ 0 → w.next_ obj &&& FLAG_MARKED = 0 →
      w.next_ obj &&& FLAG_HAS_GC_MEMBERS ≠ 0 →
        (gc.mark this obj w).next_ obj &&& FLAG_MARKED ≠ 0 ∧
        ((gc.mark this obj w).gcs this).pending_ = (w.gcs this).pending_ ++ [obj] ∧
        gc.mark this obj w =
          { w with
            next_ := Function.update w.next_ obj (w.next_ obj ||| FLAG_MARKED),
            gcs := Function.update w.gcs this
              { w.gcs this with pending_ := (w.gcs this).pending_ ++ [obj] } }) ∧
    (obj ≠ 0 → w.next_ obj &&& FLAG_MARKED = 0 →
      w.next_ obj &&& FLAG_HAS_GC_MEMBERS = 0 →
        (gc.mark this obj w).next_ obj &&& FLAG_MARKED ≠ 0 ∧
        (gc.mark this obj w).gcs = w.gcs ∧
        gc.mark this obj w =
          { w with next_ := Function.update w.next_ obj (w.next_ obj ||| FLAG_MARKED) }) := by
  refine ⟨?_, ?_, ?_, ?_⟩
  · intro h0
    subst h0
    exact mark_null this w
  · intro _ h
    exact mark_marked this obj w h
  · intro h0 h hm
    rw [mark_unmarked this obj w h0 h]
    simp [hm, or_marked_and_marked]
  · intro h0 h hm
    rw [mark_unmarked this obj w h0 h]
    simp [hm, or_marked_and_marked]

/-- C3 at concrete inputs: on collector 1, marking the unmarked object 8 with
outgoing references sets bit 0 of its header and queues it; marking object 8
without outgoing references only sets the bit. -/
theorem C3_mark_four_outcomes_witness :
    ((gc.mark 1 8 (world0 2)).next_ 8 &&& FLAG_MARKED ≠ 0 ∧
      ((gc.mark 1 8 (world0 2)).gcs 1).pending_ = ((world0 2).gcs 1).pending_ ++ [8]) ∧
    ((gc.mark 1 8 (world0 0)).next_ 8 &&& FLAG_MARKED ≠ 0 ∧
      (gc.mark 1 8 (world0 0)).gcs = (world0 0).gcs) ∧
    gc.mark 1 0 (world0 2) = world0 2 ∧
    gc.mark 1 8 (world0 3) = world0 3 :=
  ⟨⟨((C3_mark_four_outcomes 1 8 (world0 2)).2.2.1 (by decide) (by decide) (by decide)).1,
     ((C3_mark_four_outcomes 1 8 (world0 2)).2.2.1 (by decide) (by decide) (by decide)).2.1⟩,
   ⟨((C3_mark_four_outcomes 1 8 (world0 0)).2.2.2 (by decide) (by decide) (by decide)).1,
     ((C3_mark_four_outcomes 1 8 (world0 0)).2.2.2 (by decide) (by decide) (by decide)).2.1⟩,
   (C3_mark_four_outcomes 1 0 (world0 2)).1 rfl,
   (C3_mark_four_outcomes 1 8 (world0 3)).2.1 (by decide) (by decide)⟩

theorem mark_mark (this this2 obj : Nat) (w : World) :
    gc.mark this2 obj (gc.mark this obj w) = gc.mark this obj w := by
  by_cases h0 : obj = 0
  · subst h0; simp [mark_null]
  · apply mark_marked
    rw [mark_next]
    by_cases h : w.next_ obj &&& FLAG_MARKED = 0
    · simp [h0, h, or_marked_and_marked]
    · simp [h]

/-- The worklist of every collector after a call of `mark`: the collector
called gains the argument when it was non-null, unmarked and has outgoing
references; no other worklist changes. -/
theorem mark_pending (this obj g : Nat) (w : World) :
    ((gc.mark this obj w).gcs g).pending_ =
      if g = this ∧ obj ≠ 0 ∧ w.next_ obj &&& FLAG_MARKED = 0 ∧
          w.next_ obj &&& FLAG_HAS_GC_MEMBERS ≠ 0 then (w.gcs g).pending_ ++ [obj]
      else (w.gcs g).pending_ := by
  by_cases h0 : obj = 0
  · subst h0; simp [mark_null]
  by_cases h : w.next_ obj &&& FLAG_MARKED = 0
  · rw [mark_unmarked this obj w h0 h]
    by_cases hm : w.next_ obj &&& FLAG_HAS_GC_MEMBERS = 0
    · simp [hm]
    · by_cases hg : g = this
      · subst hg; simp [hm, h0, h]
      · simp [hm, hg, Function.update_noteq]
  · rw [mark_marked this obj w h]
    simp [h]

/-- The entries a call of `mark` appends to the worklist it was called on. -/
theorem mark_pushed (this obj : Nat) (w : World) :
    ((gc.mark this obj w).gcs this).pending_.drop ((w.gcs this).pending_.length) =
      if obj ≠ 0 ∧ w.next_ obj &&& FLAG_MARKED = 0 ∧
          w.next_ obj &&& FLAG_HAS_GC_MEMBERS ≠ 0 then [obj] else [] := by
  rw [mark_pending]
  by_cases hc : obj ≠ 0 ∧ w.next_ obj &&& FLAG_MARKED = 0 ∧
      w.next_ obj &&& FLAG_HAS_GC_MEMBERS ≠ 0
  · simp [hc]
  · simp [hc]

theorem marked_of_mark (this obj a : Nat) (w : World)
    (h : w.next_ a &&& FLAG_MARKED ≠ 0) :
    (gc.mark this obj w).next_ a &&& FLAG_MARKED ≠ 0 := by
  rw [mark_next]
  split
  · simp [or_marked_and_marked]
  · exact h

theorem mark_step_ok (st : World × List Nat) (op : MarkOp) (h : pushes_ok st) :
    pushes_ok (mark_step st op) := by
  obtain ⟨w, pushed⟩ := st
  obtain ⟨hnd, hm⟩ := h
  cases op with
  | mark this obj =>
    simp only [mark_step, pushes_ok]
    rw [mark_pushed]
    by_cases hc : obj ≠ 0 ∧ w.next_ obj &&& FLAG_MARKED = 0 ∧
        w.next_ obj &&& FLAG_HAS_GC_MEMBERS ≠ 0
    · rw [if_pos hc]
      have hnot : obj ∉ pushed := fun hin => hm obj hin hc.2.1
      constructor
      · rw [List.nodup_append]
        refine ⟨hnd, List.nodup_singleton obj, ?_⟩
        intro a ha hb
        rw [List.mem_singleton] at hb
        exact hnot (hb ▸ ha)
      · intro o ho
        rw [List.mem_append, List.mem_singleton] at ho
        rcases ho with ho | ho
        · exact marked_of_mark this obj o w (hm o ho)
        · subst ho
          rw [mark_next]
          simp [hc.1, hc.2.1, or_marked_and_marked]
    · rw [if_neg hc, List.append_nil]
      exact ⟨hnd, fun o ho => marked_of_mark this obj o w (hm o ho)⟩
  | pop this =>
    exact ⟨hnd, hm⟩

theorem mark_foldl_ok (ops : List MarkOp) (st : World × List Nat) (h : pushes_ok st) :
    pushes_ok (ops.foldl mark_step st) := by
  induction ops generalizing st with
  | nil => exact h
  | cons op ops ih => exact ih (mark_step st op) (mark_step_ok st op h)

/-- C4: `mark` is idempotent and enqueues at most once.  A second `mark` of
the same object, on the same or on any other collector, leaves the state the
first one produced; a call of `mark`
only ever appends to the worklist of its collector, and what it appends is
what the record of a marking sequence collects; and in every sequence of
`mark` calls and worklist pops, from any starting state (so also from one in
which every object is unmarked), no object is pushed twice. -/
theorem C4_mark_idempotent_enqueues_once :
    (∀ (this this2 obj : Nat) (w : World),
      gc.mark this2 obj (gc.mark this obj w) = gc.mark this obj w) ∧
    (∀ (this obj : Nat) (w : World),
      ((gc.mark this obj w).gcs this).pending_ =
        (w.gcs this).pending_ ++
          ((gc.mark this obj w).gcs this).pending_.drop ((w.gcs this).pending_.length)) ∧
    (∀ (ops : List MarkOp) (w : World) (o : Nat), (mark_run ops w).2.count o ≤ 1) := by
  refine ⟨mark_mark, ?_, ?_⟩
  · intro this obj w
    rw [mark_pushed, mark_pending]
    by_cases hc : obj ≠ 0 ∧ w.next_ obj &&& FLAG_MARKED = 0 ∧
        w.next_ obj &&& FLAG_HAS_GC_MEMBERS ≠ 0
    · simp [hc]
    · simp [hc]
  · intro ops w o
    have h := mark_foldl_ok ops (w, []) ⟨List.nodup_nil, fun o ho => by simp at ho⟩
    exact List.nodup_iff_count_le_one.mp h.1 o

/-! ## Allocation -/

/-- C5, at an input where the claim as stated fails: with the counter at
`2 ^ 64 - 16`, a request of 16 bytes and a threshold of `2 ^ 64 - 1`, all
three `size_t` values, the sum reaches the threshold but `allocate` runs no
cycle: the counter has wrapped to 0. -/
theorem C5_counterexample :
    ((example_world 1 (2 ^ 64 - 16) (2 ^ 64 - 1) []).gcs 1).bytes_allocated_since_gc_
        < SIZE_MODULUS ∧
    16 < SIZE_MODULUS ∧
    ((example_world 1 (2 ^ 64 - 16) (2 ^ 64 - 1) []).gcs 1).config_.gc_interval_bytes_
        < SIZE_MODULUS ∧
    ((example_world 1 (2 ^ 64 - 16) (2 ^ 64 - 1) []).gcs 1).bytes_allocated_since_gc_ + 16 ≥
      ((example_world 1 (2 ^ 64 - 16) (2 ^ 64 - 1) []).gcs 1).config_.gc_interval_bytes_ ∧
    (gc.allocate no_cycle 1 16 (some { p := 64, bytes := List.replicate 16 7 })
      (example_world 1 (2 ^ 64 - 16) (2 ^ 64 - 1) [])).cycles.length ≠ 1 ∧
    (gc.allocate no_cycle 1 16 (some { p := 64, bytes := List.replicate 16 7 })
      (example_world 1 (2 ^ 64 - 16) (2 ^ 64 - 1) [])).cycles = [] := by
  simp [example_world, gc.allocate, counted, World.set_gc, SIZE_MODULUS]

/-- C5, amended: `allocate(sz)` compares the wrapped sum
`(c + sz) mod 2 ^ 64` with the threshold `t`.  When the wrapped sum reaches
`t` it invokes `trigger_gc` exactly once, on the state with the counter
already advanced, and leaves the counter at 0; otherwise it invokes no cycle
and leaves the counter at the wrapped sum.  When `c + sz` does not wrap this
is the rule of the claim. -/
theorem C5_allocate_trigger_rule (trigger_gc : Nat → World → World) (this sz : Nat)
    (raw : Option block) (w : World) :
    ((((w.gcs this).bytes_allocated_since_gc_ + sz) % SIZE_MODULUS ≥
        (w.gcs this).config_.gc_interval_bytes_ →
      (gc.allocate trigger_gc this sz raw w).cycles.length = 1 ∧
      (gc.allocate trigger_gc this sz raw w).cycles = [counted this sz w] ∧
      (((gc.allocate trigger_gc this sz raw w).w).gcs this).bytes_allocated_since_gc_ = 0) ∧
    (((w.gcs this).bytes_allocated_since_gc_ + sz) % SIZE_MODULUS <
        (w.gcs this).config_.gc_interval_bytes_ →
      (gc.allocate trigger_gc this sz raw w).cycles = [] ∧
      (((gc.allocate trigger_gc this sz raw w).w).gcs this).bytes_allocated_since_gc_ =
        ((w.gcs this).bytes_allocated_since_gc_ + sz) % SIZE_MODULUS)) ∧
    ((w.gcs this).bytes_allocated_since_gc_ + sz < SIZE_MODULUS →
      ((w.gcs this).bytes_allocated_since_gc_ + sz ≥ (w.gcs this).config_.gc_interval_bytes_ →
        (gc.allocate trigger_gc this sz raw w).cycles.length = 1 ∧
        (((gc.allocate trigger_gc this sz raw w).w).gcs this).bytes_allocated_since_gc_ = 0) ∧
      ((w.gcs this).bytes_allocated_since_gc_ + sz < (w.gcs this).config_.gc_interval_bytes_ →
        (gc.allocate trigger_gc this sz raw w).cycles = [] ∧
        (((gc.allocate trigger_gc this sz raw w).w).gcs this).bytes_allocated_since_gc_ =
          (w.gcs this).bytes_allocated_since_gc_ + sz)) := by
  have key : ((((w.gcs this).bytes_allocated_since_gc_ + sz) % SIZE_MODULUS ≥
        (w.gcs this).config_.gc_interval_bytes_ →
      (gc.allocate trigger_gc this sz raw w).cycles.length = 1 ∧
      (gc.allocate trigger_gc this sz raw w).cycles = [counted this sz w] ∧
      (((gc.allocate trigger_gc this sz raw w).w).gcs this).bytes_allocated_since_gc_ = 0) ∧
    (((w.gcs this).bytes_allocated_since_gc_ + sz) % SIZE_MODULUS <
        (w.gcs this).config_.gc_interval_bytes_ →
      (gc.allocate trigger_gc this sz raw w).cycles = [] ∧
      (((gc.allocate trigger_gc this sz raw w).w).gcs this).bytes_allocated_since_gc_ =
        ((w.gcs this).bytes_allocated_since_gc_ + sz) % SIZE_MODULUS)) := by
    constructor
    · intro h
      simp [gc.allocate, counted, World.set_gc, h]
    · intro h
      simp [gc.allocate, counted, World.set_gc, Nat.not_le.mpr h]
  refine ⟨key, ?_⟩
  intro hlt
  rw [Nat.mod_eq_of_lt hlt] at key
  exact ⟨fun h => ⟨(key.1 h).1, (key.1 h).2.2⟩, key.2⟩

/-- C5 at concrete inputs: the spec's example (counter 500, request 600,
threshold 1000) runs one cycle and resets the counter; a request of 400
runs none and leaves the counter at 900. -/
theorem C5_allocate_trigger_rule_witness :
    ((gc.allocate no_cycle 1 600 none (example_world 1 500 1000 [])).cycles.length = 1 ∧
      (((gc.allocate no_cycle 1 600 none (example_world 1 500 1000 [])).w).gcs
        1).bytes_allocated_since_gc_ = 0) ∧
    ((gc.allocate no_cycle 1 400 none (example_world 1 500 1000 [])).cycles = [] ∧
      (((gc.allocate no_cycle 1 400 none (example_world 1 500 1000 [])).w).gcs
        1).bytes_allocated_since_gc_ = 500 + 400) :=
  ⟨((C5_allocate_trigger_rule no_cycle 1 600 none (example_world 1 500 1000 [])).2
      (by decide)).1 (by decide),
   ((C5_allocate_trigger_rule no_cycle 1 400 none (example_world 1 500 1000 [])).2
      (by decide)).2 (by decide)⟩

/-- The state on which `allocate` runs its cycle differs from the state
before the request in the byte counter of its collector only. -/
theorem advance_counter_frame (this n : Nat) (w : World) :
    (w.set_gc this { w.gcs this with bytes_allocated_since_gc_ := n }).top_ = w.top_ ∧
    (w.set_gc this { w.gcs this with bytes_allocated_since_gc_ := n }).next_ = w.next_ ∧
    (w.set_gc this { w.gcs this with bytes_allocated_since_gc_ := n }).roots = w.roots ∧
    ∀ g,
      ((w.set_gc this { w.gcs this with bytes_allocated_since_gc_ := n }).gcs g).stack_ =
        (w.gcs g).stack_ ∧
      ((w.set_gc this { w.gcs this with bytes_allocated_since_gc_ := n }).gcs g).obj_head_ =
        (w.gcs g).obj_head_ ∧
      ((w.set_gc this { w.gcs this with bytes_allocated_since_gc_ := n }).gcs g).roots_ =
        (w.gcs g).roots_ ∧
      ((w.set_gc this { w.gcs this with bytes_allocated_since_gc_ := n }).gcs g).pending_ =
        (w.gcs g).pending_ := by
  refine ⟨rfl, rfl, rfl, ?_⟩
  intro g
  by_cases hg : g = this
  · subst hg; simp [World.set_gc]
  · simp [World.set_gc, Function.update_noteq hg]

/-- The effect of the `gc_object` constructor under an active collector. -/
theorem ctor_effect (this g : Nat) (has_gc_members : Bool) (w : World)
    (hg : scope.top w = some g) (hp : this ≠ 0) :
    ∃ w1, gc_object.ctor this has_gc_members w = some w1 ∧
      (w1.gcs g).stack_ = (w.gcs g).stack_ ++ [this] ∧
      (w1.gcs g).obj_head_ = this ∧
      w1.next_ this =
        ((w.gcs g).obj_head_ ||| (if has_gc_members then FLAG_HAS_GC_MEMBERS else 0)) ∧
      w1.top_ = w.top_ ∧
      (∀ g1, (w1.gcs g1).stack_ =
        if g1 = g then (w.gcs g1).stack_ ++ [this] else (w.gcs g1).stack_) := by
  simp only [gc_object.ctor, hg, gc._register, hp, if_false]
  refine ⟨_, rfl, ?_, ?_, ?_, rfl, ?_⟩
  · simp [World.set_gc, gc._register_local]
  · simp [World.set_gc, gc._register_local]
  · simp [World.set_gc, gc._register_local]
  · intro g1
    by_cases h1 : g1 = g
    · subst h1; simp [World.set_gc, gc._register_local]
    · simp [World.set_gc, gc._register_local, Function.update_noteq h1, h1]

/-- C6: counter, then collect, then allocate.  When the request of a
`new` expression reaches the threshold, `allocate` invokes the cycle exactly
once, on a state that differs from the state before the request in the byte
counter only: the handle stacks, chain heads, header words (hence the object
chains), root lists and worklists are those from before the request, so an
address that was on no stack and in no chain is on none during the cycle.
The new object is pushed on the handle stack and made the chain head by the
constructor, which runs on the state the cycle left. -/
theorem C6_cycle_precedes_construction (trigger_gc : Nat → World → World) (sz : Nat)
    (b : block) (has_gc_members : Bool) (w : World) (g : Nat)
    (hg : scope.top w = some g) (hp : b.p ≠ 0)
    (htrig : ((w.gcs g).bytes_allocated_since_gc_ + sz) % SIZE_MODULUS ≥
      (w.gcs g).config_.gc_interval_bytes_) :
    gc_object.operator_new trigger_gc sz (some b) w =
      some (gc.allocate trigger_gc g sz (some b) w) ∧
    (gc.allocate trigger_gc g sz (some b) w).cycles = [counted g sz w] ∧
    (counted g sz w).top_ = w.top_ ∧ (counted g sz w).next_ = w.next_ ∧
    (counted g sz w).roots = w.roots ∧
    (∀ g1, ((counted g sz w).gcs g1).stack_ = (w.gcs g1).stack_ ∧
      ((counted g sz w).gcs g1).obj_head_ = (w.gcs g1).obj_head_ ∧
      ((counted g sz w).gcs g1).roots_ = (w.gcs g1).roots_ ∧
      ((counted g sz w).gcs g1).pending_ = (w.gcs g1).pending_ ∧
      (∀ fuel, obj_chain (counted g sz w).next_ fuel ((counted g sz w).gcs g1).obj_head_ =
        obj_chain w.next_ fuel (w.gcs g1).obj_head_) ∧
      (b.p ∉ (w.gcs g1).stack_ → b.p ∉ ((counted g sz w).gcs g1).stack_) ∧
      (∀ fuel, b.p ∉ obj_chain w.next_ fuel (w.gcs g1).obj_head_ →
        b.p ∉ obj_chain (counted g sz w).next_ fuel ((counted g sz w).gcs g1).obj_head_)) ∧
    (gc.allocate trigger_gc g sz (some b) w).w =
      (trigger_gc g (counted g sz w)).set_gc g
        { (trigger_gc g (counted g sz w)).gcs g with bytes_allocated_since_gc_ := 0 } ∧
    (gc.allocate trigger_gc g sz (some b) w).p = some (memset b 0 sz) ∧
    (memset b 0 sz).p = b.p ∧
    new_object trigger_gc sz (some b) has_gc_members w =
      (gc_object.ctor b.p has_gc_members (gc.allocate trigger_gc g sz (some b) w).w).map
        (fun w1 => (gc.allocate trigger_gc g sz (some b) w, w1)) ∧
    (∀ g2, scope.top (gc.allocate trigger_gc g sz (some b) w).w = some g2 →
      ∃ w1, new_object trigger_gc sz (some b) has_gc_members w =
          some (gc.allocate trigger_gc g sz (some b) w, w1) ∧
        (w1.gcs g2).stack_ =
          ((gc.allocate trigger_gc g sz (some b) w).w.gcs g2).stack_ ++ [b.p] ∧
        (w1.gcs g2).obj_head_ = b.p) := by
  have hfr := advance_counter_frame g
    (((w.gcs g).bytes_allocated_since_gc_ + sz) % SIZE_MODULUS) w
  have hr : gc_object.operator_new trigger_gc sz (some b) w =
      some (gc.allocate trigger_gc g sz (some b) w) := by
    simp [gc_object.operator_new, hg]
  have hcyc : (gc.allocate trigger_gc g sz (some b) w).cycles = [counted g sz w] := by
    simp [gc.allocate, counted, World.set_gc, htrig]
  have hw : (gc.allocate trigger_gc g sz (some b) w).w =
      (trigger_gc g (counted g sz w)).set_gc g
        { (trigger_gc g (counted g sz w)).gcs g with bytes_allocated_since_gc_ := 0 } := by
    simp [gc.allocate, counted, World.set_gc, htrig]
  have hpb : (gc.allocate trigger_gc g sz (some b) w).p = some (memset b 0 sz) := rfl
  have hnew : new_object trigger_gc sz (some b) has_gc_members w =
      (gc_object.ctor b.p has_gc_members (gc.allocate trigger_gc g sz (some b) w).w).map
        (fun w1 => (gc.allocate trigger_gc g sz (some b) w, w1)) := by
    simp only [new_object, hr, hpb]
    have : (memset b 0 sz).p = b.p := rfl
    rw [this]
    cases gc_object.ctor b.p has_gc_members (gc.allocate trigger_gc g sz (some b) w).w <;> rfl
  refine ⟨hr, hcyc, hfr.1, hfr.2.1, hfr.2.2.1, ?_, hw, hpb, rfl, hnew, ?_⟩
  · intro g1
    obtain ⟨h1, h2, h3, h4⟩ := hfr.2.2.2 g1
    refine ⟨h1, h2, h3, h4, ?_, ?_, ?_⟩
    · intro fuel
      show obj_chain (counted g sz w).next_ fuel ((counted g sz w).gcs g1).obj_head_ = _
      unfold counted
      rw [h2, hfr.2.1]
    · intro hn
      unfold counted
      rw [h1]; exact hn
    · intro fuel hn
      unfold counted
      rw [h2, hfr.2.1]; exact hn
  · intro g2 h2
    obtain ⟨w1, hc, hs, hh, _⟩ := ctor_effect b.p g2 has_gc_members _ h2 hp
    exact ⟨w1, by rw [hnew, hc]; rfl, hs, hh⟩

/-- C6 at a concrete input: counter 500, request 600, threshold 1000, the
block at address 64, collector 1 active with handle stack `[8]`.  The cycle
sees the stack `[8]`; the constructed object is on the stack afterwards. -/
theorem C6_cycle_precedes_construction_witness :
    (gc.allocate no_cycle 1 600 (some { p := 64, bytes := [] })
      (example_world 1 500 1000 [8])).cycles = [counted 1 600 (example_world 1 500 1000 [8])] ∧
    ((counted 1 600 (example_world 1 500 1000 [8])).gcs 1).stack_ = [8] ∧
    (new_object no_cycle 600 (some { p := 64, bytes := [] }) true
      (example_world 1 500 1000 [8])).map (fun x => (x.2.gcs 1).stack_) = some [8, 64] :=
  ⟨(C6_cycle_precedes_construction no_cycle 600 { p := 64, bytes := [] } true
      (example_world 1 500 1000 [8]) 1 (by decide) (by decide) (by decide)).2.1,
   by decide, by decide⟩

/-! ## Local handles -/

/-- The effect of `_register_local` on every collector. -/
theorem register_local_gcs (this o g : Nat) (w : World) :
    (gc._register_local this o w).gcs g =
      if g = this then { w.gcs g with stack_ := (w.gcs g).stack_ ++ [o] } else w.gcs g := by
  by_cases h : g = this
  · subst h; simp [gc._register_local, World.set_gc]
  · simp [gc._register_local, World.set_gc, Function.update_noteq h, h]

/-- C7, at an input where the claim as stated fails: assigning the pointer 8
to a handle that already holds 8 pushes nothing; the handle stack of the
active collector keeps its height. -/
theorem C7_counterexample :
    scope.top (example_world 1 0 1000 [8]) = some 1 ∧
    (Local.assign_obj { obj_ := 8 } 8 (example_world 1 0 1000 [8])).map
      (fun r => (r.2.gcs 1).stack_) = some [8] ∧
    (Local.assign_obj { obj_ := 8 } 8 (example_world 1 0 1000 [8])).map
      (fun r => (r.2.gcs 1).stack_) ≠
        some (((example_world 1 0 1000 [8]).gcs 1).stack_ ++ [8]) := by
  decide

/-- C7, amended: under an active collector `g`, construction-from-object
`local(p)` pushes `p` onto the handle stack of `g` (the stack becomes the old
stack followed by `p`), changes nothing else, and yields a handle holding
`p`; assignment-from-object `h = p` does the same when `h` holds a pointer
other than `p`; when `h` already holds `p` the assignment changes nothing at
all.  In every case the handle holds `p` afterwards. -/
theorem C7_binding_registers (w : World) (g p : Nat) (h : Local)
    (hg : scope.top w = some g) :
    (Local.ctor_obj p w = some ({ obj_ := p }, gc._register_local g p w) ∧
      ((gc._register_local g p w).gcs g).stack_ = (w.gcs g).stack_ ++ [p] ∧
      (∀ g1, g1 ≠ g → (gc._register_local g p w).gcs g1 = w.gcs g1) ∧
      (gc._register_local g p w).top_ = w.top_ ∧
      (gc._register_local g p w).next_ = w.next_) ∧
    (h.obj_ ≠ p →
      Local.assign_obj h p w = some ({ obj_ := p }, gc._register_local g p w)) ∧
    (h.obj_ = p → Local.assign_obj h p w = some (h, w)) ∧
    (Local.assign_obj h p w).map (fun r => r.1.obj_) = some p := by
  refine ⟨⟨?_, ?_, ?_, rfl, rfl⟩, ?_, ?_, ?_⟩
  · simp [Local.ctor_obj, hg]
  · simp [register_local_gcs]
  · intro g1 h1
    simp [register_local_gcs, h1]
  · intro hne
    simp [Local.assign_obj, hne, hg]
  · intro he
    simp [Local.assign_obj, he]
  · by_cases he : h.obj_ = p
    · simp [Local.assign_obj, he]
    · simp [Local.assign_obj, he, hg]

/-- C7 at concrete inputs: with collector 1 active and handle stack `[8]`,
constructing a handle from 9 and assigning 9 to a handle holding 8 both give
the stack `[8, 9]`; assigning 8 to a handle holding 8 changes nothing. -/
theorem C7_binding_registers_witness :
    (Local.ctor_obj 9 (example_world 1 0 1000 [8]) =
        some ({ obj_ := 9 }, gc._register_local 1 9 (example_world 1 0 1000 [8])) ∧
      ((gc._register_local 1 9 (example_world 1 0 1000 [8])).gcs 1).stack_ = [8] ++ [9]) ∧
    Local.assign_obj { obj_ := 8 } 9 (example_world 1 0 1000 [8]) =
      some ({ obj_ := 9 }, gc._register_local 1 9 (example_world 1 0 1000 [8])) ∧
    Local.assign_obj { obj_ := 8 } 8 (example_world 1 0 1000 [8]) =
      some ({ obj_ := 8 }, example_world 1 0 1000 [8]) :=
  ⟨⟨(C7_binding_registers (example_world 1 0 1000 [8]) 1 9 { obj_ := 8 } (by decide)).1.1,
    (C7_binding_registers (example_world 1 0 1000 [8]) 1 9 { obj_ := 8 } (by decide)).1.2.1⟩,
   (C7_binding_registers (example_world 1 0 1000 [8]) 1 9 { obj_ := 8 } (by decide)).2.1
     (by decide),
   (C7_binding_registers (example_world 1 0 1000 [8]) 1 8 { obj_ := 8 } (by decide)).2.2.1
     rfl⟩

/-- C8: copying a handle performs no registration.  Copy-construction from
`x` and copy-assignment of `x` to any handle return the state they were
given, unchanged in every part, and the target handle holds exactly the
reference `x` holds. -/
theorem C8_copy_registers_nothing (x self : Local) (w : World) :
    (Local.ctor_copy x w).2 = w ∧ (Local.ctor_copy x w).1.obj_ = x.obj_ ∧
    (Local.assign_copy self x w).2 = w ∧ (Local.assign_copy self x w).1.obj_ = x.obj_ ∧
    (∀ g, ((Local.ctor_copy x w).2.gcs g).stack_ = (w.gcs g).stack_ ∧
      ((Local.assign_copy self x w).2.gcs g).stack_ = (w.gcs g).stack_) :=
  ⟨rfl, rfl, rfl, rfl, fun _ => ⟨rfl, rfl⟩⟩

/-! ## Vectors -/

theorem resize_of_le (v : List Nat) (n : Nat) (h : n ≤ v.length) : resize v n = v.take n := by
  simp [resize, Nat.sub_eq_zero_of_le h]

theorem resize_length (v : List Nat) (n : Nat) : (resize v n).length = n := by
  simp only [resize, List.length_append, List.length_take, List.length_replicate]
  omega

theorem resize_prefix (S v : List Nat) (h : S <+: v) : resize v S.length = S := by
  obtain ⟨t, rfl⟩ := h
  simp [resize]

theorem take_succ_set (v : List Nat) (i x : Nat) (h : i < v.length) :
    (v.set i x).take (i + 1) = v.take i ++ [x] := by
  induction v generalizing i with
  | nil => simp at h
  | cons a v ih =>
    cases i with
    | zero => simp
    | succ i =>
      simp only [List.length_cons, Nat.add_lt_add_iff_right] at h
      simp [ih i h]

theorem resize_write (v : List Nat) (i x : Nat) (h : i < v.length) :
    resize (v.set i x) (i + 1) = v.take i ++ [x] := by
  rw [resize_of_le _ _ (by simp; omega), take_succ_set v i x h]

/-! ## The handle stacks after each operation -/

theorem handle_stacks_set_gc (w : World) (g : Nat) (x : gc) :
    handle_stacks (w.set_gc g x) = Function.update (handle_stacks w) g x.stack_ := by
  funext g1
  by_cases h : g1 = g
  · subst h; simp [handle_stacks, World.set_gc]
  · simp [handle_stacks, World.set_gc, Function.update_noteq h]

theorem handle_stacks_set_gc_same (w : World) (g : Nat) (x : gc)
    (h : x.stack_ = (w.gcs g).stack_) : handle_stacks (w.set_gc g x) = handle_stacks w := by
  rw [handle_stacks_set_gc, h]
  exact Function.update_eq_self g (handle_stacks w)

theorem register_local_stacks (g o : Nat) (w : World) :
    (gc._register_local g o w).top_ = w.top_ ∧
    handle_stacks (gc._register_local g o w) =
      Function.update (handle_stacks w) g (handle_stacks w g ++ [o]) :=
  ⟨rfl, handle_stacks_set_gc w g _⟩

theorem scope_ctor_some (g : Nat) (w : World) (s : scope) (w1 : World)
    (h : scope.ctor g w = some (s, w1)) :
    g ≠ 0 ∧ s = { prev_ := w.top_, frame_ := (handle_stacks w g).length } ∧
      w1.top_ = g ∧ handle_stacks w1 = handle_stacks w ∧ w1 = { w with top_ := g } := by
  unfold scope.ctor at h
  by_cases hg : g = 0
  · simp [hg] at h
  · simp only [hg, if_false, Option.some.injEq, Prod.mk.injEq] at h
    obtain ⟨rfl, rfl⟩ := h
    exact ⟨hg, rfl, rfl, rfl, rfl⟩

theorem scope_dtor_some (s : scope) (w w1 : World) (h : scope.dtor s w = some w1) :
    w.top_ ≠ 0 ∧ w1.top_ = s.prev_ ∧
      handle_stacks w1 =
        Function.update (handle_stacks w) w.top_ (resize (handle_stacks w w.top_) s.frame_) := by
  unfold scope.dtor at h
  by_cases hg : w.top_ = 0
  · simp [hg] at h
  · simp only [hg, if_false, Option.some.injEq] at h
    subst h
    exact ⟨hg, rfl, handle_stacks_set_gc w w.top_ _⟩

theorem scope_close_some (s s1 : scope) (l l1 : Local) (w w1 : World)
    (h : scope.close s l w = some (s1, l1, w1)) :
    w.top_ ≠ 0 ∧ s.frame_ < (handle_stacks w w.top_).length ∧
      s1 = { prev_ := s.prev_, frame_ := s.frame_ + 1 } ∧ l1 = l ∧ w1.top_ = w.top_ ∧
      handle_stacks w1 =
        Function.update (handle_stacks w) w.top_
          ((handle_stacks w w.top_).take s.frame_ ++ [l.obj_]) := by
  unfold scope.close vector_write at h
  by_cases hg : w.top_ = 0
  · simp [hg] at h
  by_cases hi : s.frame_ < (w.gcs w.top_).stack_.length
  · simp only [hg, if_false, hi, if_true, Option.some.injEq, Prod.mk.injEq] at h
    obtain ⟨rfl, rfl, rfl⟩ := h
    refine ⟨hg, hi, rfl, rfl, rfl, ?_⟩
    rw [handle_stacks_set_gc]
    simp only [handle_stacks]
    rw [resize_write _ _ _ hi]
  · simp [hg, hi] at h

theorem local_ctor_some (p : Nat) (w : World) (l : Local) (w1 : World)
    (h : Local.ctor_obj p w = some (l, w1)) :
    w.top_ ≠ 0 ∧ w1.top_ = w.top_ ∧
      handle_stacks w1 =
        Function.update (handle_stacks w) w.top_ (handle_stacks w w.top_ ++ [p]) := by
  unfold Local.ctor_obj scope.top at h
  by_cases hg : w.top_ = 0
  · simp [hg] at h
  · simp only [hg, if_false, Option.some.injEq, Prod.mk.injEq] at h
    obtain ⟨_, rfl⟩ := h
    exact ⟨hg, (register_local_stacks _ _ _).1, (register_local_stacks _ _ _).2⟩

theorem local_assign_some (x : Local) (p : Nat) (w : World) (l : Local) (w1 : World)
    (h : Local.assign_obj x p w = some (l, w1)) :
    w1.top_ = w.top_ ∧
      (handle_stacks w1 = handle_stacks w ∨
        (w.top_ ≠ 0 ∧ handle_stacks w1 =
          Function.update (handle_stacks w) w.top_ (handle_stacks w w.top_ ++ [p]))) := by
  unfold Local.assign_obj scope.top at h
  by_cases he : x.obj_ = p
  · simp only [he, ne_eq, not_true_eq_false, if_false, Option.some.injEq, Prod.mk.injEq] at h
    obtain ⟨_, rfl⟩ := h
    exact ⟨rfl, Or.inl rfl⟩
  · by_cases hg : w.top_ = 0
    · simp [he, hg] at h
    · simp only [ne_eq, he, not_false_eq_true, if_true, hg, if_false, Option.some.injEq,
        Prod.mk.injEq] at h
      obtain ⟨_, rfl⟩ := h
      exact ⟨rfl, Or.inr ⟨hg, (register_local_stacks _ _ _).2⟩⟩

theorem allocate_stacks (trigger_gc : Nat → World → World) (htg : keeps_stacks trigger_gc)
    (this sz : Nat) (raw : Option block) (w : World) :
    (gc.allocate trigger_gc this sz raw w).w.top_ = w.top_ ∧
      handle_stacks (gc.allocate trigger_gc this sz raw w).w = handle_stacks w := by
  have hc : (counted this sz w).top_ = w.top_ ∧
      handle_stacks (counted this sz w) = handle_stacks w :=
    ⟨rfl, handle_stacks_set_gc_same w this _ rfl⟩
  unfold gc.allocate
  by_cases ht : ((counted this sz w).gcs this).bytes_allocated_since_gc_ ≥
      ((counted this sz w).gcs this).config_.gc_interval_bytes_
  · simp only [ht, if_true]
    refine ⟨?_, ?_⟩
    · show (trigger_gc this (counted this sz w)).top_ = w.top_
      rw [(htg this _).1, hc.1]
    · exact (handle_stacks_set_gc_same _ _ _ (by rfl)).trans ((htg this _).2.trans hc.2)
  · simp only [ht, if_false]
    exact hc

theorem gc_object_ctor_some (this : Nat) (has_gc_members : Bool) (w w1 : World)
    (h : gc_object.ctor this has_gc_members w = some w1) :
    w.top_ ≠ 0 ∧ w1.top_ = w.top_ ∧
      handle_stacks w1 =
        Function.update (handle_stacks w) w.top_ (handle_stacks w w.top_ ++ [this]) := by
  unfold gc_object.ctor scope.top gc._register at h
  by_cases hg : w.top_ = 0
  · simp [hg] at h
  by_cases hp : this = 0
  · simp [hg, hp] at h
  · simp only [hg, if_false, hp, Option.some.injEq] at h
    subst h
    refine ⟨hg, rfl, ?_⟩
    exact (handle_stacks_set_gc_same _ _ _ (by rfl)).trans (register_local_stacks _ _ _).2

theorem new_object_some (trigger_gc : Nat → World → World) (htg : keeps_stacks trigger_gc)
    (sz : Nat) (raw : block) (has_gc_members : Bool) (w : World) (r : alloc_result)
    (w1 : World) (h : new_object trigger_gc sz (some raw) has_gc_members w = some (r, w1)) :
    w.top_ ≠ 0 ∧ w1.top_ = w.top_ ∧
      handle_stacks w1 =
        Function.update (handle_stacks w) w.top_ (handle_stacks w w.top_ ++ [raw.p]) := by
  unfold new_object gc_object.operator_new scope.top at h
  by_cases hg : w.top_ = 0
  · simp [hg] at h
  · simp only [hg, if_false] at h
    have hp : (gc.allocate trigger_gc w.top_ sz (some raw) w).p = some (memset raw 0 sz) := rfl
    simp only [hp] at h
    cases hc : gc_object.ctor (memset raw 0 sz).p has_gc_members
        (gc.allocate trigger_gc w.top_ sz (some raw) w).w with
    | none => simp [hc] at h
    | some w2 =>
      simp only [hc, Option.some.injEq, Prod.mk.injEq] at h
      obtain ⟨_, rfl⟩ := h
      obtain ⟨_, h2, h3⟩ := gc_object_ctor_some _ _ _ _ hc
      obtain ⟨a1, a2⟩ := allocate_stacks trigger_gc htg w.top_ sz (some raw) w
      refine ⟨hg, by rw [h2, a1], ?_⟩
      rw [h3, a1, a2]
      rfl

/-! ## The frame discipline is kept by every operation -/

theorem above_push (S : Nat → List Nat) (g p : Nat) (fs : List scope) :
    ∀ (top : Nat) (stk : Nat → List Nat), Above S top stk fs →
      Above S top (Function.update stk g (stk g ++ [p])) fs := by
  induction fs with
  | nil =>
    intro top stk h g1
    by_cases h1 : g1 = g
    · subst h1
      rw [Function.update_same]
      exact (h g1).trans (List.prefix_append _ _)
    · rw [Function.update_noteq h1]
      exact h g1
  | cons s rest ih =>
    intro top stk h
    obtain ⟨ht, hle, hrest⟩ := h
    by_cases hg : g = top
    · subst hg
      refine ⟨ht, ?_, ?_⟩
      · rw [Function.update_same, List.length_append]
        exact Nat.le_trans hle (Nat.le_add_right _ _)
      · rw [Function.update_same, Function.update_idem, List.take_append_of_le_length hle]
        exact hrest
    · have hne : top ≠ g := fun h => hg h.symm
      refine ⟨ht, ?_, ?_⟩
      · rw [Function.update_noteq hne]
        exact hle
      · rw [Function.update_noteq hne, Function.update_comm hg]
        have := ih s.prev_ (Function.update stk top ((stk top).take s.frame_)) hrest
        rw [Function.update_noteq hg] at this
        exact this

theorem above_ctor (S : Nat → List Nat) (g top : Nat) (stk : Nat → List Nat)
    (fs : List scope) (hg : g ≠ 0) (h : Above S top stk fs) :
    Above S g stk ({ prev_ := top, frame_ := (stk g).length } :: fs) := by
  refine ⟨hg, Nat.le_refl _, ?_⟩
  show Above S top (Function.update stk g ((stk g).take (stk g).length)) fs
  rw [List.take_length, Function.update_eq_self]
  exact h

/-- Every operation of a program keeps the frame discipline. -/
theorem step_above (trigger_gc : Nat → World → World) (htg : keeps_stacks trigger_gc)
    (S : Nat → List Nat) (op : Op) (w : World) (fs : List scope) (w1 : World)
    (fs1 : List scope) (h : Above S w.top_ (handle_stacks w) fs)
    (hs : step trigger_gc op (w, fs) = some (w1, fs1)) :
    Above S w1.top_ (handle_stacks w1) fs1 := by
  cases op with
  | scope_ctor g =>
    simp only [step, Option.map_eq_some', Prod.mk.injEq] at hs
    obtain ⟨⟨s, w2⟩, hc, rfl, rfl⟩ := hs
    obtain ⟨hg, rfl, ht, hst, _⟩ := scope_ctor_some g w s w2 hc
    rw [ht, hst]
    exact above_ctor S g w.top_ _ fs hg h
  | scope_default =>
    simp only [step, scope.ctor_default, Option.map_eq_some', Prod.mk.injEq] at hs
    obtain ⟨⟨s, w2⟩, hc, rfl, rfl⟩ := hs
    obtain ⟨hg, rfl, ht, hst, _⟩ := scope_ctor_some w.top_ w s w2 hc
    rw [ht, hst]
    exact above_ctor S w.top_ w.top_ _ fs hg h
  | scope_dtor =>
    cases fs with
    | nil => simp [step] at hs
    | cons s rest =>
      simp only [step, Option.map_eq_some', Prod.mk.injEq] at hs
      obtain ⟨w2, hc, rfl, rfl⟩ := hs
      obtain ⟨_, ht, hst⟩ := scope_dtor_some s w w2 hc
      obtain ⟨_, hle, hrest⟩ := h
      rw [ht, hst, resize_of_le _ _ hle]
      exact hrest
  | local_ctor p =>
    simp only [step, Option.map_eq_some', Prod.mk.injEq] at hs
    obtain ⟨⟨l, w2⟩, hc, rfl, rfl⟩ := hs
    obtain ⟨_, ht, hst⟩ := local_ctor_some p w l w2 hc
    rw [ht, hst]
    exact above_push S _ _ fs _ _ h
  | local_assign x p =>
    simp only [step, Option.map_eq_some', Prod.mk.injEq] at hs
    obtain ⟨⟨l, w2⟩, hc, rfl, rfl⟩ := hs
    obtain ⟨ht, hst | ⟨_, hst⟩⟩ := local_assign_some x p w l w2 hc
    · rw [ht, hst]
      exact h
    · rw [ht, hst]
      exact above_push S _ _ fs _ _ h
  | close x =>
    cases fs with
    | nil => simp [step] at hs
    | cons s rest =>
      simp only [step, Option.map_eq_some', Prod.mk.injEq] at hs
      obtain ⟨⟨s1, l1, w2⟩, hc, rfl, rfl⟩ := hs
      obtain ⟨hg, hi, rfl, _, ht, hst⟩ := scope_close_some s s1 x l1 w w2 hc
      obtain ⟨_, hle, hrest⟩ := h
      rw [ht, hst]
      refine ⟨hg, ?_, ?_⟩
      · rw [Function.update_same]
        simp only [List.length_append, List.length_take, List.length_singleton]
        omega
      · show Above S s.prev_ _ rest
        rw [Function.update_same, Function.update_idem]
        have hlen : ((handle_stacks w w.top_).take s.frame_).length = s.frame_ := by
          rw [List.length_take]; omega
        have htk : ((handle_stacks w w.top_).take s.frame_ ++ [x.obj_]).take (s.frame_ + 1) =
            (handle_stacks w w.top_).take s.frame_ ++ [x.obj_] := by
          apply List.take_of_length_le
          simp only [List.length_append, hlen, List.length_singleton]
          exact Nat.le_refl _
        rw [htk]
        have := above_push S w.top_ x.obj_ rest _ _ hrest
        rw [Function.update_same, Function.update_idem] at this
        exact this
  | new_object sz raw has_gc_members =>
    simp only [step, Option.map_eq_some', Prod.mk.injEq] at hs
    obtain ⟨⟨r, w2⟩, hc, rfl, rfl⟩ := hs
    obtain ⟨_, ht, hst⟩ := new_object_some trigger_gc htg sz raw has_gc_members w r w2 hc
    rw [ht, hst]
    exact above_push S _ _ fs _ _ h

theorem run_above (trigger_gc : Nat → World → World) (htg : keeps_stacks trigger_gc)
    (S : Nat → List Nat) (ops : List Op) :
    ∀ (w : World) (fs : List scope) (w1 : World) (fs1 : List scope),
      Above S w.top_ (handle_stacks w) fs →
      run trigger_gc ops (w, fs) = some (w1, fs1) →
      Above S w1.top_ (handle_stacks w1) fs1 := by
  induction ops with
  | nil =>
    intro w fs w1 fs1 h hr
    simp only [run, Option.some.injEq, Prod.mk.injEq] at hr
    obtain ⟨rfl, rfl⟩ := hr
    exact h
  | cons op ops ih =>
    intro w fs w1 fs1 h hr
    simp only [run, Option.bind_eq_some] at hr
    obtain ⟨⟨w2, fs2⟩, hs, hr2⟩ := hr
    exact ih w2 fs2 w1 fs1 (step_above trigger_gc htg S op w fs w2 fs2 h hs) hr2

/-- Under the frame discipline every open scope's base is within the stack
of the collector it governs. -/
theorem above_bases (S : Nat → List Nat) (fs : List scope) :
    ∀ (top : Nat) (stk : Nat → List Nat), Above S top stk fs →
      ∀ p ∈ List.zip (scope_gcs top fs) fs, p.2.frame_ ≤ (stk p.1).length := by
  induction fs with
  | nil =>
    intro top stk _ p hp
    simp [scope_gcs] at hp
  | cons s rest ih =>
    intro top stk h p hp
    obtain ⟨_, hle, hrest⟩ := h
    simp only [scope_gcs, List.zip_cons_cons, List.mem_cons] at hp
    rcases hp with rfl | hp
    · exact hle
    · have h1 := ih s.prev_ _ hrest p hp
      by_cases hg : p.1 = top
      · rw [hg] at h1 ⊢
        rw [Function.update_same, List.length_take] at h1
        omega
      · rw [Function.update_noteq hg] at h1
        exact h1

/-! ## Programs: composition and framing -/

theorem run_append (trigger_gc : Nat → World → World) (a b : List Op) :
    ∀ st, run trigger_gc (a ++ b) st = (run trigger_gc a st).bind (run trigger_gc b) := by
  induction a with
  | nil => intro st; rfl
  | cons op a ih =>
    intro st
    simp only [List.cons_append, run]
    cases step trigger_gc op st with
    | none => rfl
    | some st1 => exact ih st1

/-- An operation that succeeds with the scopes `inner` open succeeds in the
same way with further scopes `outer` open around them. -/
theorem step_frame (trigger_gc : Nat → World → World) (outer : List scope) (op : Op)
    (w : World) (inner : List scope) (w1 : World) (inner1 : List scope)
    (h : step trigger_gc op (w, inner) = some (w1, inner1)) :
    step trigger_gc op (w, inner ++ outer) = some (w1, inner1 ++ outer) := by
  cases op with
  | scope_ctor g =>
    simp only [step, Option.map_eq_some', Prod.mk.injEq] at h ⊢
    obtain ⟨a, ha, rfl, rfl⟩ := h
    exact ⟨a, ha, rfl, rfl⟩
  | scope_default =>
    simp only [step, Option.map_eq_some', Prod.mk.injEq] at h ⊢
    obtain ⟨a, ha, rfl, rfl⟩ := h
    exact ⟨a, ha, rfl, rfl⟩
  | scope_dtor =>
    cases inner with
    | nil => simp [step] at h
    | cons s rest =>
      simp only [step, List.cons_append, Option.map_eq_some', Prod.mk.injEq] at h ⊢
      obtain ⟨a, ha, rfl, rfl⟩ := h
      exact ⟨a, ha, rfl, rfl⟩
  | local_ctor p =>
    simp only [step, Option.map_eq_some', Prod.mk.injEq] at h ⊢
    obtain ⟨a, ha, rfl, rfl⟩ := h
    exact ⟨a, ha, rfl, rfl⟩
  | local_assign x p =>
    simp only [step, Option.map_eq_some', Prod.mk.injEq] at h ⊢
    obtain ⟨a, ha, rfl, rfl⟩ := h
    exact ⟨a, ha, rfl, rfl⟩
  | close x =>
    cases inner with
    | nil => simp [step] at h
    | cons s rest =>
      simp only [step, List.cons_append, Option.map_eq_some', Prod.mk.injEq] at h ⊢
      obtain ⟨a, ha, rfl, rfl⟩ := h
      exact ⟨a, ha, rfl, rfl⟩
  | new_object sz raw has_gc_members =>
    simp only [step, Option.map_eq_some', Prod.mk.injEq] at h ⊢
    obtain ⟨a, ha, rfl, rfl⟩ := h
    exact ⟨a, ha, rfl, rfl⟩

theorem run_frame (trigger_gc : Nat → World → World) (outer : List scope) (ops : List Op) :
    ∀ (w : World) (inner : List scope) (w1 : World) (inner1 : List scope),
      run trigger_gc ops (w, inner) = some (w1, inner1) →
      run trigger_gc ops (w, inner ++ outer) = some (w1, inner1 ++ outer) := by
  induction ops with
  | nil =>
    intro w inner w1 inner1 h
    simp only [run, Option.some.injEq, Prod.mk.injEq] at h
    obtain ⟨rfl, rfl⟩ := h
    rfl
  | cons op ops ih =>
    intro w inner w1 inner1 h
    simp only [run, Option.bind_eq_some] at h
    obtain ⟨⟨w2, inner2⟩, hs, hr⟩ := h
    simp only [run, step_frame trigger_gc outer op w inner w2 inner2 hs, Option.some_bind]
    exact ih w2 inner2 w1 inner1 hr

/-- An operation that does not allocate does not depend on the cycle. -/
theorem step_no_alloc (t1 t2 : Nat → World → World) (op : Op) (h : op.allocates = false)
    (st : World × List scope) : step t1 op st = step t2 op st := by
  obtain ⟨w, fs⟩ := st
  cases op with
  | new_object sz raw has_gc_members => simp [Op.allocates] at h
  | scope_dtor => cases fs <;> rfl
  | close x => cases fs <;> rfl
  | scope_ctor g => rfl
  | scope_default => rfl
  | local_ctor p => rfl
  | local_assign x p => rfl

theorem run_no_alloc (t1 t2 : Nat → World → World) (ops : List Op)
    (h : ∀ op ∈ ops, op.allocates = false) :
    ∀ st, run t1 ops st = run t2 ops st := by
  induction ops with
  | nil => intro st; rfl
  | cons op ops ih =>
    intro st
    simp only [run]
    rw [step_no_alloc t1 t2 op (h op (List.mem_cons_self _ _)) st]
    cases step t2 op st with
    | none => rfl
    | some st1 => exact ih (fun o ho => h o (List.mem_cons_of_mem _ ho)) st1

theorem keeps_stacks_no_cycle : keeps_stacks no_cycle :=
  fun _ _ => ⟨rfl, rfl⟩

/-! ## A scope's body on one collector -/

theorem inner_op_no_alloc (g : Nat) (op : Op) (h : inner_op g op = true) :
    op.allocates = false := by
  cases op <;> simp [inner_op] at h <;> rfl

/-- One operation of the body of a scope on collector `g`: it succeeds, the
active collector stays `g`, every scope opened records `g` as the previous
active collector, and no handle stack other than that of `g` changes. -/
theorem step_inner (trigger_gc : Nat → World → World) (g : Nat) (hg : g ≠ 0) (op : Op)
    (hop : inner_op g op = true) (w : World) (inner : List scope) (d : Nat)
    (ops : List Op) (hn : nesting inner.length (op :: ops) = some d)
    (ht : w.top_ = g) (hprev : ∀ s ∈ inner, s.prev_ = g) :
    ∃ w1 inner1, step trigger_gc op (w, inner) = some (w1, inner1) ∧
      nesting inner1.length ops = some d ∧ w1.top_ = g ∧ (∀ s ∈ inner1, s.prev_ = g) ∧
      (∀ g1, g1 ≠ g → handle_stacks w1 g1 = handle_stacks w g1) := by
  have htop : scope.top w = some g := by simp [scope.top, ht, hg]
  cases op with
  | scope_ctor g1 =>
    simp only [inner_op, decide_eq_true_eq] at hop
    subst hop
    refine ⟨{ w with top_ := g1 }, { prev_ := w.top_, frame_ := (w.gcs g1).stack_.length } :: inner,
      ?_, ?_, rfl, ?_, fun _ _ => rfl⟩
    · simp [step, scope.ctor, hg]
    · simpa [nesting] using hn
    · intro s hs
      rcases List.mem_cons.mp hs with rfl | hs
      · exact ht
      · exact hprev s hs
  | scope_default =>
    refine ⟨{ w with top_ := w.top_ },
      { prev_ := w.top_, frame_ := (w.gcs w.top_).stack_.length } :: inner,
      ?_, ?_, ht, ?_, fun _ _ => rfl⟩
    · simp [step, scope.ctor_default, scope.ctor, ht, hg]
    · simpa [nesting] using hn
    · intro s hs
      rcases List.mem_cons.mp hs with rfl | hs
      · exact ht
      · exact hprev s hs
  | scope_dtor =>
    cases inner with
    | nil => simp [nesting] at hn
    | cons s rest =>
      have hd : scope.dtor s w = some
          { w.set_gc w.top_ { w.gcs w.top_ with
              stack_ := resize (w.gcs w.top_).stack_ s.frame_ } with top_ := s.prev_ } := by
        simp [scope.dtor, ht, hg]
      refine ⟨{ w.set_gc w.top_ { w.gcs w.top_ with
              stack_ := resize (w.gcs w.top_).stack_ s.frame_ } with top_ := s.prev_ },
        rest, ?_, ?_, hprev s (List.mem_cons_self _ _), ?_, ?_⟩
      · simp only [step, hd, Option.map_some']
      · simpa [nesting] using hn
      · exact fun s1 hs1 => hprev s1 (List.mem_cons_of_mem _ hs1)
      · intro g1 h1
        obtain ⟨_, _, hst⟩ := scope_dtor_some s w _ hd
        rw [hst, ht, Function.update_noteq h1]
  | local_ctor p =>
    refine ⟨gc._register_local g p w, inner, ?_, ?_, ht, hprev, ?_⟩
    · simp [step, Local.ctor_obj, htop]
    · simpa [nesting] using hn
    · intro g1 h1
      rw [(register_local_stacks g p w).2, Function.update_noteq h1]
  | local_assign x p =>
    by_cases he : x.obj_ = p
    · refine ⟨w, inner, ?_, ?_, ht, hprev, fun _ _ => rfl⟩
      · simp [step, Local.assign_obj, he]
      · simpa [nesting] using hn
    · refine ⟨gc._register_local g p w, inner, ?_, ?_, ht, hprev, ?_⟩
      · simp [step, Local.assign_obj, he, htop]
      · simpa [nesting] using hn
      · intro g1 h1
        rw [(register_local_stacks g p w).2, Function.update_noteq h1]
  | close x => simp [inner_op] at hop
  | new_object sz raw has_gc_members => simp [inner_op] at hop

theorem run_inner (trigger_gc : Nat → World → World) (g : Nat) (hg : g ≠ 0)
    (ops : List Op) :
    ∀ (w : World) (inner : List scope) (d : Nat),
      (∀ op ∈ ops, inner_op g op = true) → nesting inner.length ops = some d →
      w.top_ = g → (∀ s ∈ inner, s.prev_ = g) →
      ∃ w1 inner1, run trigger_gc ops (w, inner) = some (w1, inner1) ∧
        inner1.length = d ∧ w1.top_ = g ∧
        (∀ g1, g1 ≠ g → handle_stacks w1 g1 = handle_stacks w g1) := by
  induction ops with
  | nil =>
    intro w inner d _ hn ht _
    simp only [nesting, Option.some.injEq] at hn
    exact ⟨w, inner, rfl, hn, ht, fun _ _ => rfl⟩
  | cons op ops ih =>
    intro w inner d hops hn ht hprev
    obtain ⟨w1, inner1, hs, hn1, ht1, hprev1, hoth⟩ :=
      step_inner trigger_gc g hg op (hops op (List.mem_cons_self _ _)) w inner d ops hn ht hprev
    obtain ⟨w2, inner2, hr, hl, ht2, hoth2⟩ :=
      ih w1 inner1 d (fun o ho => hops o (List.mem_cons_of_mem _ ho)) hn1 ht1 hprev1
    refine ⟨w2, inner2, ?_, hl, ht2, fun g1 h1 => (hoth2 g1 h1).trans (hoth g1 h1)⟩
    simp only [run, hs, Option.some_bind]
    exact hr

/-- C2: scope exit drops exactly the locals of its frame.  For a scope
opened on collector `g`, whatever scopes are already open, whose body is any
properly nested sequence of handle bindings and inner scopes on `g` with no
call of `close`: the program runs to the end of the scope's exit, and there
every handle stack is the stack it was when the scope was opened (that of
`g` included), the active collector is the one from before, and the scopes
open are those from before. -/
theorem C2_scope_exit_restores_stack (trigger_gc : Nat → World → World) (w : World)
    (fs : List scope) (g : Nat) (ops : List Op) (hg : g ≠ 0)
    (hops : ∀ op ∈ ops, inner_op g op = true) (hn : nesting 0 ops = some 0) :
    ∃ w1, run trigger_gc (Op.scope_ctor g :: (ops ++ [Op.scope_dtor])) (w, fs) = some (w1, fs) ∧
      (w1.gcs g).stack_ = (w.gcs g).stack_ ∧
      handle_stacks w1 = handle_stacks w ∧ w1.top_ = w.top_ := by
  obtain ⟨w2, inner2, hr, hl, ht2, hoth⟩ :=
    run_inner trigger_gc g hg ops { w with top_ := g } [] 0 hops hn rfl
      (fun s hs => by simp at hs)
  have hnil : inner2 = [] := List.length_eq_zero.mp hl
  subst hnil
  have halloc : ∀ op ∈ ops, op.allocates = false :=
    fun op ho => inner_op_no_alloc g op (hops op ho)
  have hab : Above (handle_stacks w) w2.top_ (handle_stacks w2) [] := by
    refine run_above no_cycle keeps_stacks_no_cycle (handle_stacks w) ops
      { w with top_ := g } [] w2 [] (fun g1 => List.prefix_refl _) ?_
    rw [← run_no_alloc trigger_gc no_cycle ops halloc]
    exact hr
  have hfr := run_frame trigger_gc
    ({ prev_ := w.top_, frame_ := (w.gcs g).stack_.length } :: fs) ops _ _ _ _ hr
  have hd : scope.dtor { prev_ := w.top_, frame_ := (w.gcs g).stack_.length } w2 = some
      { w2.set_gc w2.top_ { w2.gcs w2.top_ with
          stack_ := resize (w2.gcs w2.top_).stack_ (w.gcs g).stack_.length } with
        top_ := w.top_ } := by
    simp [scope.dtor, ht2, hg]
  have hst : handle_stacks
      { w2.set_gc w2.top_ { w2.gcs w2.top_ with
          stack_ := resize (w2.gcs w2.top_).stack_ (w.gcs g).stack_.length } with
        top_ := w.top_ } = handle_stacks w := by
    obtain ⟨_, _, h3⟩ := scope_dtor_some _ w2 _ hd
    rw [h3, ht2]
    funext g1
    by_cases h1 : g1 = g
    · subst h1
      rw [Function.update_same]
      exact resize_prefix _ _ (hab g1)
    · rw [Function.update_noteq h1]
      exact hoth g1 h1
  refine ⟨_, ?_, congrFun hst g, hst, rfl⟩
  simp only [run, step, scope.ctor, hg, if_false, Option.map_some', Option.some_bind]
  rw [run_append]
  simp only [List.nil_append] at hfr
  rw [hfr]
  simp only [Option.some_bind, run, step, hd, Option.map_some']

/-- C2 at a concrete input: a scope on collector 1 opened over the stack
`[8]`, whose body binds two handles, opens an inner scope, binds a third
handle and leaves the inner scope; after the exit the stack is `[8]`. -/
theorem C2_scope_exit_restores_stack_witness :
    (run no_cycle (Op.scope_ctor 1 ::
        ([Op.local_ctor 9, Op.local_assign { obj_ := 0 } 10, Op.scope_default,
          Op.local_ctor 11, Op.scope_dtor] ++ [Op.scope_dtor]))
      (example_world 0 0 1000 [8], [])).map (fun st => ((st.1.gcs 1).stack_, st.1.top_, st.2)) =
      some ([8], 0, []) := by
  obtain ⟨w1, h1, h2, _, h4⟩ := C2_scope_exit_restores_stack no_cycle
    (example_world 0 0 1000 [8]) [] 1
    [Op.local_ctor 9, Op.local_assign { obj_ := 0 } 10, Op.scope_default,
      Op.local_ctor 11, Op.scope_dtor] (by decide) (by decide) (by decide)
  rw [h1]
  simp only [Option.map_some', h2, h4]
  rfl

/-! ## Invariant I3 -/

theorem above_nil_start (w : World) :
    Above (fun _ => []) w.top_ (handle_stacks w) [] :=
  fun _ => List.nil_prefix

theorem bases_of_above (S : Nat → List Nat) (w : World) (fs : List scope)
    (h : Above S w.top_ (handle_stacks w) fs) : bases_within w fs :=
  above_bases S fs w.top_ (handle_stacks w) h

/-- C10, invariant I3: in every state a program of scope openings and exits,
handle bindings, object constructions and `close` calls on the innermost
scope reaches from a state with no scope open, the base of every open scope
is at most the height of the handle stack of the collector it governs.  The
exit of the innermost scope succeeds there, leaves that stack at exactly the
scope's base (its first `frame_` slots), and leaves the invariant in force
for the scopes that remain open.  The collection cycle is taken to leave the
active collector and the handle stacks as they are. -/
theorem C10_stack_never_below_open_base (trigger_gc : Nat → World → World)
    (htg : keeps_stacks trigger_gc) (ops : List Op) (w0 : World)
    (st : World × List scope) (hr : run trigger_gc ops (w0, []) = some st) :
    bases_within st.1 st.2 ∧
    (∀ s rest, st.2 = s :: rest →
      ∃ w1, step trigger_gc Op.scope_dtor st = some (w1, rest) ∧
        (w1.gcs st.1.top_).stack_ = (st.1.gcs st.1.top_).stack_.take s.frame_ ∧
        (w1.gcs st.1.top_).stack_.length = s.frame_ ∧
        bases_within w1 rest) := by
  obtain ⟨w, fs⟩ := st
  have hab : Above (fun _ => []) w.top_ (handle_stacks w) fs :=
    run_above trigger_gc htg _ ops w0 [] w fs (above_nil_start w0) hr
  refine ⟨bases_of_above _ w fs hab, ?_⟩
  intro s rest hfs
  simp only at hfs
  subst hfs
  obtain ⟨ht, hle, _⟩ := hab
  have hd : scope.dtor s w = some
      { w.set_gc w.top_ { w.gcs w.top_ with
          stack_ := resize (w.gcs w.top_).stack_ s.frame_ } with top_ := s.prev_ } := by
    simp [scope.dtor, ht]
  have hs : step trigger_gc Op.scope_dtor (w, s :: rest) = some
      ({ w.set_gc w.top_ { w.gcs w.top_ with
          stack_ := resize (w.gcs w.top_).stack_ s.frame_ } with top_ := s.prev_ }, rest) := by
    simp only [step, hd, Option.map_some']
  have hstk : ({ w.set_gc w.top_ { w.gcs w.top_ with
          stack_ := resize (w.gcs w.top_).stack_ s.frame_ } with
        top_ := s.prev_ } : World).gcs w.top_ =
      { w.gcs w.top_ with stack_ := resize (w.gcs w.top_).stack_ s.frame_ } := by
    simp [World.set_gc]
  refine ⟨_, hs, ?_, ?_, ?_⟩
  · show (({ w.set_gc w.top_ { w.gcs w.top_ with
          stack_ := resize (w.gcs w.top_).stack_ s.frame_ } with
        top_ := s.prev_ } : World).gcs w.top_).stack_ = _
    rw [hstk]
    exact resize_of_le _ _ hle
  · show (({ w.set_gc w.top_ { w.gcs w.top_ with
          stack_ := resize (w.gcs w.top_).stack_ s.frame_ } with
        top_ := s.prev_ } : World).gcs w.top_).stack_.length = _
    rw [hstk]
    exact resize_length _ _
  · exact bases_of_above _ _ rest
      (step_above trigger_gc htg _ Op.scope_dtor w (s :: rest) _ rest ⟨ht, hle, ‹_›⟩ hs)

theorem example_run_eq :
    run no_cycle example_program (example_world 0 0 1000 [], []) = some example_final :=
  rfl

/-- C10 at a concrete input: after `example_program` three scopes are open,
with bases 3, 0 and 0 on collectors 1, 2 and 1, whose stacks have heights 3
and 1; the invariant holds, and the exit of the innermost scope leaves the
stack of collector 1 at height 3. -/
theorem C10_stack_never_below_open_base_witness :
    bases_within example_final.1 example_final.2 ∧
    example_final.2 =
      [{ prev_ := 2, frame_ := 3 }, { prev_ := 1, frame_ := 0 }, { prev_ := 0, frame_ := 0 }] ∧
    scope_gcs example_final.1.top_ example_final.2 = [1, 2, 1] ∧
    (example_final.1.gcs 1).stack_ = [8, 64, 9] ∧ (example_final.1.gcs 2).stack_ = [7] :=
  ⟨(C10_stack_never_below_open_base no_cycle keeps_stacks_no_cycle example_program
      (example_world 0 0 1000 []) example_final example_run_eq).1,
   by decide, by decide, by decide, by decide⟩

/-! ## The active collector -/

theorem linked_active (t0 : Nat) (fs : List scope) (st : List Nat) (top : Nat)
    (h : Linked t0 top fs st) : top = spec_active t0 st := by
  cases fs with
  | nil =>
    cases st with
    | nil => exact h
    | cons g st => exact h.elim
  | cons s fs =>
    cases st with
    | nil => exact h.elim
    | cons g st => exact h.1

theorem linked_gcs (t0 : Nat) (fs : List scope) :
    ∀ (st : List Nat) (top : Nat), Linked t0 top fs st → scope_gcs top fs = st := by
  induction fs with
  | nil =>
    intro st top h
    cases st with
    | nil => rfl
    | cons g st => exact h.elim
  | cons s fs ih =>
    intro st top h
    cases st with
    | nil => exact h.elim
    | cons g st =>
      obtain ⟨h1, _, h3⟩ := h
      simp only [scope_gcs, h1, ih st s.prev_ h3]

theorem linked_nil (t0 top : Nat) (fs : List scope) (h : Linked t0 top fs []) :
    fs = [] ∧ top = t0 := by
  cases fs with
  | nil => exact ⟨rfl, h⟩
  | cons s fs => exact h.elim

/-- A scope operation the spec allows succeeds in the code, and the code's
links represent the spec's new stack. -/
theorem step_linked (trigger_gc : Nat → World → World) (t0 : Nat) (op : Op) (w : World)
    (fs : List scope) (st st1 : List Nat) (hl : Linked t0 w.top_ fs st)
    (hs : spec_scope_step t0 op st = some st1) :
    ∃ w1 fs1, step trigger_gc op (w, fs) = some (w1, fs1) ∧ Linked t0 w1.top_ fs1 st1 ∧
      op.allocates = false := by
  cases op with
  | scope_ctor g =>
    by_cases hg : g = 0
    · simp [spec_scope_step, hg] at hs
    · simp only [spec_scope_step, hg, if_false, Option.some.injEq] at hs
      subst hs
      refine ⟨{ w with top_ := g }, { prev_ := w.top_, frame_ := (w.gcs g).stack_.length } :: fs,
        ?_, ⟨rfl, hg, hl⟩, rfl⟩
      simp [step, scope.ctor, hg]
  | scope_default =>
    have ha := linked_active t0 fs st w.top_ hl
    by_cases hg : spec_active t0 st = 0
    · simp [spec_scope_step, hg] at hs
    · simp only [spec_scope_step, hg, if_false, Option.some.injEq] at hs
      subst hs
      have hw : w.top_ ≠ 0 := ha ▸ hg
      refine ⟨{ w with top_ := w.top_ },
        { prev_ := w.top_, frame_ := (w.gcs w.top_).stack_.length } :: fs, ?_,
        ⟨ha, hg, hl⟩, rfl⟩
      simp [step, scope.ctor_default, scope.ctor, hw]
  | scope_dtor =>
    cases st with
    | nil => simp [spec_scope_step] at hs
    | cons g st =>
      simp only [spec_scope_step, Option.some.injEq] at hs
      subst hs
      cases fs with
      | nil => exact hl.elim
      | cons s fs =>
        obtain ⟨h1, h2, h3⟩ := hl
        have hw : w.top_ ≠ 0 := h1 ▸ h2
        refine ⟨{ w.set_gc w.top_ { w.gcs w.top_ with
              stack_ := resize (w.gcs w.top_).stack_ s.frame_ } with top_ := s.prev_ },
          fs, ?_, h3, rfl⟩
        simp [step, scope.dtor, hw]
  | local_ctor p => simp [spec_scope_step] at hs
  | local_assign x p => simp [spec_scope_step] at hs
  | close x => simp [spec_scope_step] at hs
  | new_object sz raw has_gc_members => simp [spec_scope_step] at hs

theorem run_linked (trigger_gc : Nat → World → World) (t0 : Nat) (ops : List Op) :
    ∀ (w : World) (fs : List scope) (st st1 : List Nat), Linked t0 w.top_ fs st →
      spec_scope_run t0 ops st = some st1 →
      ∃ w1 fs1, run trigger_gc ops (w, fs) = some (w1, fs1) ∧ Linked t0 w1.top_ fs1 st1 ∧
        ∀ op ∈ ops, op.allocates = false := by
  induction ops with
  | nil =>
    intro w fs st st1 hl hs
    simp only [spec_scope_run, Option.some.injEq] at hs
    subst hs
    exact ⟨w, fs, rfl, hl, fun op ho => by simp at ho⟩
  | cons op ops ih =>
    intro w fs st st1 hl hs
    simp only [spec_scope_run, Option.bind_eq_some] at hs
    obtain ⟨st2, h1, h2⟩ := hs
    obtain ⟨w2, fs2, hstep, hl2, ha⟩ := step_linked trigger_gc t0 op w fs st st2 hl h1
    obtain ⟨w3, fs3, hrun, hl3, hall⟩ := ih w2 fs2 st2 st1 hl2 h2
    refine ⟨w3, fs3, ?_, hl3, ?_⟩
    · simp only [run, hstep, Option.some_bind]
      exact hrun
    · intro o ho
      rcases List.mem_cons.mp ho with rfl | ho
      · exact ha
      · exact hall o ho

/-- C9: the active-collector lookup is last-opened-wins and nesting-safe.
(1) Every properly nested sequence of scope openings and exits, over any
collectors and from any state with no scope open, runs, and afterwards the
code's `top_` and `prev_` links read off exactly the collectors given to
the open scopes, innermost first; `top_` is the spec's active collector and,
when a scope is open, `scope::top()` returns the collector given to the
innermost one.  (2) From any state: right after a scope on `g` is opened
`top()` is `g`; after any properly nested body it is `g` again and the scope
is the innermost one, unchanged; after its exit `top_` is what it was just
before the scope was opened, and the exit has cut the handle stack of `g`,
the collector whose height the scope recorded, to that recorded height and
touched no other handle stack.  (3) Opening a scope with the default
argument is opening it on the current `top_`. -/
theorem C9_active_collector_nesting (trigger_gc : Nat → World → World) :
    (∀ (w0 : World) (ops : List Op) (st : List Nat),
      spec_scope_run w0.top_ ops [] = some st →
      ∃ w fs, run trigger_gc ops (w0, []) = some (w, fs) ∧
        scope_gcs w.top_ fs = st ∧ w.top_ = spec_active w0.top_ st ∧
        (∀ g rest, st = g :: rest → scope.top w = some g)) ∧
    (∀ (w : World) (fs : List scope) (g : Nat) (body : List Op), g ≠ 0 →
      spec_scope_run g body [] = some [] →
      ∃ w2 w3,
        run trigger_gc [Op.scope_ctor g] (w, fs) =
          some ({ w with top_ := g },
            { prev_ := w.top_, frame_ := (w.gcs g).stack_.length } :: fs) ∧
        scope.top { w with top_ := g } = some g ∧
        run trigger_gc (Op.scope_ctor g :: body) (w, fs) =
          some (w2, { prev_ := w.top_, frame_ := (w.gcs g).stack_.length } :: fs) ∧
        scope.top w2 = some g ∧
        run trigger_gc (Op.scope_ctor g :: (body ++ [Op.scope_dtor])) (w, fs) = some (w3, fs) ∧
        w3.top_ = w.top_ ∧
        (w3.gcs g).stack_ = (w2.gcs g).stack_.take (w.gcs g).stack_.length ∧
        (∀ g1, g1 ≠ g → (w3.gcs g1).stack_ = (w2.gcs g1).stack_)) ∧
    (∀ (w : World) (fs : List scope),
      step trigger_gc Op.scope_default (w, fs) = step trigger_gc (Op.scope_ctor w.top_) (w, fs)) := by
  refine ⟨?_, ?_, fun _ _ => rfl⟩
  · intro w0 ops st hs
    obtain ⟨w, fs, hr, hl, _⟩ := run_linked trigger_gc w0.top_ ops w0 [] [] st rfl hs
    refine ⟨w, fs, hr, linked_gcs _ fs st w.top_ hl, linked_active _ fs st w.top_ hl, ?_⟩
    intro g rest hst
    subst hst
    cases fs with
    | nil => exact hl.elim
    | cons s fs =>
      obtain ⟨h1, h2, _⟩ := hl
      simp [scope.top, h1, h2]
  · intro w fs g body hg hs
    obtain ⟨w2, fs2, hr, hl, hall⟩ :=
      run_linked trigger_gc g body { w with top_ := g } [] [] [] rfl hs
    obtain ⟨hnil, ht2⟩ := linked_nil g w2.top_ fs2 hl
    subst hnil
    have hopen : step trigger_gc (Op.scope_ctor g) (w, fs) =
        some ({ w with top_ := g },
          { prev_ := w.top_, frame_ := (w.gcs g).stack_.length } :: fs) := by
      simp [step, scope.ctor, hg]
    have hfr := run_frame trigger_gc
      ({ prev_ := w.top_, frame_ := (w.gcs g).stack_.length } :: fs) body _ _ _ _ hr
    simp only [List.nil_append] at hfr
    have hfr1 := run_frame trigger_gc
      [{ prev_ := w.top_, frame_ := (w.gcs g).stack_.length }] body _ _ _ _ hr
    simp only [List.nil_append] at hfr1
    rw [run_no_alloc trigger_gc no_cycle body hall] at hfr1
    have hab : Above (fun _ => []) w2.top_ (handle_stacks w2)
        [{ prev_ := w.top_, frame_ := (w.gcs g).stack_.length }] :=
      run_above no_cycle keeps_stacks_no_cycle _ body { w with top_ := g } _ w2 _
        (above_ctor _ g w.top_ (handle_stacks w) [] hg (above_nil_start w)) hfr1
    obtain ⟨_, hle, _⟩ := hab
    rw [ht2] at hle
    have hd : scope.dtor { prev_ := w.top_, frame_ := (w.gcs g).stack_.length } w2 = some
        { w2.set_gc w2.top_ { w2.gcs w2.top_ with
            stack_ := resize (w2.gcs w2.top_).stack_ (w.gcs g).stack_.length } with
          top_ := w.top_ } := by
      simp [scope.dtor, ht2, hg]
    refine ⟨w2, { w2.set_gc w2.top_ { w2.gcs w2.top_ with
            stack_ := resize (w2.gcs w2.top_).stack_ (w.gcs g).stack_.length } with
          top_ := w.top_ }, ?_, ?_, ?_, ?_, ?_, rfl, ?_, ?_⟩
    · simp only [run, hopen, Option.some_bind]
    · simp [scope.top, hg]
    · simp only [run, hopen, Option.some_bind]
      exact hfr
    · simp [scope.top, ht2, hg]
    · simp only [run, hopen, Option.some_bind]
      rw [run_append, hfr]
      simp only [Option.some_bind, run, step, hd, Option.map_some']
    · rw [ht2]
      simp only [World.set_gc, Function.update_same]
      exact resize_of_le _ _ hle
    · intro g1 h1
      rw [ht2]
      simp only [World.set_gc, Function.update_noteq h1]

/-- C9 at concrete inputs: after scopes on collectors 1 and 2 and a default
scope, with the default scope closed again, `top_` is 2 and the links read
`[2, 1]`; a scope on collector 2 around a nested scope on collector 1
restores the initial `top_` at its exit. -/
theorem C9_active_collector_nesting_witness :
    (run no_cycle [Op.scope_ctor 1, Op.scope_ctor 2, Op.scope_default, Op.scope_dtor]
      (example_world 0 0 1000 [8], [])).map
        (fun st => (st.1.top_, scope_gcs st.1.top_ st.2)) = some (2, [2, 1]) ∧
    (run no_cycle (Op.scope_ctor 2 :: ([Op.scope_ctor 1, Op.scope_dtor] ++ [Op.scope_dtor]))
      (example_world 5 0 1000 [8], [])).map (fun st => (st.1.top_, st.2)) = some (5, []) := by
  constructor
  · obtain ⟨w, fs, hr, hg, ht, _⟩ := (C9_active_collector_nesting no_cycle).1
      (example_world 0 0 1000 [8])
      [Op.scope_ctor 1, Op.scope_ctor 2, Op.scope_default, Op.scope_dtor] [2, 1] (by decide)
    rw [hr]
    simp only [Option.map_some']
    rw [hg, ht]
    rfl
  · obtain ⟨w2, w3, _, _, _, _, hr, ht, _⟩ := (C9_active_collector_nesting no_cycle).2.1
      (example_world 5 0 1000 [8]) [] 2 [Op.scope_ctor 1, Op.scope_dtor] (by decide) (by decide)
    rw [hr]
    simp only [Option.map_some', ht]
    rfl

/-! ## `close` -/

/-- C1, the code at the failing input: a scope is opened on a collector and
`close` is called before any handle is bound in it (the handle closed was
bound outside, or copied).  The write `stack_[frame_] = o` is then outside
the bounds of the vector, so `close` has no defined result and neither has
the program that goes on to the scope's exit; the slot the following
`resize` would create is a null pointer, not the object closed. -/
theorem C1_close_on_empty_frame (trigger_gc : Nat → World → World) (w : World)
    (fs : List scope) (g : Nat) (h : Local) (hg : g ≠ 0) :
    scope.close { prev_ := w.top_, frame_ := (w.gcs g).stack_.length } h { w with top_ := g } =
      none ∧
    vector_write (w.gcs g).stack_ (w.gcs g).stack_.length h.obj_ = none ∧
    resize (w.gcs g).stack_ ((w.gcs g).stack_.length + 1) = (w.gcs g).stack_ ++ [0] ∧
    run trigger_gc [Op.scope_ctor g, Op.close h, Op.scope_dtor] (w, fs) = none := by
  have hv : vector_write (w.gcs g).stack_ (w.gcs g).stack_.length h.obj_ = none := by
    simp [vector_write]
  have hc : scope.close { prev_ := w.top_, frame_ := (w.gcs g).stack_.length } h
      { w with top_ := g } = none := by
    simp [scope.close, hg, hv]
  refine ⟨hc, hv, ?_, ?_⟩
  · simp [resize]
  · simp [run, step, scope.ctor, hg, hc]

/-- C1 at a concrete input: collector 1 with handle stack `[8]`, a scope
opened on it, and `close` of a handle that holds object 8. -/
theorem C1_close_on_empty_frame_witness :
    run no_cycle [Op.scope_ctor 1, Op.close { obj_ := 8 }, Op.scope_dtor]
      (example_world 0 0 1000 [8], []) = none :=
  (C1_close_on_empty_frame no_cycle (example_world 0 0 1000 [8]) [] 1 { obj_ := 8 }
    (by decide)).2.2.2

/-- What `close` does when the frame holds at least one slot: with the stack
of the active collector `S ++ x :: rest` and the scope's base at the height
of `S`, `close` and the scope's exit leave the stack `S ++ [o]` and restore
the previous active collector. -/
theorem close_then_exit_promotes (trigger_gc : Nat → World → World) (w : World)
    (fs : List scope) (s : scope) (h : Local) (S rest : List Nat) (x : Nat)
    (ht : w.top_ ≠ 0) (hS : (w.gcs w.top_).stack_ = S ++ x :: rest)
    (hf : s.frame_ = S.length) :
    ∃ w1, run trigger_gc [Op.close h, Op.scope_dtor] (w, s :: fs) = some (w1, fs) ∧
      (w1.gcs w.top_).stack_ = S ++ [h.obj_] ∧ w1.top_ = s.prev_ := by
  have hlt : s.frame_ < (w.gcs w.top_).stack_.length := by
    rw [hS, hf, List.length_append, List.length_cons]
    omega
  have hv : vector_write (w.gcs w.top_).stack_ s.frame_ h.obj_ =
      some ((w.gcs w.top_).stack_.set s.frame_ h.obj_) := by
    simp [vector_write, hlt]
  have hrw : resize ((w.gcs w.top_).stack_.set s.frame_ h.obj_) (s.frame_ + 1) =
      S ++ [h.obj_] := by
    rw [resize_write _ _ _ hlt, hS, hf, List.take_left']
    rfl
  have hc : scope.close s h w = some ({ prev_ := s.prev_, frame_ := s.frame_ + 1 }, h,
      w.set_gc w.top_ { w.gcs w.top_ with stack_ := S ++ [h.obj_] }) := by
    simp only [scope.close, ht, if_false, hv, hrw]
  have hd : scope.dtor { prev_ := s.prev_, frame_ := s.frame_ + 1 }
      (w.set_gc w.top_ { w.gcs w.top_ with stack_ := S ++ [h.obj_] }) = some
      { w.set_gc w.top_ { w.gcs w.top_ with stack_ := S ++ [h.obj_] } with
        top_ := s.prev_ } := by
    have hr : resize (S ++ [h.obj_]) (s.frame_ + 1) = S ++ [h.obj_] := by
      rw [resize_of_le _ _ (by simp [hf])]
      apply List.take_of_length_le
      simp [hf]
    have htop : (w.set_gc w.top_ { w.gcs w.top_ with stack_ := S ++ [h.obj_] }).top_ =
        w.top_ := rfl
    simp only [scope.dtor, htop, ht, if_false, World.set_gc, Function.update_same, hr,
      Function.update_idem]
  refine ⟨{ w.set_gc w.top_ { w.gcs w.top_ with stack_ := S ++ [h.obj_] } with
        top_ := s.prev_ }, ?_, ?_, rfl⟩
  · simp only [run, step, hc, Option.map_some', Option.some_bind, hd]
  · simp [World.set_gc]

/-! ## Zero-filled memory and the configuration -/

/-- C14: for every requested size `sz` for which `::operator new` yields a
block of `sz` bytes, `allocate(sz)` returns that block, at the same address,
with exactly `sz` bytes all of which are zero, for every collection cycle,
every collector state and hence whether or not the call triggered a cycle;
when `::operator new` throws, `allocate` returns no block. -/
theorem C14_allocate_returns_zeroed (trigger_gc : Nat → World → World) (this sz : Nat)
    (b : block) (w : World) (hlen : b.bytes.length = sz) :
    (gc.allocate trigger_gc this sz (some b) w).p = some (memset b 0 sz) ∧
    (memset b 0 sz).p = b.p ∧
    (memset b 0 sz).bytes = List.replicate sz 0 ∧
    (memset b 0 sz).bytes.length = sz ∧
    (∀ x ∈ (memset b 0 sz).bytes, x = 0) ∧
    (gc.allocate trigger_gc this sz none w).p = none := by
  have hb : (memset b 0 sz).bytes = List.replicate sz 0 := by
    simp [memset, ← hlen]
  refine ⟨rfl, rfl, hb, ?_, ?_, rfl⟩
  · rw [hb, List.length_replicate]
  · intro x hx
    rw [hb] at hx
    exact List.eq_of_mem_replicate hx

/-- C14 at concrete inputs: a request of 3 bytes that triggers a cycle
(counter 999, threshold 1000) and one that does not (counter 0) both return
the block at address 64 holding three zero bytes. -/
theorem C14_allocate_returns_zeroed_witness :
    ((gc.allocate no_cycle 1 3 (some { p := 64, bytes := [7, 7, 7] })
        (example_world 1 999 1000 [])).p = some (memset { p := 64, bytes := [7, 7, 7] } 0 3) ∧
      (memset { p := 64, bytes := [7, 7, 7] } 0 3).bytes = List.replicate 3 0) ∧
    (gc.allocate no_cycle 1 3 (some { p := 64, bytes := [7, 7, 7] })
        (example_world 1 999 1000 [])).cycles.length = 1 ∧
    (gc.allocate no_cycle 1 3 (some { p := 64, bytes := [7, 7, 7] })
        (example_world 1 0 1000 [])).p = some { p := 64, bytes := [0, 0, 0] } ∧
    (gc.allocate no_cycle 1 3 (some { p := 64, bytes := [7, 7, 7] })
        (example_world 1 0 1000 [])).cycles.length = 0 :=
  ⟨⟨(C14_allocate_returns_zeroed no_cycle 1 3 { p := 64, bytes := [7, 7, 7] }
      (example_world 1 999 1000 []) rfl).1,
    (C14_allocate_returns_zeroed no_cycle 1 3 { p := 64, bytes := [7, 7, 7] }
      (example_world 1 999 1000 []) rfl).2.2.1⟩,
   by decide, by decide, by decide⟩

/-- C15: a default-constructed `config` has `gc_interval_bytes_` equal to
8 MiB, that is 8 × 1024 × 1024 = 8388608 bytes, and a `config` constructed
with an explicit value `n` has `gc_interval_bytes_` equal to `n`. -/
theorem C15_config_default_interval :
    config.ctor_default.gc_interval_bytes_ = 8388608 ∧
    config.ctor_default.gc_interval_bytes_ = 8 * 1024 * 1024 ∧
    config.ctor_default.gc_interval_bytes_ < SIZE_MODULUS ∧
    ∀ n : Nat, (config.ctor n).gc_interval_bytes_ = n :=
  ⟨by decide, by decide, by decide, fun _ => rfl⟩

/-! ## `close`: the bounds of the slot write -/

/-- C19: the write `stack_[frame_] = o` of `close` is within the bounds of
the active collector's handle stack exactly when the stack's height exceeds
the scope's base, and `close` has a result exactly then.  In that case
`close` leaves the slots below the base unchanged, puts the closed handle's
object in the slot at the base, makes the height and the scope's base one
more than the old base, changes no other collector and not the active
collector; and the scope's exit that follows changes no handle stack. -/
theorem C19_close_write_in_bounds (s : scope) (h : Local) (w : World) (ht : w.top_ ≠ 0) :
    ((vector_write (w.gcs w.top_).stack_ s.frame_ h.obj_).isSome = true ↔
      s.frame_ < (w.gcs w.top_).stack_.length) ∧
    ((scope.close s h w).isSome = true ↔ s.frame_ < (w.gcs w.top_).stack_.length) ∧
    (s.frame_ < (w.gcs w.top_).stack_.length →
      ∃ w1 w2,
        scope.close s h w = some ({ prev_ := s.prev_, frame_ := s.frame_ + 1 }, h, w1) ∧
        (w1.gcs w.top_).stack_ = (w.gcs w.top_).stack_.take s.frame_ ++ [h.obj_] ∧
        (w1.gcs w.top_).stack_.length = s.frame_ + 1 ∧
        (∀ g, g ≠ w.top_ → w1.gcs g = w.gcs g) ∧
        w1.top_ = w.top_ ∧
        scope.dtor { prev_ := s.prev_, frame_ := s.frame_ + 1 } w1 = some w2 ∧
        handle_stacks w2 = handle_stacks w1 ∧ w2.top_ = s.prev_) := by
  have hv : (vector_write (w.gcs w.top_).stack_ s.frame_ h.obj_).isSome = true ↔
      s.frame_ < (w.gcs w.top_).stack_.length := by
    unfold vector_write
    by_cases hi : s.frame_ < (w.gcs w.top_).stack_.length <;> simp [hi]
  have hc : (scope.close s h w).isSome = true ↔ s.frame_ < (w.gcs w.top_).stack_.length := by
    unfold scope.close vector_write
    by_cases hi : s.frame_ < (w.gcs w.top_).stack_.length <;> simp [hi, ht]
  refine ⟨hv, hc, ?_⟩
  intro hi
  have hw : vector_write (w.gcs w.top_).stack_ s.frame_ h.obj_ =
      some ((w.gcs w.top_).stack_.set s.frame_ h.obj_) := by
    simp [vector_write, hi]
  have hcl : scope.close s h w = some ({ prev_ := s.prev_, frame_ := s.frame_ + 1 }, h,
      w.set_gc w.top_ { w.gcs w.top_ with
        stack_ := (w.gcs w.top_).stack_.take s.frame_ ++ [h.obj_] }) := by
    simp only [scope.close, ht, if_false, hw, resize_write _ _ _ hi]
  have hlen : ((w.gcs w.top_).stack_.take s.frame_ ++ [h.obj_]).length = s.frame_ + 1 := by
    rw [List.length_append, List.length_take, List.length_singleton]
    omega
  have hd : scope.dtor { prev_ := s.prev_, frame_ := s.frame_ + 1 }
      (w.set_gc w.top_ { w.gcs w.top_ with
        stack_ := (w.gcs w.top_).stack_.take s.frame_ ++ [h.obj_] }) = some
      { w.set_gc w.top_ { w.gcs w.top_ with
          stack_ := (w.gcs w.top_).stack_.take s.frame_ ++ [h.obj_] } with
        top_ := s.prev_ } := by
    have hr : resize ((w.gcs w.top_).stack_.take s.frame_ ++ [h.obj_]) (s.frame_ + 1) =
        (w.gcs w.top_).stack_.take s.frame_ ++ [h.obj_] := by
      rw [resize_of_le _ _ (Nat.le_of_eq hlen.symm)]
      exact List.take_of_length_le (Nat.le_of_eq hlen)
    have htop : (w.set_gc w.top_ { w.gcs w.top_ with
        stack_ := (w.gcs w.top_).stack_.take s.frame_ ++ [h.obj_] }).top_ = w.top_ := rfl
    simp only [scope.dtor, htop, ht, if_false, World.set_gc, Function.update_same, hr,
      Function.update_idem]
  refine ⟨w.set_gc w.top_ { w.gcs w.top_ with
      stack_ := (w.gcs w.top_).stack_.take s.frame_ ++ [h.obj_] },
    { w.set_gc w.top_ { w.gcs w.top_ with
          stack_ := (w.gcs w.top_).stack_.take s.frame_ ++ [h.obj_] } with
        top_ := s.prev_ }, hcl, ?_, ?_, ?_, rfl, hd, rfl, rfl⟩
  · simp [World.set_gc]
  · simp only [World.set_gc, Function.update_same]
    exact hlen
  · intro g hg
    simp [World.set_gc, Function.update_noteq hg]

/-- C19 at a concrete input: collector 1 active with handle stack
`[8, 9, 10]`, a scope with base 1, and `close` of a handle holding 7: the
stack becomes `[8, 7]`, the base 2, and the exit leaves `[8, 7]`. -/
theorem C19_close_write_in_bounds_witness :
    (scope.close { prev_ := 0, frame_ := 1 } { obj_ := 7 }
      (example_world 1 0 1000 [8, 9, 10])).map (fun r => (r.1, (r.2.2.gcs 1).stack_)) =
      some ({ prev_ := 0, frame_ := 2 }, [8, 7]) ∧
    (run no_cycle [Op.close { obj_ := 7 }, Op.scope_dtor]
      (example_world 1 0 1000 [8, 9, 10], [{ prev_ := 0, frame_ := 1 }])).map
        (fun st => (st.1.gcs 1).stack_) = some [8, 7] := by
  obtain ⟨w1, w2, h1, h2, _, _, _, h6, h7, _⟩ :=
    (C19_close_write_in_bounds { prev_ := 0, frame_ := 1 } { obj_ := 7 }
      (example_world 1 0 1000 [8, 9, 10]) (by decide)).2.2 (by decide)
  constructor
  · rw [h1]
    simp only [Option.map_some']
    rw [show (example_world 1 0 1000 [8, 9, 10]).top_ = 1 from rfl] at h2
    rw [h2]
    rfl
  · decide

/-! ## The header word as an address and two flags -/

theorem and_marked_eq (x : Nat) : x &&& FLAG_MARKED = x % 2 :=
  Nat.and_one_is_mod x

theorem and_mask_eq (x : Nat) : x &&& FLAG_MASK = x % 4 :=
  Nat.and_pow_two_sub_one_eq_mod x 2

theorem and_members_eq (x : Nat) : x &&& FLAG_HAS_GC_MEMBERS = 2 * (x / 2 % 2) := by
  unfold FLAG_HAS_GC_MEMBERS
  have h1 : (x &&& 2) / 2 = x / 2 % 2 := by
    rw [Nat.and_div_two]
    exact Nat.and_one_is_mod (x / 2)
  have h2 : (x &&& 2) % 2 = 0 := by
    have := Nat.testBit_zero (x &&& 2)
    rw [Nat.testBit_and] at this
    have h20 : Nat.testBit 2 0 = false := by decide
    rw [h20, Bool.and_false] at this
    have hd := this.symm
    simp only [decide_eq_false_iff_not] at hd
    omega
  omega

theorem successor_eq (x : Nat) : successor x = 4 * (x / 4) := by
  unfold successor
  rw [and_mask_eq]
  omega

theorem or_marked_div_four (x : Nat) : (x ||| FLAG_MARKED) / 4 = x / 4 := by
  unfold FLAG_MARKED
  have h : ∀ y : Nat, y / 4 = y / 2 / 2 := fun y => by omega
  rw [h, h, Nat.or_div_two, Nat.or_div_two]
  simp

/-- Setting the marked bit does not change the successor an object's header
word encodes. -/
theorem successor_or_marked (x : Nat) : successor (x ||| FLAG_MARKED) = successor x := by
  rw [successor_eq, successor_eq, or_marked_div_four]

/-- Tagging an address whose two low bits are clear with flag bits is adding
them. -/
theorem or_flags_of_aligned (a f : Nat) (ha : a &&& FLAG_MASK = 0) (hf : f < 4) :
    a ||| f = a + f := by
  rw [and_mask_eq] at ha
  have := Nat.mul_add_lt_is_or (i := 2) (b := f) hf (a / 4)
  have e : 2 ^ 2 * (a / 4) = a := by omega
  rw [e] at this
  exact this.symm

theorem successor_tagged (a f : Nat) (ha : a &&& FLAG_MASK = 0) (hf : f < 4) :
    successor (a ||| f) = a := by
  rw [or_flags_of_aligned a f ha hf, successor_eq]
  rw [and_mask_eq] at ha
  omega

/-! ## What `mark` leaves alone -/

/-- A call of `mark` changes no field of any collector but the worklist,
and neither the active collector nor the root nodes. -/
theorem mark_fields (this obj : Nat) (w : World) :
    (gc.mark this obj w).top_ = w.top_ ∧ (gc.mark this obj w).roots = w.roots ∧
    ∀ g, ((gc.mark this obj w).gcs g).obj_head_ = (w.gcs g).obj_head_ ∧
      ((gc.mark this obj w).gcs g).stack_ = (w.gcs g).stack_ ∧
      ((gc.mark this obj w).gcs g).roots_ = (w.gcs g).roots_ ∧
      ((gc.mark this obj w).gcs g).bytes_allocated_since_gc_ =
        (w.gcs g).bytes_allocated_since_gc_ ∧
      ((gc.mark this obj w).gcs g).config_ = (w.gcs g).config_ ∧
      ((gc.mark this obj w).gcs g).emitter_ = (w.gcs g).emitter_ := by
  by_cases h0 : obj = 0
  · subst h0
    rw [mark_null]
    exact ⟨rfl, rfl, fun _ => ⟨rfl, rfl, rfl, rfl, rfl, rfl⟩⟩
  by_cases h : w.next_ obj &&& FLAG_MARKED = 0
  · rw [mark_unmarked this obj w h0 h]
    by_cases hm : w.next_ obj &&& FLAG_HAS_GC_MEMBERS = 0
    · rw [if_neg (not_not.mpr hm)]
      exact ⟨rfl, rfl, fun _ => ⟨rfl, rfl, rfl, rfl, rfl, rfl⟩⟩
    · rw [if_pos hm]
      refine ⟨rfl, rfl, ?_⟩
      intro g
      by_cases hg : g = this
      · subst hg
        simp
      · simp [Function.update_noteq hg]
  · rw [mark_marked this obj w h]
    exact ⟨rfl, rfl, fun _ => ⟨rfl, rfl, rfl, rfl, rfl, rfl⟩⟩

/-- A call of `mark` changes the successor no header word encodes, and no
has-outgoing-references bit. -/
theorem mark_keeps_links (this obj a : Nat) (w : World) :
    successor ((gc.mark this obj w).next_ a) = successor (w.next_ a) ∧
    (gc.mark this obj w).next_ a &&& FLAG_HAS_GC_MEMBERS =
      w.next_ a &&& FLAG_HAS_GC_MEMBERS := by
  rw [mark_next]
  split
  · exact ⟨successor_or_marked _, or_marked_and_members _⟩
  · exact ⟨rfl, rfl⟩

/-- The chain walk depends on the successors the header words encode only. -/
theorem obj_chain_congr (n1 n2 : Nat → Nat) (h : ∀ a, successor (n1 a) = successor (n2 a))
    (fuel : Nat) : ∀ a, obj_chain n1 fuel a = obj_chain n2 fuel a := by
  induction fuel with
  | zero => intro a; rfl
  | succ fuel ih =>
    intro a
    simp only [obj_chain, h a, ih]

theorem mark_step_keeps_chain (st : World × List Nat) (op : MarkOp) :
    (∀ a, successor ((mark_step st op).1.next_ a) = successor (st.1.next_ a)) ∧
    (∀ g, ((mark_step st op).1.gcs g).obj_head_ = (st.1.gcs g).obj_head_) := by
  obtain ⟨w, pushed⟩ := st
  cases op with
  | mark this obj =>
    exact ⟨fun a => (mark_keeps_links this obj a w).1,
      fun g => ((mark_fields this obj w).2.2 g).1⟩
  | pop this =>
    refine ⟨fun _ => rfl, ?_⟩
    intro g
    by_cases hg : g = this
    · subst hg
      simp [mark_step, pending_pop, World.set_gc]
    · simp [mark_step, pending_pop, World.set_gc, Function.update_noteq hg]

theorem mark_foldl_keeps_chain (ops : List MarkOp) :
    ∀ st : World × List Nat,
      (∀ a, successor ((ops.foldl mark_step st).1.next_ a) = successor (st.1.next_ a)) ∧
      (∀ g, ((ops.foldl mark_step st).1.gcs g).obj_head_ = (st.1.gcs g).obj_head_) := by
  induction ops with
  | nil => intro st; exact ⟨fun _ => rfl, fun _ => rfl⟩
  | cons op ops ih =>
    intro st
    obtain ⟨h1, h2⟩ := ih (mark_step st op)
    obtain ⟨k1, k2⟩ := mark_step_keeps_chain st op
    exact ⟨fun a => (h1 a).trans (k1 a), fun g => (h2 g).trans (k2 g)⟩

/-- C18: `mark` touches only the marked bit and the worklist.  A call of
`gc::mark(obj)` leaves the successor encoded in the header word of `obj` and
its has-outgoing-references bit unchanged, leaves the header word of every
other object unchanged, and leaves the active collector, the root nodes and,
in every collector, the chain head, the handle stack, the root list, the
byte counter, the configuration and the observer unchanged.  Hence the
object chain of every collector, walked for any number of links, is the same
before and after a call, and before and after any sequence of `mark` calls
and worklist pops. -/
theorem C18_mark_touches_only_mark_and_worklist (this obj : Nat) (w : World) :
    successor ((gc.mark this obj w).next_ obj) = successor (w.next_ obj) ∧
    (gc.mark this obj w).next_ obj &&& FLAG_HAS_GC_MEMBERS =
      w.next_ obj &&& FLAG_HAS_GC_MEMBERS ∧
    (∀ a, a ≠ obj → (gc.mark this obj w).next_ a = w.next_ a) ∧
    (gc.mark this obj w).top_ = w.top_ ∧ (gc.mark this obj w).roots = w.roots ∧
    (∀ g, ((gc.mark this obj w).gcs g).obj_head_ = (w.gcs g).obj_head_ ∧
      ((gc.mark this obj w).gcs g).stack_ = (w.gcs g).stack_ ∧
      ((gc.mark this obj w).gcs g).roots_ = (w.gcs g).roots_ ∧
      ((gc.mark this obj w).gcs g).bytes_allocated_since_gc_ =
        (w.gcs g).bytes_allocated_since_gc_ ∧
      ((gc.mark this obj w).gcs g).config_ = (w.gcs g).config_ ∧
      ((gc.mark this obj w).gcs g).emitter_ = (w.gcs g).emitter_) ∧
    (∀ g fuel, obj_chain (gc.mark this obj w).next_ fuel ((gc.mark this obj w).gcs g).obj_head_ =
      obj_chain w.next_ fuel (w.gcs g).obj_head_) ∧
    (∀ (ops : List MarkOp) g fuel,
      obj_chain (mark_run ops w).1.next_ fuel ((mark_run ops w).1.gcs g).obj_head_ =
        obj_chain w.next_ fuel (w.gcs g).obj_head_) := by
  refine ⟨(mark_keeps_links this obj obj w).1, (mark_keeps_links this obj obj w).2, ?_,
    (mark_fields this obj w).1, (mark_fields this obj w).2.1, (mark_fields this obj w).2.2,
    ?_, ?_⟩
  · intro a ha
    rw [mark_next]
    simp [ha]
  · intro g fuel
    rw [((mark_fields this obj w).2.2 g).1]
    exact obj_chain_congr _ _ (fun a => (mark_keeps_links this obj a w).1) fuel _
  · intro ops g fuel
    obtain ⟨h1, h2⟩ := mark_foldl_keeps_chain ops (w, [])
    unfold mark_run
    rw [h2 g]
    exact obj_chain_congr _ _ h1 fuel _

/-! ## Chain registration and the constructor -/

/-- Rewriting the header word of an object that is not in a chain does not
change the chain. -/
theorem obj_chain_update (n : Nat → Nat) (obj v : Nat) (fuel : Nat) :
    ∀ a, obj ∉ obj_chain n fuel a →
      obj_chain (Function.update n obj v) fuel a = obj_chain n fuel a := by
  induction fuel with
  | zero => intro a _; rfl
  | succ fuel ih =>
    intro a h
    by_cases ha : a = 0
    · simp [obj_chain, ha]
    · simp only [obj_chain, ha, if_false, List.mem_cons, not_or] at h ⊢
      have hne : a ≠ obj := fun e => h.1 e.symm
      rw [Function.update_noteq hne, ih _ h.2]

theorem register_some (this obj : Nat) (has_gc_members : Bool) (w : World) (hp : obj ≠ 0) :
    gc._register this obj has_gc_members w = some
      (({ w with next_ := (Function.update w.next_ obj
          ((w.gcs this).obj_head_ |||
            (if has_gc_members then FLAG_HAS_GC_MEMBERS else 0))) } : World).set_gc this
        { w.gcs this with obj_head_ := obj }) := by
  simp [gc._register, hp]

/-- C16, at an input where the claim as stated fails: object 8 is the chain
head (the chain is `[8]`) and is registered again.  Its header word now
names itself as successor, so the chain walked for three links is
`[8, 8, 8]`, not 8 followed by the old chain. -/
theorem C16_counterexample :
    ((chain_world 8 (fun _ => 0)).gcs 1).obj_head_ &&& FLAG_MASK = 0 ∧
    obj_chain (chain_world 8 (fun _ => 0)).next_ 2 ((chain_world 8 (fun _ => 0)).gcs 1).obj_head_ =
      [8] ∧
    (gc._register 1 8 true (chain_world 8 (fun _ => 0))).map
      (fun w1 => obj_chain w1.next_ 3 (w1.gcs 1).obj_head_) = some [8, 8, 8] ∧
    (gc._register 1 8 true (chain_world 8 (fun _ => 0))).map
      (fun w1 => obj_chain w1.next_ 3 (w1.gcs 1).obj_head_) ≠
      some (8 :: obj_chain (chain_world 8 (fun _ => 0)).next_ 2
        ((chain_world 8 (fun _ => 0)).gcs 1).obj_head_) := by
  decide

/-- C16, amended: for every collector whose chain head has its two low bits
clear (or is null), every non-null object `obj` and every boolean
`has_refs`, `gc::_register(obj, has_refs)` makes `obj` the chain head, makes
the successor encoded in the header word of `obj` the old head, sets the
has-outgoing-references bit of `obj` to exactly `has_refs`, leaves its marked
bit clear, and leaves the header word of every other object and every other
field of the state unchanged.  When `obj` is not already in the chain, the
chain afterwards is `obj` followed by the old chain. -/
theorem C16_register_links_at_head (this obj : Nat) (has_refs : Bool) (w : World)
    (hhead : (w.gcs this).obj_head_ &&& FLAG_MASK = 0) (hobj : obj ≠ 0) :
    ∃ w1, gc._register this obj has_refs w = some w1 ∧
      (w1.gcs this).obj_head_ = obj ∧
      successor (w1.next_ obj) = (w.gcs this).obj_head_ ∧
      (w1.next_ obj &&& FLAG_HAS_GC_MEMBERS ≠ 0 ↔ has_refs = true) ∧
      w1.next_ obj &&& FLAG_MARKED = 0 ∧
      (∀ a, a ≠ obj → w1.next_ a = w.next_ a) ∧
      (∀ g, g ≠ this → w1.gcs g = w.gcs g) ∧
      (w1.gcs this).stack_ = (w.gcs this).stack_ ∧
      (w1.gcs this).pending_ = (w.gcs this).pending_ ∧
      w1.top_ = w.top_ ∧
      (∀ fuel, obj ∉ obj_chain w.next_ fuel (w.gcs this).obj_head_ →
        obj_chain w1.next_ (fuel + 1) (w1.gcs this).obj_head_ =
          obj :: obj_chain w.next_ fuel (w.gcs this).obj_head_) := by
  have hf : (if has_refs then FLAG_HAS_GC_MEMBERS else 0) < 4 := by
    cases has_refs <;> decide
  have hnext : ((({ w with next_ := (Function.update w.next_ obj
          ((w.gcs this).obj_head_ |||
            (if has_refs then FLAG_HAS_GC_MEMBERS else 0))) } : World).set_gc this
        { w.gcs this with obj_head_ := obj }).next_ obj) =
      (w.gcs this).obj_head_ ||| (if has_refs then FLAG_HAS_GC_MEMBERS else 0) := by
    simp [World.set_gc]
  have hsucc := successor_tagged _ _ hhead hf
  have hadd := or_flags_of_aligned _ _ hhead hf
  have hmod : (w.gcs this).obj_head_ % 4 = 0 := by
    rw [← and_mask_eq]; exact hhead
  refine ⟨_, register_some this obj has_refs w hobj, ?_, ?_, ?_, ?_, ?_, ?_, ?_, ?_, rfl, ?_⟩
  · simp [World.set_gc]
  · rw [hnext]; exact hsucc
  · rw [hnext, hadd, and_members_eq]
    cases has_refs
    · simp only [Bool.false_eq_true, if_false, iff_false, not_not, Nat.add_zero]
      omega
    · simp only [if_true, iff_true, FLAG_HAS_GC_MEMBERS]
      omega
  · rw [hnext, hadd, and_marked_eq]
    cases has_refs
    · simp only [Bool.false_eq_true, if_false, Nat.add_zero]
      omega
    · simp only [if_true, FLAG_HAS_GC_MEMBERS]
      omega
  · intro a ha
    simp [World.set_gc, Function.update_noteq ha]
  · intro g hg
    simp [World.set_gc, Function.update_noteq hg]
  · simp [World.set_gc]
  · simp [World.set_gc]
  · intro fuel hnot
    have hh : (((({ w with next_ := (Function.update w.next_ obj
          ((w.gcs this).obj_head_ |||
            (if has_refs then FLAG_HAS_GC_MEMBERS else 0))) } : World).set_gc this
        { w.gcs this with obj_head_ := obj }).gcs this).obj_head_) = obj := by
      simp [World.set_gc]
    rw [hh]
    simp only [obj_chain, hobj, if_false]
    rw [hnext, hsucc]
    congr 1
    exact obj_chain_update w.next_ obj _ fuel _ hnot

/-- C16 at a concrete input: the chain `[8]` of collector 1 (object 8 with a
null successor) and the registration of object 12 with outgoing references:
the chain becomes `[12, 8]` and the header word of 12 is `8 ||| 2`. -/
theorem C16_register_links_at_head_witness :
    (gc._register 1 12 true (chain_world 8 (fun _ => 0))).map
      (fun w1 => ((w1.gcs 1).obj_head_, w1.next_ 12, obj_chain w1.next_ 2 (w1.gcs 1).obj_head_)) =
      some (12, 10, 12 :: obj_chain (chain_world 8 (fun _ => 0)).next_ 1
        ((chain_world 8 (fun _ => 0)).gcs 1).obj_head_) := by
  obtain ⟨w1, h1, h2, _, _, _, _, _, _, _, _, h11⟩ :=
    C16_register_links_at_head 1 12 true (chain_world 8 (fun _ => 0)) (by decide) (by decide)
  have hc := h11 1 (by decide)
  rw [h1]
  simp only [Option.map_some']
  rw [hc, h2]
  have hn : w1.next_ 12 = 10 := by
    have := register_some 1 12 true (chain_world 8 (fun _ => 0)) (by decide)
    rw [h1] at this
    injection this with e
    rw [e]
    rfl
  rw [hn]

/-- C17: self-protection ordering in the object constructor.  Under an
active collector `g`, the constructor of the object at the non-null address
`this` passes through two states.  In the first, after
`_register_local(this)`, the object is the top slot of the handle stack of
`g` while the chain head and every header word, hence the object chain, are
still those from before the constructor.  In the second, after
`_register(this, has_gc_members)`, which is the state the constructor
returns, the object is the chain head and still the top slot.  So in both
states the object is on the handle stack, in particular in every one of them
in which it is in the chain. -/
theorem C17_ctor_pushes_before_linking (this g : Nat) (has_gc_members : Bool) (w : World)
    (hg : scope.top w = some g) (hp : this ≠ 0) :
    ∃ w1 w2, gc_object.ctor_states this has_gc_members w = some (w1, w2) ∧
      gc_object.ctor this has_gc_members w = some w2 ∧
      w1 = gc._register_local g this w ∧
      gc._register g this has_gc_members w1 = some w2 ∧
      (w1.gcs g).stack_ = (w.gcs g).stack_ ++ [this] ∧
      (w1.gcs g).obj_head_ = (w.gcs g).obj_head_ ∧
      w1.next_ = w.next_ ∧
      (∀ fuel, obj_chain w1.next_ fuel (w1.gcs g).obj_head_ =
        obj_chain w.next_ fuel (w.gcs g).obj_head_) ∧
      (w2.gcs g).stack_ = (w.gcs g).stack_ ++ [this] ∧
      (w2.gcs g).stack_.getLast? = some this ∧
      (w2.gcs g).obj_head_ = this ∧
      (∀ fuel, this ∈ obj_chain w2.next_ (fuel + 1) (w2.gcs g).obj_head_) ∧
      (∀ s ∈ [w1, w2], this ∈ (s.gcs g).stack_) ∧
      (∀ s ∈ [w1, w2], ∀ fuel, this ∈ obj_chain s.next_ fuel (s.gcs g).obj_head_ →
        this ∈ (s.gcs g).stack_) := by
  have hr := register_some g this has_gc_members (gc._register_local g this w) hp
  have hs1 : ((gc._register_local g this w).gcs g).stack_ = (w.gcs g).stack_ ++ [this] := by
    simp [register_local_gcs]
  have hh1 : ((gc._register_local g this w).gcs g).obj_head_ = (w.gcs g).obj_head_ := by
    simp [register_local_gcs]
  obtain ⟨w2, hc, hs2, hh2, _, _, _⟩ := ctor_effect this g has_gc_members w hg hp
  have hc2 : gc._register g this has_gc_members (gc._register_local g this w) = some w2 := by
    simpa [gc_object.ctor, hg] using hc
  have hon : ∀ s ∈ [gc._register_local g this w, w2], this ∈ (s.gcs g).stack_ := by
    intro s hs
    simp only [List.mem_cons, List.mem_singleton, List.not_mem_nil, or_false] at hs
    rcases hs with rfl | rfl
    · rw [hs1]; simp
    · rw [hs2]; simp
  refine ⟨gc._register_local g this w, w2, ?_, hc, rfl, hc2, hs1, hh1, rfl, ?_, hs2, ?_, hh2,
    ?_, hon, fun s hs _ _ => hon s hs⟩
  · simp [gc_object.ctor_states, hg, hc2]
  · intro fuel
    rw [hh1]
    rfl
  · rw [hs2]; simp
  · intro fuel
    rw [hh2]
    simp [obj_chain, hp]

/-- C17 at a concrete input: collector 1 active with handle stack `[8]` and
an empty chain; the constructor of the object at address 64 first reaches a
state with stack `[8, 64]` and chain head null, then one with stack
`[8, 64]` and chain head 64. -/
theorem C17_ctor_pushes_before_linking_witness :
    (gc_object.ctor_states 64 true (example_world 1 0 1000 [8])).map
      (fun p => ((p.1.gcs 1).stack_, (p.1.gcs 1).obj_head_,
        (p.2.gcs 1).stack_, (p.2.gcs 1).obj_head_)) =
      some ([8, 64], 0, [8, 64], 64) := by
  obtain ⟨w1, w2, h1, _, _, _, h5, h6, _, _, h9, _, h11, _⟩ :=
    C17_ctor_pushes_before_linking 64 1 true (example_world 1 0 1000 [8]) (by decide)
      (by decide)
  rw [h1]
  simp only [Option.map_some']
  rw [h5, h6, h9, h11]
  rfl

/-! ## Marking a list of pointers -/

theorem marked_mark_iff (this obj a : Nat) (w : World) :
    marked (gc.mark this obj w) a ↔ marked w a ∨ (a = obj ∧ obj ≠ 0) := by
  unfold marked
  rw [mark_next]
  by_cases hc : a = obj ∧ obj ≠ 0 ∧ w.next_ obj &&& FLAG_MARKED = 0
  · rw [if_pos hc]
    simp [or_marked_and_marked, hc.1, hc.2.1]
  · rw [if_neg hc]
    constructor
    · exact fun h => Or.inl h
    · rintro (h | ⟨rfl, h0⟩)
      · exact h
      · intro hz
        exact hc ⟨rfl, h0, hz⟩

theorem mark_all_cons (this c : Nat) (cs : List Nat) (w : World) :
    mark_all this (c :: cs) w = mark_all this cs (gc.mark this c w) :=
  rfl

theorem marked_mark_all_iff (this : Nat) (cs : List Nat) :
    ∀ (w : World) (a : Nat), marked (mark_all this cs w) a ↔ marked w a ∨ (a ∈ cs ∧ a ≠ 0) := by
  induction cs with
  | nil => intro w a; simp [mark_all]
  | cons c cs ih =>
    intro w a
    rw [mark_all_cons, ih, marked_mark_iff]
    constructor
    · rintro ((h | ⟨rfl, h0⟩) | ⟨h, h0⟩)
      · exact Or.inl h
      · exact Or.inr ⟨List.mem_cons_self _ _, h0⟩
      · exact Or.inr ⟨List.mem_cons_of_mem _ h, h0⟩
    · rintro (h | ⟨h, h0⟩)
      · exact Or.inl (Or.inl h)
      · rcases List.mem_cons.mp h with rfl | h
        · exact Or.inl (Or.inr ⟨rfl, h0⟩)
        · exact Or.inr ⟨h, h0⟩

/-- Marking a list of pointers changes no successor, no
has-outgoing-references bit, and no field of a collector but the worklist. -/
theorem mark_all_keeps (this : Nat) (cs : List Nat) :
    ∀ (w : World),
      (∀ a, successor ((mark_all this cs w).next_ a) = successor (w.next_ a)) ∧
      (∀ a, has_members (mark_all this cs w) a ↔ has_members w a) ∧
      (mark_all this cs w).top_ = w.top_ ∧ (mark_all this cs w).roots = w.roots ∧
      (∀ g, ((mark_all this cs w).gcs g).obj_head_ = (w.gcs g).obj_head_ ∧
        ((mark_all this cs w).gcs g).stack_ = (w.gcs g).stack_ ∧
        ((mark_all this cs w).gcs g).roots_ = (w.gcs g).roots_) := by
  induction cs with
  | nil => intro w; exact ⟨fun _ => rfl, fun _ => Iff.rfl, rfl, rfl, fun _ => ⟨rfl, rfl, rfl⟩⟩
  | cons c cs ih =>
    intro w
    rw [mark_all_cons]
    obtain ⟨h1, h2, h3, h4, h5⟩ := ih (gc.mark this c w)
    obtain ⟨k3, k4, k5⟩ := mark_fields this c w
    refine ⟨fun a => (h1 a).trans (mark_keeps_links this c a w).1, ?_, h3.trans k3,
      h4.trans k4, ?_⟩
    · intro a
      rw [h2 a]
      unfold has_members
      rw [(mark_keeps_links this c a w).2]
    · intro g
      obtain ⟨a1, a2, a3⟩ := h5 g
      obtain ⟨b1, b2, b3, _⟩ := k5 g
      exact ⟨a1.trans b1, a2.trans b2, a3.trans b3⟩

/-- The worklist after marking a list of pointers: the old worklist followed
by the pointers of the list that were non-null and unmarked and have
outgoing references, each once. -/
theorem mark_all_pending (this : Nat) (cs : List Nat) :
    ∀ (w : World), ∃ fresh : List Nat,
      ((mark_all this cs w).gcs this).pending_ = (w.gcs this).pending_ ++ fresh ∧
      fresh.Nodup ∧
      ∀ x, x ∈ fresh ↔ (x ∈ cs ∧ x ≠ 0 ∧ ¬ marked w x ∧ has_members w x) := by
  induction cs with
  | nil =>
    intro w
    exact ⟨[], by simp [mark_all], List.nodup_nil, fun x => by simp⟩
  | cons c cs ih =>
    intro w
    rw [mark_all_cons]
    obtain ⟨fresh, hp, hnd, hmem⟩ := ih (gc.mark this c w)
    have hflag : ∀ x, has_members (gc.mark this c w) x ↔ has_members w x := by
      intro x
      unfold has_members
      rw [(mark_keeps_links this c x w).2]
    by_cases hc : c ≠ 0 ∧ w.next_ c &&& FLAG_MARKED = 0 ∧
        w.next_ c &&& FLAG_HAS_GC_MEMBERS ≠ 0
    · refine ⟨c :: fresh, ?_, ?_, ?_⟩
      · rw [hp, mark_pending]
        simp [hc]
      · refine List.nodup_cons.mpr ⟨?_, hnd⟩
        intro hin
        have hnm := ((hmem c).mp hin).2.2.1
        exact hnm ((marked_mark_iff this c c w).mpr (Or.inr ⟨rfl, hc.1⟩))
      · intro x
        rw [List.mem_cons, hmem, marked_mark_iff, hflag, List.mem_cons]
        constructor
        · rintro (rfl | ⟨h1, h2, h3, h4⟩)
          · exact ⟨Or.inl rfl, hc.1, fun hm => hm hc.2.1, hc.2.2⟩
          · exact ⟨Or.inr h1, h2, fun hm => h3 (Or.inl hm), h4⟩
        · rintro ⟨h1, h2, h3, h4⟩
          by_cases hx : x = c
          · exact Or.inl hx
          · refine Or.inr ⟨h1.resolve_left hx, h2, ?_, h4⟩
            rintro (hm | ⟨he, _⟩)
            · exact h3 hm
            · exact hx he
    · refine ⟨fresh, ?_, hnd, ?_⟩
      · rw [hp, mark_pending]
        have hno : ¬ (this = this ∧ c ≠ 0 ∧ w.next_ c &&& FLAG_MARKED = 0 ∧
            w.next_ c &&& FLAG_HAS_GC_MEMBERS ≠ 0) := fun h => hc h.2
        rw [if_neg hno]
      · intro x
        rw [hmem, marked_mark_iff, hflag, List.mem_cons]
        constructor
        · rintro ⟨h1, h2, h3, h4⟩
          exact ⟨Or.inr h1, h2, fun hm => h3 (Or.inl hm), h4⟩
        · rintro ⟨h1, h2, h3, h4⟩
          have hx : x ≠ c := by
            rintro rfl
            exact hc ⟨h2, not_not.mp h3, h4⟩
          refine ⟨h1.resolve_left hx, h2, ?_, h4⟩
          rintro (hm | ⟨he, _⟩)
          · exact h3 hm
          · exact hx he

/-! ## One iteration of the mark loop -/

theorem pending_pop_pending (this : Nat) (w : World) :
    ((pending_pop this w).gcs this).pending_ = (w.gcs this).pending_.dropLast := by
  simp [pending_pop, World.set_gc]

theorem pending_of_getLast (l : List Nat) (o : Nat) (h : l.getLast? = some o) :
    l = l.dropLast ++ [o] := by
  have := List.dropLast_append_getLast? o h
  exact this.symm

/-- One iteration of the mark loop on a worklist that ends in `o`: the
worklist loses `o` and gains the references of `o` that were non-null and
unmarked and have outgoing references, each once; exactly the non-null
references of `o` become marked in addition; no has-outgoing-references bit
and no successor changes. -/
theorem mark_iteration (refs : Nat → List Nat) (this o : Nat) (w : World)
    (hlast : (w.gcs this).pending_.getLast? = some o) :
    ∃ fresh : List Nat,
      (w.gcs this).pending_ = (w.gcs this).pending_.dropLast ++ [o] ∧
      ((trace refs this o (pending_pop this w)).gcs this).pending_ =
        (w.gcs this).pending_.dropLast ++ fresh ∧
      fresh.Nodup ∧
      (∀ x, x ∈ fresh ↔ (x ∈ refs o ∧ x ≠ 0 ∧ ¬ marked w x ∧ has_members w x)) ∧
      (∀ a, marked (trace refs this o (pending_pop this w)) a ↔
        marked w a ∨ (a ∈ refs o ∧ a ≠ 0)) ∧
      (∀ a, has_members (trace refs this o (pending_pop this w)) a ↔ has_members w a) ∧
      (∀ a, successor ((trace refs this o (pending_pop this w)).next_ a) =
        successor (w.next_ a)) ∧
      (∀ g, ((trace refs this o (pending_pop this w)).gcs g).obj_head_ =
        (w.gcs g).obj_head_) := by
  obtain ⟨fresh, hp, hnd, hmem⟩ := mark_all_pending this (refs o) (pending_pop this w)
  obtain ⟨k1, k2, _, _, k5⟩ := mark_all_keeps this (refs o) (pending_pop this w)
  refine ⟨fresh, pending_of_getLast _ o hlast, ?_, hnd, hmem, ?_, k2, k1, ?_⟩
  · unfold trace
    rw [hp, pending_pop_pending]
  · intro a
    exact marked_mark_all_iff this (refs o) (pending_pop this w) a
  · intro g
    refine ((k5 g).1).trans ?_
    by_cases hg : g = this
    · subst hg
      simp [pending_pop, World.set_gc]
    · simp [pending_pop, World.set_gc, Function.update_noteq hg]

/-! ## The mark loop terminates -/

theorem unmarked_in_mem (w : World) (U : List Nat) (x : Nat) :
    x ∈ unmarked_in w U ↔ x ∈ U ∧ ¬ marked w x := by
  simp [unmarked_in, marked]

/-- Marking `fresh` distinct unmarked objects of `U` lowers the number of
unmarked objects of `U` by at least their number. -/
theorem unmarked_count (U fresh : List Nat) (w w1 : World) (hnd : fresh.Nodup)
    (hf : ∀ x ∈ fresh, x ∈ U ∧ ¬ marked w x ∧ marked w1 x)
    (hmono : ∀ x, marked w x → marked w1 x) :
    fresh.length + (unmarked_in w1 U).length ≤ (unmarked_in w U).length := by
  have hsplit := List.length_eq_length_filter_add (l := unmarked_in w U)
    (fun x => decide (w1.next_ x &&& FLAG_MARKED = 0))
  have h1 : (unmarked_in w U).filter (fun x => decide (w1.next_ x &&& FLAG_MARKED = 0)) =
      unmarked_in w1 U := by
    unfold unmarked_in
    rw [List.filter_filter]
    apply List.filter_congr
    intro x _
    by_cases hx : w1.next_ x &&& FLAG_MARKED = 0
    · have hw : w.next_ x &&& FLAG_MARKED = 0 := by
        by_contra hne
        exact hmono x hne hx
      simp [hx, hw]
    · simp [hx]
  have h2 : fresh.length ≤ ((unmarked_in w U).filter
      (fun x => !decide (w1.next_ x &&& FLAG_MARKED = 0))).length := by
    apply List.Subperm.length_le
    apply List.Nodup.subperm hnd
    intro x hx
    obtain ⟨hU, hw, hw1⟩ := hf x hx
    rw [List.mem_filter, unmarked_in_mem]
    refine ⟨⟨hU, hw⟩, ?_⟩
    simpa [marked] using hw1
  rw [h1] at hsplit
  omega

/-- With every worklist entry an object of a finite graph `U`, the mark loop
empties the worklist within as many pops as the worklist is long plus the
number of unmarked objects of `U`. -/
theorem mark_terminates (refs : Nat → List Nat) (this : Nat) (U : List Nat)
    (hU : closed_under refs U) :
    ∀ (fuel : Nat) (w : World), (∀ x ∈ (w.gcs this).pending_, x ∈ U) →
      (w.gcs this).pending_.length + (unmarked_in w U).length ≤ fuel →
      ∃ r, gc._mark refs this fuel w = some r := by
  intro fuel
  induction fuel with
  | zero =>
    intro w _ hle
    have hnil : (w.gcs this).pending_ = [] := List.length_eq_zero.mp (by omega)
    exact ⟨(w, []), by simp [gc._mark, hnil]⟩
  | succ fuel ih =>
    intro w hin hle
    cases hlast : (w.gcs this).pending_.getLast? with
    | none => exact ⟨(w, []), by simp [gc._mark, hlast]⟩
    | some o =>
      obtain ⟨fresh, hp, hp1, hnd, hmem, hmk, _, _, _⟩ := mark_iteration refs this o w hlast
      have ho : o ∈ U := hin o (by rw [hp]; simp)
      have hin1 : ∀ x ∈ ((trace refs this o (pending_pop this w)).gcs this).pending_, x ∈ U := by
        intro x hx
        rw [hp1, List.mem_append] at hx
        rcases hx with hx | hx
        · exact hin x (List.mem_of_mem_dropLast hx)
        · obtain ⟨hr, h0, _, _⟩ := (hmem x).mp hx
          exact hU o ho x hr h0
      have hcount := unmarked_count U fresh w (trace refs this o (pending_pop this w)) hnd
        (fun x hx => by
          obtain ⟨hr, h0, hnm, _⟩ := (hmem x).mp hx
          exact ⟨hU o ho x hr h0, hnm, (hmk x).mpr (Or.inr ⟨hr, h0⟩)⟩)
        (fun x hx => (hmk x).mpr (Or.inl hx))
      have hlen : (w.gcs this).pending_.length = (w.gcs this).pending_.dropLast.length + 1 := by
        conv_lhs => rw [hp]
        simp
      have hle1 : ((trace refs this o (pending_pop this w)).gcs this).pending_.length +
          (unmarked_in (trace refs this o (pending_pop this w)) U).length ≤ fuel := by
        rw [hp1, List.length_append]
        omega
      obtain ⟨r, hr⟩ := ih _ hin1 hle1
      exact ⟨(r.1, o :: r.2), by simp [gc._mark, hlast, hr]⟩

/-! ## Invariants of the mark loop -/

/-- A property every iteration keeps holds when the loop ends, and the loop
ends with an empty worklist. -/
theorem mark_loop_invariant (refs : Nat → List Nat) (this : Nat) (P : World → Prop)
    (hstep : ∀ w o, P w → (w.gcs this).pending_.getLast? = some o →
      P (trace refs this o (pending_pop this w))) :
    ∀ (fuel : Nat) (w : World) (r : World × List Nat), P w →
      gc._mark refs this fuel w = some r → P r.1 ∧ (r.1.gcs this).pending_ = [] := by
  intro fuel
  induction fuel with
  | zero =>
    intro w r hP hr
    by_cases hnil : (w.gcs this).pending_ = []
    · simp only [gc._mark, hnil, if_true, Option.some.injEq] at hr
      subst hr
      exact ⟨hP, hnil⟩
    · simp [gc._mark, hnil] at hr
  | succ fuel ih =>
    intro w r hP hr
    cases hlast : (w.gcs this).pending_.getLast? with
    | none =>
      simp only [gc._mark, hlast, Option.some.injEq] at hr
      subst hr
      exact ⟨hP, List.getLast?_eq_none_iff.mp hlast⟩
    | some o =>
      simp only [gc._mark, hlast] at hr
      cases hrec : gc._mark refs this fuel (trace refs this o (pending_pop this w)) with
      | none => simp [hrec] at hr
      | some r1 =>
        simp only [hrec, Option.some.injEq] at hr
        subst hr
        exact ih _ r1 (hstep w o hP hlast) hrec

theorem mark_inv_step (refs : Nat → List Nat) (w0 : World) (roots : List Nat) (this : Nat)
    (w : World) (o : Nat) (h : mark_inv refs w0 roots this w)
    (hlast : (w.gcs this).pending_.getLast? = some o) :
    mark_inv refs w0 roots this (trace refs this o (pending_pop this w)) := by
  obtain ⟨htri, hseed, hfl, hlk, hhd⟩ := h
  obtain ⟨fresh, hp, hp1, _, hmem, hmk, hfl1, hlk1, hhd1⟩ := mark_iteration refs this o w hlast
  refine ⟨?_, ?_, fun a => (hfl1 a).trans (hfl a), fun a => (hlk1 a).trans (hlk a),
    fun g => (hhd1 g).trans (hhd g)⟩
  · intro x hx hm
    rw [hfl1] at hm
    rw [hp1]
    by_cases hold : marked w x
    · rcases htri x hold hm with hin | hch
      · rw [hp, List.mem_append, List.mem_singleton] at hin
        rcases hin with hin | rfl
        · exact Or.inl (List.mem_append_left _ hin)
        · exact Or.inr (fun c hc h0 => (hmk c).mpr (Or.inr ⟨hc, h0⟩))
      · exact Or.inr (fun c hc h0 => (hmk c).mpr (Or.inl (hch c hc h0)))
    · rcases (hmk x).mp hx with hxm | ⟨hr, h0⟩
      · exact (hold hxm).elim
      · exact Or.inl (List.mem_append_right _ ((hmem x).mpr ⟨hr, h0, hold, hm⟩))
  · intro s hs h0
    exact (hmk s).mpr (Or.inl (hseed s hs h0))

/-- Seeding from a state in which no object is marked establishes the
invariant of the mark loop. -/
theorem mark_inv_setup (refs : Nat → List Nat) (this : Nat) (cs : List Nat) (w : World)
    (hclean : ∀ a, ¬ marked w a) : mark_inv refs w cs this (mark_all this cs w) := by
  obtain ⟨fresh, hp, _, hmem⟩ := mark_all_pending this cs w
  obtain ⟨k1, k2, _, _, k5⟩ := mark_all_keeps this cs w
  refine ⟨?_, ?_, k2, k1, fun g => (k5 g).1⟩
  · intro x hx hm
    rw [k2] at hm
    rcases (marked_mark_all_iff this cs w x).mp hx with hxm | ⟨hin, h0⟩
    · exact (hclean x hxm).elim
    · left
      rw [hp]
      exact List.mem_append_right _ ((hmem x).mpr ⟨hin, h0, hclean x, hm⟩)
  · intro s hs h0
    exact (marked_mark_all_iff this cs w s).mpr (Or.inr ⟨hs, h0⟩)

/-- When the loop has ended under its invariant, every reachable object is
marked. -/
theorem reachable_marked (refs : Nat → List Nat) (w0 : World) (roots : List Nat) (this : Nat)
    (w : World) (h : mark_inv refs w0 roots this w) (hnil : (w.gcs this).pending_ = [])
    (x : Nat) (hx : Reachable refs w0.next_ roots x) : marked w x := by
  obtain ⟨htri, hseed, hfl, _, _⟩ := h
  induction hx with
  | seed o ho h0 => exact hseed o ho h0
  | ref o c _ hm hc h0 ih =>
    rcases htri o ih ((hfl o).mpr hm) with hin | hch
    · rw [hnil] at hin
      simp at hin
    · exact hch c hc h0

theorem mark_sound_step (refs : Nat → List Nat) (w0 : World) (roots : List Nat) (this : Nat)
    (w : World) (o : Nat) (h : mark_sound refs w0 roots this w)
    (hlast : (w.gcs this).pending_.getLast? = some o) :
    mark_sound refs w0 roots this (trace refs this o (pending_pop this w)) := by
  obtain ⟨hsnd, hpend, hfl⟩ := h
  obtain ⟨fresh, hp, hp1, _, hmem, hmk, hfl1, _, _⟩ := mark_iteration refs this o w hlast
  have ho : Reachable refs w0.next_ roots o ∧ has_members w o :=
    hpend o (by rw [hp]; simp)
  have hchild : ∀ c, c ∈ refs o → c ≠ 0 → Reachable refs w0.next_ roots c :=
    fun c hc h0 => Reachable.ref o c ho.1 ((hfl o).mp ho.2) hc h0
  refine ⟨?_, ?_, fun a => (hfl1 a).trans (hfl a)⟩
  · intro x hx
    rcases (hmk x).mp hx with hxm | ⟨hr, h0⟩
    · exact hsnd x hxm
    · exact hchild x hr h0
  · intro x hx
    rw [hp1, List.mem_append] at hx
    rcases hx with hx | hx
    · obtain ⟨a, b⟩ := hpend x (List.mem_of_mem_dropLast hx)
      exact ⟨a, (hfl1 x).mpr b⟩
    · obtain ⟨hr, h0, _, hm⟩ := (hmem x).mp hx
      exact ⟨hchild x hr h0, (hfl1 x).mpr hm⟩

theorem mark_sound_setup (refs : Nat → List Nat) (this : Nat) (cs : List Nat) (w : World)
    (hclean : ∀ a, ¬ marked w a) (hnil : (w.gcs this).pending_ = []) :
    mark_sound refs w cs this (mark_all this cs w) := by
  obtain ⟨fresh, hp, _, hmem⟩ := mark_all_pending this cs w
  obtain ⟨_, k2, _⟩ := mark_all_keeps this cs w
  refine ⟨?_, ?_, k2⟩
  · intro x hx
    rcases (marked_mark_all_iff this cs w x).mp hx with hxm | ⟨hin, h0⟩
    · exact (hclean x hxm).elim
    · exact Reachable.seed x hin h0
  · intro x hx
    rw [hp, hnil, List.nil_append] at hx
    obtain ⟨hin, h0, _, hm⟩ := (hmem x).mp hx
    exact ⟨Reachable.seed x hin h0, (k2 x).mpr hm⟩

theorem worklist_ok_setup (this : Nat) (cs : List Nat) (w : World)
    (hnil : (w.gcs this).pending_ = []) : worklist_ok this (mark_all this cs w) := by
  obtain ⟨fresh, hp, hnd, hmem⟩ := mark_all_pending this cs w
  rw [hnil, List.nil_append] at hp
  refine ⟨by rw [hp]; exact hnd, ?_⟩
  intro x hx
  rw [hp] at hx
  obtain ⟨hin, h0, _, _⟩ := (hmem x).mp hx
  exact (marked_mark_all_iff this cs w x).mpr (Or.inr ⟨hin, h0⟩)

/-- From a worklist of distinct marked objects, the mark loop traces no
object twice; every object it traces was on the worklist or unmarked. -/
theorem mark_traces_once (refs : Nat → List Nat) (this : Nat) :
    ∀ (fuel : Nat) (w : World) (r : World × List Nat), worklist_ok this w →
      gc._mark refs this fuel w = some r →
      r.2.Nodup ∧ ∀ x ∈ r.2, x ∈ (w.gcs this).pending_ ∨ ¬ marked w x := by
  intro fuel
  induction fuel with
  | zero =>
    intro w r _ hr
    by_cases hnil : (w.gcs this).pending_ = []
    · simp only [gc._mark, hnil, if_true, Option.some.injEq] at hr
      subst hr
      exact ⟨List.nodup_nil, fun x hx => by simp at hx⟩
    · simp [gc._mark, hnil] at hr
  | succ fuel ih =>
    intro w r hok hr
    cases hlast : (w.gcs this).pending_.getLast? with
    | none =>
      simp only [gc._mark, hlast, Option.some.injEq] at hr
      subst hr
      exact ⟨List.nodup_nil, fun x hx => by simp at hx⟩
    | some o =>
      simp only [gc._mark, hlast] at hr
      cases hrec : gc._mark refs this fuel (trace refs this o (pending_pop this w)) with
      | none => simp [hrec] at hr
      | some r1 =>
        simp only [hrec, Option.some.injEq] at hr
        subst hr
        obtain ⟨hnd, hmk⟩ := hok
        obtain ⟨fresh, hp, hp1, hfnd, hmem, hmark, _, _, _⟩ :=
          mark_iteration refs this o w hlast
        have hnd' : ((w.gcs this).pending_.dropLast ++ [o]).Nodup := by
          rw [← hp]; exact hnd
        have ho_not : o ∉ (w.gcs this).pending_.dropLast := by
          intro hin
          exact (List.nodup_append.mp hnd').2.2 hin (List.mem_singleton_self o) 
        have ho_marked : marked w o := hmk o (by rw [hp]; simp)
        have hok1 : worklist_ok this (trace refs this o (pending_pop this w)) := by
          constructor
          · rw [hp1, List.nodup_append]
            refine ⟨(List.nodup_append.mp hnd').1, hfnd, ?_⟩
            intro a ha hb
            have hma : marked w a := hmk a (List.mem_of_mem_dropLast ha)
            exact ((hmem a).mp hb).2.2.1 hma
          · intro x hx
            rw [hp1, List.mem_append] at hx
            rcases hx with hx | hx
            · exact (hmark x).mpr (Or.inl (hmk x (List.mem_of_mem_dropLast hx)))
            · obtain ⟨hr1, h0, _, _⟩ := (hmem x).mp hx
              exact (hmark x).mpr (Or.inr ⟨hr1, h0⟩)
        obtain ⟨ihnd, ihmem⟩ := ih _ r1 hok1 hrec
        refine ⟨List.nodup_cons.mpr ⟨?_, ihnd⟩, ?_⟩
        · intro hin
          rcases ihmem o hin with h1 | h1
          · rw [hp1, List.mem_append] at h1
            rcases h1 with h1 | h1
            · exact ho_not h1
            · exact ((hmem o).mp h1).2.2.1 ho_marked
          · exact h1 ((hmark o).mpr (Or.inl ho_marked))
        · intro x hx
          rcases List.mem_cons.mp hx with rfl | hx
          · left; rw [hp]; simp
          · rcases ihmem x hx with h1 | h1
            · rw [hp1, List.mem_append] at h1
              rcases h1 with h1 | h1
              · exact Or.inl (List.mem_of_mem_dropLast h1)
              · exact Or.inr ((hmem x).mp h1).2.2.1
            · exact Or.inr (fun hm => h1 ((hmark x).mpr (Or.inl hm)))

/-! ## The sweep -/

theorem chain_ends_congr (n1 n2 : Nat → Nat) (h : ∀ a, successor (n1 a) = successor (n2 a))
    (fuel : Nat) : ∀ a, chain_ends n1 fuel a = chain_ends n2 fuel a := by
  induction fuel with
  | zero => intro a; rfl
  | succ fuel ih =>
    intro a
    simp only [chain_ends, h a, ih]

/-- The sweep of a chain that reaches the null pointer within the fuel has a
result. -/
theorem sweep_chain_some (next_ : Nat → Nat) (fuel : Nat) :
    ∀ a, chain_ends next_ fuel a = true → ∃ r, sweep_chain next_ fuel a = some r := by
  induction fuel with
  | zero =>
    intro a h
    simp only [chain_ends, decide_eq_true_eq] at h
    simp only [sweep_chain, h, if_true]
    exact ⟨_, rfl⟩
  | succ fuel ih =>
    intro a h
    by_cases ha : a = 0
    · simp only [sweep_chain, ha, if_true]
      exact ⟨_, rfl⟩
    · simp only [chain_ends, ha, decide_False, Bool.false_or] at h
      obtain ⟨r1, hr1⟩ := ih _ h
      simp only [sweep_chain, ha, if_false, hr1]
      by_cases hm : next_ a &&& FLAG_MARKED ≠ 0
      · rw [if_pos hm]
        exact ⟨_, rfl⟩
      · rw [if_neg hm]
        exact ⟨_, rfl⟩

/-- The sweep keeps exactly the marked objects of the chain and destroys
exactly the unmarked ones, in chain order; the new head is null or an object
kept; and the header word of an object not kept is not written. -/
theorem sweep_chain_lists (next_ : Nat → Nat) (fuel : Nat) :
    ∀ a r, sweep_chain next_ fuel a = some r →
      r.kept = (obj_chain next_ fuel a).filter (fun x => decide (next_ x &&& FLAG_MARKED ≠ 0)) ∧
      r.dead = (obj_chain next_ fuel a).filter (fun x => decide (next_ x &&& FLAG_MARKED = 0)) ∧
      (r.head = 0 ∨ r.head ∈ r.kept) ∧
      (∀ x, x ∉ r.kept → r.next_ x = next_ x) := by
  induction fuel with
  | zero =>
    intro a r h
    by_cases ha : a = 0
    · simp only [sweep_chain, ha, if_true, Option.some.injEq] at h
      subst h
      exact ⟨rfl, rfl, Or.inl rfl, fun _ _ => rfl⟩
    · simp [sweep_chain, ha] at h
  | succ fuel ih =>
    intro a r h
    by_cases ha : a = 0
    · simp only [sweep_chain, ha, if_true, Option.some.injEq] at h
      subst h
      subst ha
      exact ⟨rfl, rfl, Or.inl rfl, fun _ _ => rfl⟩
    · simp only [sweep_chain, ha, if_false] at h
      cases hrec : sweep_chain next_ fuel (successor (next_ a)) with
      | none => simp [hrec] at h
      | some r1 =>
        obtain ⟨hk, hd, hh, hn⟩ := ih _ r1 hrec
        simp only [hrec] at h
        by_cases hm : next_ a &&& FLAG_MARKED ≠ 0
        · rw [if_pos hm, Option.some.injEq] at h
          subst h
          refine ⟨?_, ?_, Or.inr (List.mem_cons_self _ _), ?_⟩
          · simp [obj_chain, ha, hm, hk]
          · simp [obj_chain, ha, hm, hd]
          · intro x hx
            simp only [List.mem_cons, not_or] at hx
            show Function.update r1.next_ a _ x = next_ x
            rw [Function.update_noteq hx.1]
            exact hn x hx.2
        · rw [if_neg hm, Option.some.injEq] at h
          subst h
          have hm0 : next_ a &&& FLAG_MARKED = 0 := not_not.mp hm
          refine ⟨?_, ?_, hh, hn⟩
          · simp [obj_chain, ha, hm0, hk]
          · simp [obj_chain, ha, hm0, hd]

theorem obj_chain_tail_subset (next_ : Nat → Nat) (fuel a : Nat) (ha : a ≠ 0) :
    ∀ x ∈ obj_chain next_ fuel (successor (next_ a)), x ∈ obj_chain next_ (fuel + 1) a := by
  intro x hx
  simp only [obj_chain, ha, if_false]
  exact List.mem_cons_of_mem _ hx

/-- After the sweep of a chain of addresses whose two low bits are clear,
every object kept has its marked bit clear and its has-outgoing-references
bit as before, and its successor is null or an object kept. -/
theorem sweep_chain_links (next_ : Nat → Nat) (fuel : Nat) :
    ∀ a r, sweep_chain next_ fuel a = some r →
      (∀ x ∈ obj_chain next_ fuel a, x &&& FLAG_MASK = 0) →
      ∀ k ∈ r.kept,
        (successor (r.next_ k) = 0 ∨ successor (r.next_ k) ∈ r.kept) ∧
        r.next_ k &&& FLAG_MARKED = 0 ∧
        r.next_ k &&& FLAG_HAS_GC_MEMBERS = next_ k &&& FLAG_HAS_GC_MEMBERS := by
  induction fuel with
  | zero =>
    intro a r h _ k hk
    by_cases ha : a = 0
    · simp only [sweep_chain, ha, if_true, Option.some.injEq] at h
      subst h
      simp at hk
    · simp [sweep_chain, ha] at h
  | succ fuel ih =>
    intro a r h hal k hk
    by_cases ha : a = 0
    · simp only [sweep_chain, ha, if_true, Option.some.injEq] at h
      subst h
      simp at hk
    · simp only [sweep_chain, ha, if_false] at h
      cases hrec : sweep_chain next_ fuel (successor (next_ a)) with
      | none => simp [hrec] at h
      | some r1 =>
        have hal1 : ∀ x ∈ obj_chain next_ fuel (successor (next_ a)), x &&& FLAG_MASK = 0 :=
          fun x hx => hal x (obj_chain_tail_subset next_ fuel a ha x hx)
        have ih1 := ih _ r1 hrec hal1
        obtain ⟨hk1, _, hh, _⟩ := sweep_chain_lists next_ fuel _ r1 hrec
        simp only [hrec] at h
        by_cases hm : next_ a &&& FLAG_MARKED ≠ 0
        · rw [if_pos hm, Option.some.injEq] at h
          subst h
          have hhead : r1.head &&& FLAG_MASK = 0 := by
            rcases hh with h0 | hin
            · rw [h0]; rfl
            · rw [hk1] at hin
              exact hal1 _ (List.mem_of_mem_filter hin)
          have hf : next_ a &&& FLAG_HAS_GC_MEMBERS < 4 := by
            rw [and_members_eq]; omega
          have hword : ∀ x, x = a →
              (successor (Function.update r1.next_ a
                  (r1.head ||| (next_ a &&& FLAG_HAS_GC_MEMBERS)) x) = 0 ∨
                successor (Function.update r1.next_ a
                  (r1.head ||| (next_ a &&& FLAG_HAS_GC_MEMBERS)) x) ∈ a :: r1.kept) ∧
              Function.update r1.next_ a (r1.head ||| (next_ a &&& FLAG_HAS_GC_MEMBERS)) x &&&
                FLAG_MARKED = 0 ∧
              Function.update r1.next_ a (r1.head ||| (next_ a &&& FLAG_HAS_GC_MEMBERS)) x &&&
                FLAG_HAS_GC_MEMBERS = next_ x &&& FLAG_HAS_GC_MEMBERS := by
            intro x hx
            subst hx
            rw [Function.update_same, successor_tagged _ _ hhead hf]
            refine ⟨?_, ?_, ?_⟩
            · rcases hh with h0 | hin
              · exact Or.inl h0
              · exact Or.inr (List.mem_cons_of_mem _ hin)
            · rw [or_flags_of_aligned _ _ hhead hf, and_marked_eq]
              rw [and_mask_eq] at hhead
              have := and_members_eq (next_ x)
              omega
            · rw [or_flags_of_aligned _ _ hhead hf]
              rw [and_mask_eq] at hhead
              have e1 := and_members_eq (next_ x)
              have e2 := and_members_eq (r1.head + (next_ x &&& FLAG_HAS_GC_MEMBERS))
              omega
          by_cases hka : k = a
          · exact hword k hka
          · have hk' : k ∈ r1.kept := by
              simp only [List.mem_cons] at hk
              exact hk.resolve_left hka
            obtain ⟨c1, c2, c3⟩ := ih1 k hk'
            have hsame : Function.update r1.next_ a
                (r1.head ||| (next_ a &&& FLAG_HAS_GC_MEMBERS)) k = r1.next_ k :=
              Function.update_noteq hka _ _
            show (successor (Function.update r1.next_ a
                (r1.head ||| (next_ a &&& FLAG_HAS_GC_MEMBERS)) k) = 0 ∨
              successor (Function.update r1.next_ a
                (r1.head ||| (next_ a &&& FLAG_HAS_GC_MEMBERS)) k) ∈ a :: r1.kept) ∧
              Function.update r1.next_ a
                (r1.head ||| (next_ a &&& FLAG_HAS_GC_MEMBERS)) k &&& FLAG_MARKED = 0 ∧
              Function.update r1.next_ a
                (r1.head ||| (next_ a &&& FLAG_HAS_GC_MEMBERS)) k &&& FLAG_HAS_GC_MEMBERS =
                next_ k &&& FLAG_HAS_GC_MEMBERS
            rw [hsame]
            refine ⟨?_, c2, c3⟩
            rcases c1 with c1 | c1
            · exact Or.inl c1
            · exact Or.inr (List.mem_cons_of_mem _ c1)
        · rw [if_neg hm, Option.some.injEq] at h
          subst h
          exact ih1 k hk

/-- After the sweep, the chain that starts at the new head holds only
objects that were kept. -/
theorem swept_chain_subset (r : sweep_result)
    (hlink : ∀ k ∈ r.kept, successor (r.next_ k) = 0 ∨ successor (r.next_ k) ∈ r.kept)
    (m : Nat) : ∀ b, (b = 0 ∨ b ∈ r.kept) → ∀ x ∈ obj_chain r.next_ m b, x ∈ r.kept := by
  induction m with
  | zero => intro b _ x hx; simp [obj_chain] at hx
  | succ m ih =>
    intro b hb x hx
    by_cases hb0 : b = 0
    · simp [obj_chain, hb0] at hx
    · simp only [obj_chain, hb0, if_false, List.mem_cons] at hx
      have hbk : b ∈ r.kept := hb.resolve_left hb0
      rcases hx with rfl | hx
      · exact hbk
      · exact ih _ (hlink b hbk) x hx

/-! ## The collection cycle -/

theorem mark_length_le (refs : Nat → List Nat) (this : Nat) :
    ∀ (fuel : Nat) (w : World) (r : World × List Nat),
      gc._mark refs this fuel w = some r → r.2.length ≤ fuel := by
  intro fuel
  induction fuel with
  | zero =>
    intro w r hr
    by_cases hnil : (w.gcs this).pending_ = []
    · simp only [gc._mark, hnil, if_true, Option.some.injEq] at hr
      subst hr
      exact Nat.le_refl _
    · simp [gc._mark, hnil] at hr
  | succ fuel ih =>
    intro w r hr
    cases hlast : (w.gcs this).pending_.getLast? with
    | none =>
      simp only [gc._mark, hlast, Option.some.injEq] at hr
      subst hr
      exact Nat.zero_le _
    | some o =>
      simp only [gc._mark, hlast] at hr
      cases hrec : gc._mark refs this fuel (trace refs this o (pending_pop this w)) with
      | none => simp [hrec] at hr
      | some r1 =>
        simp only [hrec, Option.some.injEq] at hr
        subst hr
        exact Nat.succ_le_succ (ih _ r1 hrec)

/-- From a state in which no object is marked, seeding and the mark loop
run to an empty worklist within as many pops as the worklist held plus the
number of objects of the finite graph. -/
theorem seeded_mark_runs (refs : Nat → List Nat) (this : Nat) (U cs : List Nat) (w : World)
    (hU : closed_under refs U) (hcs : ∀ c ∈ cs, c ≠ 0 → c ∈ U)
    (hpU : ∀ x ∈ (w.gcs this).pending_, x ∈ U) :
    ∃ m, gc._mark refs this ((w.gcs this).pending_.length + U.length) (mark_all this cs w) =
      some m := by
  obtain ⟨fresh, hp, hnd, hmem⟩ := mark_all_pending this cs w
  apply mark_terminates refs this U hU
  · intro x hx
    rw [hp, List.mem_append] at hx
    rcases hx with hx | hx
    · exact hpU x hx
    · obtain ⟨hin, h0, _, _⟩ := (hmem x).mp hx
      exact hcs x hin h0
  · have hcount := unmarked_count U fresh w (mark_all this cs w) hnd
      (fun x hx => by
        obtain ⟨hin, h0, hnm, _⟩ := (hmem x).mp hx
        exact ⟨hcs x hin h0, hnm, (marked_mark_all_iff this cs w x).mpr (Or.inr ⟨hin, h0⟩)⟩)
      (fun x hx => (marked_mark_all_iff this cs w x).mpr (Or.inl hx))
    have hle : (unmarked_in w U).length ≤ U.length := List.length_filter_le _ _
    rw [hp, List.length_append]
    omega

/-- C12: the mark phase terminates on every finite object graph, cyclic and
self-referencing ones included.  From a state in which no object is marked
and the worklist is empty, after the worklist has been seeded by `mark` calls
on any pointers of the graph, the loop that pops an object and invokes its
trace operation reaches an empty worklist within as many pops as the graph
has objects, and it invokes the trace operation of no object twice. -/
theorem C12_mark_phase_terminates (refs : Nat → List Nat) (this : Nat) (U cs : List Nat)
    (w : World) (hU : closed_under refs U) (hcs : ∀ c ∈ cs, c ≠ 0 → c ∈ U)
    (hclean : ∀ a, ¬ marked w a) (hnil : (w.gcs this).pending_ = []) :
    ∃ m, gc._mark refs this U.length (mark_all this cs w) = some m ∧
      (m.1.gcs this).pending_ = [] ∧
      m.2.length ≤ U.length ∧
      m.2.Nodup ∧ (∀ o, m.2.count o ≤ 1) := by
  obtain ⟨m, hm⟩ := seeded_mark_runs refs this U cs w hU hcs (by rw [hnil]; simp)
  rw [hnil, List.length_nil, Nat.zero_add] at hm
  have hinv := mark_loop_invariant refs this (mark_inv refs w cs this)
    (fun w1 o h hl => mark_inv_step refs w cs this w1 o h hl) U.length _ m
    (mark_inv_setup refs this cs w hclean) hm
  obtain ⟨hnd, _⟩ := mark_traces_once refs this U.length _ m
    (worklist_ok_setup this cs w hnil) hm
  exact ⟨m, hm, hinv.2, mark_length_le refs this _ _ m hm, hnd,
    fun o => List.nodup_iff_count_le_one.mp hnd o⟩

/-- C12 at a concrete input: objects 8 and 12 reference each other and 8
references itself; from the seed 8 the loop traces 8, then 12, and stops
with an empty worklist after two pops. -/
theorem C12_mark_phase_terminates_witness :
    (gc._mark example_refs 1 [8, 12].length
      (mark_all 1 [8] (heap_world [8] 16 example_headers))).map
        (fun m => (m.1.gcs 1).pending_) = some [] ∧
    (gc._mark example_refs 1 [8, 12].length
      (mark_all 1 [8] (heap_world [8] 16 example_headers))).map (fun m => m.2) =
        some [8, 12] := by
  constructor
  · obtain ⟨m, h1, h2, _⟩ := C12_mark_phase_terminates example_refs 1 [8, 12] [8]
      (heap_world [8] 16 example_headers) (by unfold closed_under; decide) (by decide)
      (by
        intro a
        unfold marked heap_world example_headers
        simp only []
        split_ifs <;> decide)
      rfl
    rw [h1]
    simp only [Option.map_some', h2]
  · decide

/-- The cycle runs: from a state in which no object is marked, with a finite
object graph and a chain that reaches the null pointer, seeding, the mark
loop and the sweep all have results; the mark loop ends under its invariant
with an empty worklist, and the sweep works on the chain the cycle started
with. -/
theorem cycle_runs (refs : Nat → List Nat) (rs : List Nat) (this : Nat) (U : List Nat)
    (n : Nat) (w : World) (hclean : ∀ a, ¬ marked w a) (hU : closed_under refs U)
    (hsU : ∀ s ∈ seeds rs this w, s ≠ 0 → s ∈ U)
    (hpU : ∀ x ∈ (w.gcs this).pending_, x ∈ U)
    (hchain : chain_ends w.next_ n (w.gcs this).obj_head_ = true) :
    ∃ r sr, gc.trigger_gc refs rs ((w.gcs this).pending_.length + U.length) n this w = some r ∧
      gc._mark refs this ((w.gcs this).pending_.length + U.length) (gc._setup_roots rs this w) =
        some (r.after_mark, r.traced) ∧
      sweep_chain r.after_mark.next_ n (r.after_mark.gcs this).obj_head_ = some sr ∧
      r.kept = sr.kept ∧ r.dead = sr.dead ∧ r.stats.collected = sr.dead.length ∧
      r.stats.not_collected = sr.kept.length ∧
      r.w.next_ = sr.next_ ∧ (r.w.gcs this).obj_head_ = sr.head ∧
      mark_inv refs w (seeds rs this w) this r.after_mark ∧
      (r.after_mark.gcs this).pending_ = [] ∧
      obj_chain r.after_mark.next_ n (r.after_mark.gcs this).obj_head_ =
        obj_chain w.next_ n (w.gcs this).obj_head_ := by
  obtain ⟨m, hm⟩ := seeded_mark_runs refs this U (seeds rs this w) w hU hsU hpU
  have hinv := mark_loop_invariant refs this (mark_inv refs w (seeds rs this w) this)
    (fun w1 o h hl => mark_inv_step refs w _ this w1 o h hl) _ _ m
    (mark_inv_setup refs this _ w hclean) hm
  obtain ⟨⟨_, _, _, hlk, hhd⟩, hnil⟩ := hinv
  have hce : chain_ends m.1.next_ n (m.1.gcs this).obj_head_ = true := by
    rw [hhd this, chain_ends_congr _ _ hlk n]
    exact hchain
  obtain ⟨sr, hsr⟩ := sweep_chain_some m.1.next_ n _ hce
  have hsw : gc._sweep this n m.1 = some
      ((({ m.1 with next_ := sr.next_ } : World).set_gc this
        { m.1.gcs this with obj_head_ := sr.head }), sr) := by
    simp only [gc._sweep, hsr, Option.map_some']
  refine ⟨{ after_mark := m.1,
            w := (({ m.1 with next_ := sr.next_ } : World).set_gc this
              { m.1.gcs this with obj_head_ := sr.head }),
            stats := { on_stack := (w.gcs this).stack_.length,
                       slowly_marked := m.2.length,
                       not_collected := sr.kept.length,
                       collected := sr.dead.length },
            traced := m.2, kept := sr.kept, dead := sr.dead }, sr, ?_, hm, hsr, rfl, rfl, rfl,
    rfl, rfl, ?_, ?_, hnil, ?_⟩
  · have hm' : gc._mark refs this ((w.gcs this).pending_.length + U.length)
        (gc._setup_roots rs this w) = some m := hm
    simp only [gc.trigger_gc, hm', hsw]
  · simp [World.set_gc]
  · exact mark_loop_invariant refs this (mark_inv refs w (seeds rs this w) this)
      (fun w1 o h hl => mark_inv_step refs w _ this w1 o h hl) _ _ m
      (mark_inv_setup refs this _ w hclean) hm |>.1
  · show obj_chain m.1.next_ n (m.1.gcs this).obj_head_ = _
    rw [hhd this]
    exact obj_chain_congr _ _ hlk n _

theorem chain_mem_ne_zero (next_ : Nat → Nat) (fuel : Nat) :
    ∀ a x, x ∈ obj_chain next_ fuel a → x ≠ 0 := by
  induction fuel with
  | zero => intro a x hx; simp [obj_chain] at hx
  | succ fuel ih =>
    intro a x hx
    by_cases ha : a = 0
    · simp [obj_chain, ha] at hx
    · simp only [obj_chain, ha, if_false, List.mem_cons] at hx
      rcases hx with rfl | hx
      · exact ha
      · exact ih _ x hx

/-- The references that count for the collector are among those invariant
I1 speaks of. -/
theorem reachable_via_trace_of_reachable (refs : Nat → List Nat) (next_ : Nat → Nat)
    (roots : List Nat) (x : Nat) (h : Reachable refs next_ roots x) :
    Reachable_via_trace refs roots x := by
  induction h with
  | seed o ho h0 => exact Reachable_via_trace.seed o ho h0
  | ref o c _ _ hc h0 ih => exact Reachable_via_trace.ref o c ih hc h0

/-- When every object whose trace operation enumerates a non-null reference
has the has-outgoing-references bit, the two notions of reachability agree. -/
theorem reachable_of_declared (refs : Nat → List Nat) (next_ : Nat → Nat) (roots : List Nat)
    (hdecl : ∀ o c, c ∈ refs o → c ≠ 0 → next_ o &&& FLAG_HAS_GC_MEMBERS ≠ 0)
    (x : Nat) (h : Reachable_via_trace refs roots x) : Reachable refs next_ roots x := by
  induction h with
  | seed o ho h0 => exact Reachable.seed o ho h0
  | ref o c _ hc h0 ih => exact Reachable.ref o c ih (hdecl o c hc h0) hc h0

/-- A cycle that starts with a marked object, which invariant I2 excludes:
object 8 is on the handle stack, has outgoing references and is already
marked; it references the unmarked object 12.  Seeding calls `mark` on 8,
which returns at once, the worklist stays empty, and the sweep destroys
object 12. -/
theorem stale_mark_hides_reference :
    Reachable example_refs (heap_world [8] 12 stale_headers).next_
      (seeds [] 1 (heap_world [8] 12 stale_headers)) 12 ∧
    (gc.trigger_gc example_refs [] 2 2 1 (heap_world [8] 12 stale_headers)).map
      (fun r => r.dead) = some [12] ∧
    (gc.trigger_gc example_refs [] 2 2 1 (heap_world [8] 12 stale_headers)).map
      (fun r => decide (r.after_mark.next_ 12 &&& FLAG_MARKED = 0)) = some true := by
  refine ⟨?_, by decide, by decide⟩
  exact Reachable.ref 8 12 (Reachable.seed 8 (by decide) (by decide)) (by decide) (by decide)
    (by decide)

/-- C11, at a state where the claim as stated fails.  The chain is 12, 8, no
object is marked and the worklist is empty, as at the start of every cycle;
object 8 is on the handle stack and its trace operation enumerates object 12,
but object 8 was registered without the has-outgoing-references bit.
`gc::mark` (lines 216-228) marks object 8 and, the bit being clear, does not
push it, so the worklist stays empty, no trace operation runs, and
object 12, reachable from the handle stack through the trace operation of
object 8, is unmarked after the mark phase and destroyed by the sweep. -/
theorem C11_counterexample :
    unmarked_in (heap_world [8] 12 undeclared_headers) [8, 12] = [8, 12] ∧
    ((heap_world [8] 12 undeclared_headers).gcs 1).pending_ = [] ∧
    obj_chain (heap_world [8] 12 undeclared_headers).next_ 2
      ((heap_world [8] 12 undeclared_headers).gcs 1).obj_head_ = [12, 8] ∧
    seeds [] 1 (heap_world [8] 12 undeclared_headers) = [8] ∧
    Reachable_via_trace example_refs (seeds [] 1 (heap_world [8] 12 undeclared_headers)) 12 ∧
    (gc.mark 1 8 (heap_world [8] 12 undeclared_headers)).next_ 8 &&& FLAG_MARKED = 1 ∧
    ((gc.mark 1 8 (heap_world [8] 12 undeclared_headers)).gcs 1).pending_ = [] ∧
    (gc.mark 1 8 (heap_world [8] 12 undeclared_headers)).next_ 12 &&& FLAG_MARKED = 0 ∧
    (gc.trigger_gc example_refs [] 2 2 1 (heap_world [8] 12 undeclared_headers)).map
      (fun r => (r.traced, r.kept, r.dead, r.stats.collected)) = some ([], [8], [12], 1) ∧
    (gc.trigger_gc example_refs [] 2 2 1 (heap_world [8] 12 undeclared_headers)).map
      (fun r => decide (r.after_mark.next_ 12 &&& FLAG_MARKED = 0)) = some true := by
  refine ⟨by decide, by decide, by decide, by decide, ?_, by decide, by decide, by decide,
    by decide, by decide⟩
  exact Reachable_via_trace.ref 8 12 (Reachable_via_trace.seed 8 (by decide) (by decide))
    (by decide) (by decide)

/-- C11, amended (invariant I1): at the start of a cycle, where no object is
marked (I2), for every finite object graph that holds the worklist entries
and the seeds, and every chain that reaches the null pointer, the cycle runs,
and after seeding by `mark` on every persistent root and every handle-stack
slot and draining the worklist through the trace operations, every object
reachable from a root or a slot, directly or through the trace operations of
objects that have the has-outgoing-references bit, is marked, is not
destroyed by the sweep and, when it is in the chain, is among the objects
kept; the sweep destroys unmarked objects only.  When every object whose
trace operation enumerates a reference has the bit, this holds of every
object reachable through trace operations.  In particular, when every object
of the chain is held by a handle-stack slot or a persistent root, the cycle
collects 0 objects. -/
theorem C11_reachable_objects_survive (refs : Nat → List Nat) (rs : List Nat) (this : Nat)
    (U : List Nat) (n : Nat) (w : World) (hclean : ∀ a, ¬ marked w a)
    (hU : closed_under refs U) (hsU : ∀ s ∈ seeds rs this w, s ≠ 0 → s ∈ U)
    (hpU : ∀ x ∈ (w.gcs this).pending_, x ∈ U)
    (hchain : chain_ends w.next_ n (w.gcs this).obj_head_ = true) :
    ∃ r, gc.trigger_gc refs rs ((w.gcs this).pending_.length + U.length) n this w = some r ∧
      (r.after_mark.gcs this).pending_ = [] ∧
      (∀ x, Reachable refs w.next_ (seeds rs this w) x →
        marked r.after_mark x ∧ x ∉ r.dead ∧
        (x ∈ obj_chain w.next_ n (w.gcs this).obj_head_ → x ∈ r.kept)) ∧
      (∀ x ∈ r.dead, ¬ marked r.after_mark x ∧ x ∈ obj_chain w.next_ n (w.gcs this).obj_head_) ∧
      ((∀ x ∈ obj_chain w.next_ n (w.gcs this).obj_head_, x ∈ seeds rs this w) →
        r.dead = [] ∧ r.stats.collected = 0 ∧
        r.kept = obj_chain w.next_ n (w.gcs this).obj_head_) ∧
      ((∀ o c, c ∈ refs o → c ≠ 0 → has_members w o) →
        ∀ x, Reachable_via_trace refs (seeds rs this w) x →
          marked r.after_mark x ∧ x ∉ r.dead ∧
          (x ∈ obj_chain w.next_ n (w.gcs this).obj_head_ → x ∈ r.kept)) := by
  obtain ⟨r, sr, hr, _, hsr, hk, hd, hcol, _, _, _, hinv, hnil, hch⟩ :=
    cycle_runs refs rs this U n w hclean hU hsU hpU hchain
  obtain ⟨hkept, hdead, _, _⟩ := sweep_chain_lists _ _ _ sr hsr
  rw [hch] at hkept hdead
  have hmarked : ∀ x, Reachable refs w.next_ (seeds rs this w) x → marked r.after_mark x :=
    fun x hx => reachable_marked refs w _ this r.after_mark hinv hnil x hx
  have hlive : ∀ x, Reachable refs w.next_ (seeds rs this w) x →
      marked r.after_mark x ∧ x ∉ r.dead ∧
      (x ∈ obj_chain w.next_ n (w.gcs this).obj_head_ → x ∈ r.kept) := by
    intro x hx
    refine ⟨hmarked x hx, ?_, ?_⟩
    · rw [hd, hdead, List.mem_filter]
      rintro ⟨_, hz⟩
      exact hmarked x hx (by simpa using hz)
    · intro hin
      rw [hk, hkept, List.mem_filter]
      exact ⟨hin, by simpa [marked] using hmarked x hx⟩
  refine ⟨r, hr, hnil, hlive, ?_, ?_, ?_⟩
  · intro x hx
    rw [hd, hdead, List.mem_filter] at hx
    exact ⟨fun hmk => hmk (by simpa using hx.2), hx.1⟩
  · intro hall
    have hallm : ∀ x ∈ obj_chain w.next_ n (w.gcs this).obj_head_, marked r.after_mark x :=
      fun x hx => hmarked x (Reachable.seed x (hall x hx) (chain_mem_ne_zero _ _ _ x hx))
    have hd0 : r.dead = [] := by
      rw [hd, hdead, List.filter_eq_nil_iff]
      intro x hx
      simpa [marked] using hallm x hx
    refine ⟨hd0, ?_, ?_⟩
    · rw [hcol, ← hd, hd0]; rfl
    · rw [hk, hkept, List.filter_eq_self]
      intro x hx
      simpa [marked] using hallm x hx
  · intro hdecl x hx
    exact hlive x (reachable_of_declared refs w.next_ _ hdecl x hx)

/-- C11 at a concrete input: the chain 16, 12, 8 with object 8 on the handle
stack, objects 8 and 12 referencing each other and object 16 unreferenced:
the reachable object 12 is not destroyed, and the cycle keeps 12 and 8 and
destroys 16. -/
theorem C11_reachable_objects_survive_witness :
    (gc.trigger_gc example_refs []
      (((heap_world [8] 16 example_headers).gcs 1).pending_.length + [8, 12, 16].length) 3 1
      (heap_world [8] 16 example_headers)).map (fun r => decide (12 ∈ r.dead)) = some false ∧
    (gc.trigger_gc example_refs []
      (((heap_world [8] 16 example_headers).gcs 1).pending_.length + [8, 12, 16].length) 3 1
      (heap_world [8] 16 example_headers)).map (fun r => (r.kept, r.dead)) =
        some ([12, 8], [16]) := by
  constructor
  · obtain ⟨r, hr, _, h3, _⟩ := C11_reachable_objects_survive example_refs [] 1 [8, 12, 16] 3
      (heap_world [8] 16 example_headers)
      (by
        intro a
        unfold marked heap_world example_headers
        simp only []
        split_ifs <;> decide)
      (by unfold closed_under; decide) (by decide) (by decide) (by decide)
    have h12 : Reachable example_refs (heap_world [8] 16 example_headers).next_
        (seeds [] 1 (heap_world [8] 16 example_headers)) 12 :=
      Reachable.ref 8 12 (Reachable.seed 8 (by decide) (by decide)) (by decide) (by decide)
        (by decide)
    rw [hr]
    simp only [Option.map_some', Option.some.injEq, decide_eq_false_iff_not]
    exact (h3 12 h12).2.1
  · decide

/-! ## An unreachable cycle -/

/-- C13: an unreachable cycle is fully reclaimed by one collection.  From a
state in which no object is marked and the worklist is empty, for a finite
object graph and a chain of addresses with clear low bits that reaches the
null pointer: two distinct objects of the chain that reference each other
and are referenced by no persistent root, no handle-stack slot and no
reachable object are both unmarked after the mark phase, both destroyed by
the sweep, so that the reclaimed count is at least 2, and neither is among
the objects kept nor in the chain that starts at the new chain head. -/
theorem C13_unreachable_cycle_reclaimed (refs : Nat → List Nat) (rs : List Nat) (this : Nat)
    (U : List Nat) (n : Nat) (w : World) (a b : Nat) (hclean : ∀ x, ¬ marked w x)
    (hnil : (w.gcs this).pending_ = []) (hU : closed_under refs U)
    (hsU : ∀ s ∈ seeds rs this w, s ≠ 0 → s ∈ U)
    (hchain : chain_ends w.next_ n (w.gcs this).obj_head_ = true)
    (halign : ∀ x ∈ obj_chain w.next_ n (w.gcs this).obj_head_, x &&& FLAG_MASK = 0)
    (hab : a ≠ b)
    (ha : a ∈ obj_chain w.next_ n (w.gcs this).obj_head_)
    (hb : b ∈ obj_chain w.next_ n (w.gcs this).obj_head_)
    (_hrab : b ∈ refs a) (_hrba : a ∈ refs b)
    (hsa : a ∉ seeds rs this w) (hsb : b ∉ seeds rs this w)
    (hno : ∀ o, Reachable refs w.next_ (seeds rs this w) o → a ∉ refs o ∧ b ∉ refs o) :
    ∃ r, gc.trigger_gc refs rs ((w.gcs this).pending_.length + U.length) n this w = some r ∧
      ¬ marked r.after_mark a ∧ ¬ marked r.after_mark b ∧
      a ∈ r.dead ∧ b ∈ r.dead ∧ 2 ≤ r.stats.collected ∧
      a ∉ r.kept ∧ b ∉ r.kept ∧
      (∀ m, a ∉ obj_chain r.w.next_ m (r.w.gcs this).obj_head_ ∧
        b ∉ obj_chain r.w.next_ m (r.w.gcs this).obj_head_) := by
  obtain ⟨r, sr, hr, hmk, hsr, hk, hd, hcol, _, hnx, hhd, _, _, hch⟩ :=
    cycle_runs refs rs this U n w hclean hU hsU (by rw [hnil]; simp) hchain
  obtain ⟨hkept, hdead, hhead, _⟩ := sweep_chain_lists _ _ _ sr hsr
  have hlinks := sweep_chain_links _ _ _ sr hsr (by rw [hch]; exact halign)
  rw [hch] at hkept hdead
  have hsound := (mark_loop_invariant refs this (mark_sound refs w (seeds rs this w) this)
    (fun w1 o h hl => mark_sound_step refs w _ this w1 o h hl) _ _ _
    (mark_sound_setup refs this _ w hclean hnil) hmk).1
  have hna : ¬ Reachable refs w.next_ (seeds rs this w) a := by
    intro h
    cases h with
    | seed _ hin _ => exact hsa hin
    | ref o _ ho _ hc _ => exact (hno o ho).1 hc
  have hnb : ¬ Reachable refs w.next_ (seeds rs this w) b := by
    intro h
    cases h with
    | seed _ hin _ => exact hsb hin
    | ref o _ ho _ hc _ => exact (hno o ho).2 hc
  have hua : ¬ marked r.after_mark a := fun h => hna (hsound.1 a h)
  have hub : ¬ marked r.after_mark b := fun h => hnb (hsound.1 b h)
  have hda : a ∈ r.dead := by
    rw [hd, hdead, List.mem_filter]
    exact ⟨ha, by simpa [marked] using hua⟩
  have hdb : b ∈ r.dead := by
    rw [hd, hdead, List.mem_filter]
    exact ⟨hb, by simpa [marked] using hub⟩
  have hka : a ∉ r.kept := by
    rw [hk, hkept, List.mem_filter]
    rintro ⟨_, hz⟩
    exact hua (by simpa [marked] using hz)
  have hkb : b ∉ r.kept := by
    rw [hk, hkept, List.mem_filter]
    rintro ⟨_, hz⟩
    exact hub (by simpa [marked] using hz)
  have hsub : ∀ m, ∀ x ∈ obj_chain r.w.next_ m (r.w.gcs this).obj_head_, x ∈ r.kept := by
    intro m x hx
    rw [hnx, hhd] at hx
    rw [hk]
    exact swept_chain_subset sr (fun k hkk => (hlinks k hkk).1) m _ hhead x hx
  refine ⟨r, hr, hua, hub, hda, hdb, ?_, hka, hkb, fun m => ⟨fun h => hka (hsub m a h),
    fun h => hkb (hsub m b h)⟩⟩
  rw [hcol, ← hd]
  have hpair : [a, b].length ≤ r.dead.length := by
    apply List.Subperm.length_le
    apply List.Nodup.subperm (by simp [hab])
    intro x hx
    simp only [List.mem_cons, List.mem_singleton, List.not_mem_nil, or_false] at hx
    rcases hx with rfl | rfl
    · exact hda
    · exact hdb
  exact hpair

/-- In the example graph seeded with object 16 only, object 16 is the only
reachable object. -/
theorem example_reachable_only_16 (o : Nat)
    (h : Reachable example_refs (heap_world [16] 16 example_headers).next_
      (seeds [] 1 (heap_world [16] 16 example_headers)) o) : o = 16 := by
  induction h with
  | seed x hin _ =>
    have hs : seeds [] 1 (heap_world [16] 16 example_headers) = [16] := rfl
    rw [hs] at hin
    simpa using hin
  | ref x c _ hm _ _ ih =>
    subst ih
    exact absurd hm (by decide)

/-- C13 at a concrete input: the chain 16, 12, 8 with only object 16 on the
handle stack; objects 8 and 12 reference each other and nothing reachable
references them: one cycle destroys 12 and 8 and keeps 16. -/
theorem C13_unreachable_cycle_reclaimed_witness :
    (gc.trigger_gc example_refs []
      (((heap_world [16] 16 example_headers).gcs 1).pending_.length + [8, 12, 16].length) 3 1
      (heap_world [16] 16 example_headers)).map
        (fun r => decide (8 ∈ r.dead ∧ 12 ∈ r.dead ∧ 2 ≤ r.stats.collected)) = some true ∧
    (gc.trigger_gc example_refs []
      (((heap_world [16] 16 example_headers).gcs 1).pending_.length + [8, 12, 16].length) 3 1
      (heap_world [16] 16 example_headers)).map
        (fun r => (r.kept, r.dead, obj_chain r.w.next_ 3 (r.w.gcs 1).obj_head_)) =
        some ([16], [12, 8], [16]) := by
  constructor
  · obtain ⟨r, hr, _, _, h4, h5, h6, _⟩ := C13_unreachable_cycle_reclaimed example_refs [] 1
      [8, 12, 16] 3 (heap_world [16] 16 example_headers) 8 12
      (by
        intro a
        unfold marked heap_world example_headers
        simp only []
        split_ifs <;> decide)
      rfl (by unfold closed_under; decide) (by decide) (by decide) (by decide) (by decide)
      (by decide) (by decide) (by decide) (by decide) (by decide) (by decide)
      (fun o ho => by
        rw [example_reachable_only_16 o ho]
        decide)
    rw [hr]
    simp only [Option.map_some', Option.some.injEq, decide_eq_true_eq]
    exact ⟨h4, h5, h6⟩
  · decide

/-! ## The modelled cycle and the handle stacks -/

theorem mark_all_stacks (this : Nat) (cs : List Nat) (w : World) :
    (mark_all this cs w).top_ = w.top_ ∧
    handle_stacks (mark_all this cs w) = handle_stacks w := by
  obtain ⟨_, _, h3, _, h5⟩ := mark_all_keeps this cs w
  exact ⟨h3, funext (fun g => (h5 g).2.1)⟩

theorem mark_loop_stacks (refs : Nat → List Nat) (this : Nat) (fuel : Nat) (w : World)
    (m : World × List Nat) (h : gc._mark refs this fuel w = some m) :
    m.1.top_ = w.top_ ∧ handle_stacks m.1 = handle_stacks w := by
  have hinv := mark_loop_invariant refs this
    (fun w1 => w1.top_ = w.top_ ∧ handle_stacks w1 = handle_stacks w)
    (fun w1 o h1 _ => by
      obtain ⟨a1, a2⟩ := mark_all_stacks this (refs o) (pending_pop this w1)
      have hp : handle_stacks (pending_pop this w1) = handle_stacks w1 :=
        handle_stacks_set_gc_same w1 this _ (by rfl)
      exact ⟨a1.trans h1.1, (a2.trans hp).trans h1.2⟩)
    fuel w m ⟨rfl, rfl⟩ h
  exact hinv.1

/-- The modelled cycle leaves the active collector and every handle stack
as they are: it is a cycle of the kind the programs assume. -/
theorem modelled_cycle_keeps_stacks (refs : Nat → List Nat) (rs : List Nat)
    (mark_fuel sweep_fuel : Nat) : keeps_stacks (modelled_cycle refs rs mark_fuel sweep_fuel) := by
  intro this w
  cases hm : gc._mark refs this mark_fuel (gc._setup_roots rs this w) with
  | none =>
    simp [modelled_cycle, gc.trigger_gc, hm]
  | some m =>
    obtain ⟨b1, b2⟩ := mark_loop_stacks refs this mark_fuel _ m hm
    obtain ⟨c1, c2⟩ := mark_all_stacks this (seeds rs this w) w
    cases hs : gc._sweep this sweep_fuel m.1 with
    | none =>
      simp [modelled_cycle, gc.trigger_gc, hm, hs]
    | some s =>
      simp only [modelled_cycle, gc.trigger_gc, hm, hs]
      simp only [gc._sweep, Option.map_eq_some'] at hs
      obtain ⟨sr, _, rfl⟩ := hs
      refine ⟨?_, ?_⟩
      · show m.1.top_ = w.top_
        exact b1.trans c1
      · show handle_stacks (({ m.1 with next_ := sr.next_ } : World).set_gc this
            { m.1.gcs this with obj_head_ := sr.head }) = handle_stacks w
        exact (handle_stacks_set_gc_same _ this _ (by rfl)).trans (b2.trans c2)

end picogc
